import Mathlib

/-!
# go_crud: the request-guard pipeline

A shallow embedding of the guard pipeline of the `go_crud` service
(`middleware/ratelimit.go`, `auth/jwt.go`, `auth/rbac.go`, `middleware/auth.go`), of the
VM search (`internal/dblinker/main_LoadDb.go`), of the input validation
(`validation/validator.go`) and of the page arithmetic (`utils/pagination.go`), and the
properties its specification states about them.

Conventions of the embedding.

* A `time.Time` instant is an integer number of nanoseconds since the epoch and a
  `time.Duration` an integer number of nanoseconds; `t.After(u)` is `u < t` and
  `t.Before(u)` is `t < u`.
* Every call of `time.Now()` in the source is an explicit argument of the embedded
  function, one argument per call, in the order in which the source reads the clock.
* A Go `map[string][]time.Time` is a function from keys to optional lists: `none` is an
  absent key, `some []` a key bound to an empty (or nil) slice.
* A function that returns `(value, error)` returns an `Except String value`.
* A function that changes the store returns the store it leaves.
-/

namespace GoCrud

deriving instance DecidableEq for Except

/-- One second, `time.Second`. -/
def Second : Int := 1000000000

/-- One minute, `time.Minute`. -/
def Minute : Int := 60 * Second

/-- One hour, `time.Hour`. -/
def Hour : Int := 60 * Minute

/-! ## middleware/ratelimit.go -/

/-- The `RateLimiter` struct: the window records, the limit and the window.  The mutex is
not part of the state: every method below is one critical section. -/
structure RateLimiter where
  requests : String → Option (List Int)
  limit : Int
  window : Int

/-- `NewRateLimiter`: an empty map and the two parameters. -/
def NewRateLimiter (limit : Int) (window : Int) : RateLimiter :=
  { requests := fun _ => none, limit := limit, window := window }

/-- The loop `for _, reqTime := range requests { if reqTime.After(cutoff) { append } }`
shared by `IsAllowed` and `cleanup`. -/
def validRequests (cutoff : Int) (requests : List Int) : List Int :=
  requests.filter (fun reqTime => decide (cutoff < reqTime))

/-- The assignment `rl.requests[key] = v`. -/
def RateLimiter.store (rl : RateLimiter) (key : String) (v : List Int) : RateLimiter :=
  { rl with requests := fun k => if k = key then some v else rl.requests k }

/-- `RateLimiter.IsAllowed`, with the clock reading `now` as an argument: the decision and
the limiter after the call. -/
def RateLimiter.IsAllowed (rl : RateLimiter) (now : Int) (key : String) :
    Bool × RateLimiter :=
  let cutoff := now - rl.window
  let requests := (rl.requests key).getD []
  let valid := validRequests cutoff requests
  if (valid.length : Int) < rl.limit then
    (true, rl.store key (valid ++ [now]))
  else
    (false, rl.store key valid)

/-- One iteration of the ticker loop of `RateLimiter.cleanup`: every key is pruned, and a
key whose pruned list is empty is deleted. -/
def RateLimiter.cleanup (rl : RateLimiter) (now : Int) : RateLimiter :=
  let cutoff := now - rl.window
  { rl with requests := fun key =>
      match rl.requests key with
      | none => none
      | some requests =>
        let valid := validRequests cutoff requests
        if valid.length = 0 then none else some valid }

/-- What happens to a limiter: an admission check for a key, or a sweep of the cleanup
worker, each at the instant its clock reading returned. -/
inductive Event where
  | isAllowed (key : String) (now : Int)
  | sweep (now : Int)

/-- The clock reading of an event. -/
def Event.time : Event → Int
  | .isAllowed _ now => now
  | .sweep now => now

/-- One `IsAllowed` call as seen by its caller. -/
structure Call where
  key : String
  time : Int
  allowed : Bool

/-- The `IsAllowed` calls of a run of events from a limiter state, in order, each with the
decision it returned. -/
def runEvents (rl : RateLimiter) : List Event → List Call
  | [] => []
  | .isAllowed key now :: es =>
    { key := key, time := now, allowed := (rl.IsAllowed now key).1 } ::
      runEvents (rl.IsAllowed now key).2 es
  | .sweep now :: es => runEvents (rl.cleanup now) es

/-- The number of calls for `key` that returned true at an instant in `(T - window, T]`. -/
def admittedIn (calls : List Call) (key : String) (window : Int) (T : Int) : Nat :=
  (calls.filter (fun c =>
    decide (c.key = key) && c.allowed && decide (T - window < c.time) && decide (c.time ≤ T))).length

/-- The list bound to `key`, an absent key read as the empty list (what
`requests, exists := rl.requests[key]` leaves in `requests`). -/
def RateLimiter.stored (rl : RateLimiter) (key : String) : List Int :=
  (rl.requests key).getD []

/-- The instants of the calls for `key` that returned true, in order. -/
def admittedTimes (calls : List Call) (key : String) : List Int :=
  (calls.filter (fun c => decide (c.key = key) && c.allowed)).map Call.time

/-! ## models/user.go -/

/-- The `User` record: the fields the guard pipeline reads or writes.  `uint` is a natural
number; the timestamps and the profile relation play no part in the pipeline. -/
structure User where
  ID : Nat
  Username : String
  Email : String
  Password : String
  FirstName : String
  LastName : String
  IsActive : Bool
  deriving DecidableEq, Repr

/-! ## auth/jwt.go: tokens

The service calls `github.com/golang-jwt/jwt/v5`.  What that library does with the values
the service hands it is written out below (`NewNumericDate`, `GetSigningMethod`,
`ParseWithClaims`); its compact serialisation and the HMAC itself are parameters
(`JwtLib`). -/

/-- The dates of `jwt.RegisteredClaims`, each a `*NumericDate` (absent when nil).  The
issuer, subject, audience and id are never set nor required by the service. -/
structure RegisteredClaims where
  ExpiresAt : Option Int
  NotBefore : Option Int
  IssuedAt : Option Int
  deriving DecidableEq, Repr

/-- The `Claims` struct: the principal and the embedded registered claims. -/
structure Claims where
  UserID : Nat
  Username : String
  Email : String
  Registered : RegisteredClaims
  deriving DecidableEq, Repr

/-- A decoded token: the `alg` of the header, the claims and the signature bytes. -/
structure Token where
  alg : String
  claims : Claims
  signature : List UInt8
  deriving DecidableEq

/-- The parts of the jwt library the embedding does not write out: the compact
serialisation (`header.claims.signature`, each segment base64url) and the HMAC of the
serialised header and claims under a key, with the hash that `alg` names. -/
structure JwtLib where
  encode : Token → String
  decode : String → Option Token
  mac : String → List UInt8 → Claims → List UInt8

/-- The `AuthService` struct. -/
structure AuthService where
  secretKey : List UInt8

/-- `NewAuthService`: the key is the bytes of the configured string. -/
def NewAuthService (secretKey : String) : AuthService :=
  { secretKey := secretKey.toUTF8.data.toList }

/-- `jwt.NewNumericDate`: the instant truncated to `jwt.TimePrecision`, one second. -/
def NewNumericDate (t : Int) : Int := t / Second * Second

/-- The families of signing methods the jwt library registers. -/
inductive SigningMethod where
  | HMAC (name : String)
  | RSA (name : String)
  | RSAPSS (name : String)
  | ECDSA (name : String)
  | Ed25519
  | None
  deriving DecidableEq

/-- `jwt.GetSigningMethod`: the method registered under an `alg`, if any. -/
def GetSigningMethod (alg : String) : Option SigningMethod :=
  if alg = "HS256" ∨ alg = "HS384" ∨ alg = "HS512" then some (.HMAC alg)
  else if alg = "RS256" ∨ alg = "RS384" ∨ alg = "RS512" then some (.RSA alg)
  else if alg = "PS256" ∨ alg = "PS384" ∨ alg = "PS512" then some (.RSAPSS alg)
  else if alg = "ES256" ∨ alg = "ES384" ∨ alg = "ES512" then some (.ECDSA alg)
  else if alg = "EdDSA" then some .Ed25519
  else if alg = "none" then some .None
  else none

/-- The claims `GenerateToken` builds: the principal, and the three dates, each from its
own `time.Now()` (the composite literal evaluates `ExpiresAt`, `IssuedAt`, `NotBefore` in
that order). -/
def mintClaims (nowExp nowIat nowNbf : Int) (user : User) : Claims :=
  { UserID := user.ID
    Username := user.Username
    Email := user.Email
    Registered :=
      { ExpiresAt := some (NewNumericDate (nowExp + 24 * Hour))
        IssuedAt := some (NewNumericDate nowIat)
        NotBefore := some (NewNumericDate nowNbf) } }

/-- `jwt.NewWithClaims(jwt.SigningMethodHS256, claims)` signed with the service key: the
token whose serialisation `SignedString` returns. -/
def AuthService.signedToken (svc : AuthService) (lib : JwtLib) (claims : Claims) : Token :=
  { alg := "HS256", claims := claims, signature := lib.mac "HS256" svc.secretKey claims }

/-- `AuthService.GenerateToken`.  Signing with an HMAC method and a byte-slice key has no
error path. -/
def AuthService.GenerateToken (svc : AuthService) (lib : JwtLib) (nowExp nowIat nowNbf : Int)
    (user : User) : Except String String :=
  .ok (lib.encode (svc.signedToken lib (mintClaims nowExp nowIat nowNbf user)))

/-- The key function `ValidateToken` passes to the parser: the key for an HMAC method, an
error for every other method. -/
def AuthService.keyFunc (svc : AuthService) (method : SigningMethod) :
    Except String (List UInt8) :=
  match method with
  | .HMAC _ => .ok svc.secretKey
  | _ => .error "unexpected signing method"

/-- The expiry check of the jwt validator: `now.Before(exp)` when `exp` is present. -/
def verifyExpiresAt (now : Int) (exp : Option Int) : Bool :=
  match exp with
  | none => true
  | some e => decide (now < e)

/-- The not-before check of the jwt validator: `!now.Before(nbf)` when `nbf` is present. -/
def verifyNotBefore (now : Int) (nbf : Option Int) : Bool :=
  match nbf with
  | none => true
  | some n => decide (¬ now < n)

/-- The validator of the jwt library with its default options (no leeway, `exp` not
required, issued-at not checked) at the instant `now`. -/
def validateClaims (now : Int) (c : RegisteredClaims) : Except String Unit :=
  if verifyExpiresAt now c.ExpiresAt = false then .error "token is expired"
  else if verifyNotBefore now c.NotBefore = false then .error "token is not valid yet"
  else .ok ()

/-- `jwt.ParseWithClaims` with the key function of the service: decode, look the method
up, ask the key function for the key, verify the signature, validate the claims. -/
def AuthService.ParseWithClaims (svc : AuthService) (lib : JwtLib) (now : Int)
    (tokenString : String) : Except String Claims :=
  match lib.decode tokenString with
  | none => .error "token is malformed"
  | some token =>
    match GetSigningMethod token.alg with
    | none => .error "token is unverifiable: signing method (alg) is unavailable"
    | some method =>
      match svc.keyFunc method with
      | .error e => .error ("token is unverifiable: error while executing keyfunc: " ++ e)
      | .ok key =>
        if lib.mac token.alg key token.claims = token.signature then
          match validateClaims now token.claims.Registered with
          | .error e => .error e
          | .ok _ => .ok token.claims
        else .error "token signature is invalid"

/-- `AuthService.ValidateToken`; `now` is the clock reading of the validator. -/
def AuthService.ValidateToken (svc : AuthService) (lib : JwtLib) (now : Int)
    (tokenString : String) : Except String Claims :=
  match svc.ParseWithClaims lib now tokenString with
  | .error e => .error ("failed to parse token: " ++ e)
  | .ok claims => .ok claims

/-- `AuthService.RefreshToken`.  The clock is read by the validator, by `time.Until`, and
three times by `GenerateToken`.  `claims.ExpiresAt.Time` on a token without `exp` is a nil
dereference; it is an error here. -/
def AuthService.RefreshToken (svc : AuthService) (lib : JwtLib)
    (nowValidate nowUntil nowExp nowIat nowNbf : Int) (tokenString : String) :
    Except String String :=
  match svc.ValidateToken lib nowValidate tokenString with
  | .error e => .error ("failed to validate token: " ++ e)
  | .ok claims =>
    match claims.Registered.ExpiresAt with
    | none => .error "nil pointer dereference"
    | some exp =>
      if exp - nowUntil > Hour then .error "token is not close to expiry"
      else
        svc.GenerateToken lib nowExp nowIat nowNbf
          { ID := claims.UserID, Username := claims.Username, Email := claims.Email,
            Password := "", FirstName := "", LastName := "", IsActive := false }

/-- A stand-in for the HMAC: the key followed by the low bytes of the user id and of the
expiry second. -/
def tableMac (key : List UInt8) (claims : Claims) : List UInt8 :=
  key ++ [UInt8.ofNat claims.UserID,
    UInt8.ofNat ((claims.Registered.ExpiresAt.getD 0) / Second).toNat]

/-- A serialisation for a finite table of tokens: each listed token is written as its
name, and only the names decode. -/
def tableLib (table : List (String × Token)) : JwtLib :=
  { encode := fun token =>
      match table.find? (fun e => decide (e.2 = token)) with
      | some e => e.1
      | none => ""
    decode := fun s =>
      match table.find? (fun e => decide (e.1 = s)) with
      | some e => some e.2
      | none => none
    mac := fun _ key claims => tableMac key claims }

/-- A principal for the worked examples. -/
def ada : User :=
  { ID := 7, Username := "ada", Email := "ada@x", Password := "", FirstName := "",
    LastName := "", IsActive := false }

/-- A service for the worked examples. -/
def demoService : AuthService := { secretKey := [115, 51, 99] }

/-- The token `demoService` mints for `ada` from the given clock readings. -/
def demoToken (nowExp nowIat nowNbf : Int) : Token :=
  demoService.signedToken (tableLib []) (mintClaims nowExp nowIat nowNbf ada)

/-- The serialisation table of the refresh example: the token minted for `ada` at
instant 0 and the one minted at 84599.5 s, half an hour before the first expires. -/
def refreshLib : JwtLib :=
  tableLib [("old", demoToken 0 0 0),
    ("new", demoToken 84599500000000 84599500000000 84599500000000)]

/-! ## auth/jwt.go: passwords

`HashPassword` and `CheckPassword` hand the secret to `golang.org/x/crypto/bcrypt`.  What
the library does with the bytes of the secret is written out (`keyStream`, the length
check of `GenerateFromPassword`, the comparison of `CompareHashAndPassword`); the Blowfish
computation and the text form of a hash are parameters (`BcryptLib`). -/

/-- The parts of the bcrypt library the embedding does not write out: `core cost salt
stream` is the digest the Blowfish rounds derive from the bytes the key schedule reads;
`format` and `parse` are the text form of a hash (version, cost, salt, digest) and its
reading. -/
structure BcryptLib where
  core : Nat → List UInt8 → List UInt8 → List UInt8
  format : Nat → List UInt8 → List UInt8 → String
  parse : String → Option (Nat × List UInt8 × List UInt8)

/-- `bcrypt.DefaultCost`. -/
def DefaultCost : Nat := 10

/-- The bytes of a Go string, `[]byte(s)`. -/
def bytesOf (s : String) : List UInt8 := s.toUTF8.data.toList

/-- The bytes the Blowfish key schedule reads from a secret: bcrypt appends a zero byte to
the secret, and the schedule (`blowfish.ExpandKey`, `getNextWord`) reads 18 words of 4
bytes from the result, starting over at its end. -/
def keyStream (password : List UInt8) : List UInt8 :=
  (List.range 72).map (fun i => (password ++ [0]).getD (i % (password.length + 1)) 0)

/-- `bcrypt.GenerateFromPassword` with the salt it drew: a secret of more than 72 bytes
is refused (`ErrPasswordTooLong`), any other is hashed under the salt. -/
def GenerateFromPassword (lib : BcryptLib) (salt : List UInt8) (password : List UInt8)
    (cost : Nat) : Except String String :=
  if password.length > 72 then .error "bcrypt: password length exceeds 72 bytes"
  else .ok (lib.format cost salt (lib.core cost salt (keyStream password)))

/-- `bcrypt.CompareHashAndPassword`: the candidate is hashed under the cost and the salt
read from the hash, and the digests are compared. -/
def CompareHashAndPassword (lib : BcryptLib) (hashedPassword : String)
    (password : List UInt8) : Except String Unit :=
  match lib.parse hashedPassword with
  | none => .error "crypto/bcrypt: hashedSecret too short to be a bcrypted password"
  | some (cost, salt, digest) =>
    if lib.core cost salt (keyStream password) = digest then .ok ()
    else .error "crypto/bcrypt: hashedPassword is not the hash of the given password"

/-- `AuthService.HashPassword`; `salt` is the salt the library draws. -/
def AuthService.HashPassword (_svc : AuthService) (lib : BcryptLib) (salt : List UInt8)
    (password : String) : Except String String :=
  match GenerateFromPassword lib salt (bytesOf password) DefaultCost with
  | .error e => .error ("failed to hash password: " ++ e)
  | .ok hashedPassword => .ok hashedPassword

/-- `AuthService.CheckPassword`: `.ok ()` is the nil error. -/
def AuthService.CheckPassword (_svc : AuthService) (lib : BcryptLib)
    (hashedPassword password : String) : Except String Unit :=
  CompareHashAndPassword lib hashedPassword (bytesOf password)

/-- A stand-in for the bcrypt library: the digest is the key stream itself, and a hash is
written as one character per byte of cost, salt (16 bytes) and digest. -/
def demoBcrypt : BcryptLib :=
  { core := fun _ _ stream => stream
    format := fun cost salt digest =>
      String.mk ((UInt8.ofNat cost :: salt ++ digest).map (fun b => Char.ofNat b.toNat))
    parse := fun s =>
      match s.toList.map (fun c => UInt8.ofNat c.toNat) with
      | [] => none
      | c :: rest =>
        if 16 ≤ rest.length then some (c.toNat, rest.take 16, rest.drop 16) else none }

/-- A salt for the worked examples. -/
def demoSalt : List UInt8 := [1, 2, 3, 4, 5, 6, 7, 8, 9, 10, 11, 12, 13, 14, 15, 16]

/-- A secret of 73 bytes. -/
def longSecret : String := String.mk (List.replicate 73 (Char.ofNat 97))

/-! ## auth/rbac.go

The store behind `*gorm.DB` is the two tables of the service and the failures of the
store: a query either fails with an error or is answered from the tables.  String
comparison in a `WHERE` clause is equality. -/

/-- A row of the role-grant table. -/
structure UserRole where
  ID : Nat
  UserID : Nat
  Role : String
  deriving DecidableEq, Repr

/-- A row of the role-permission table. -/
structure RolePermission where
  ID : Nat
  Role : String
  Permission : String
  deriving DecidableEq, Repr

/-- The queries the service sends to the store: the four reads, and the insert and the
delete on the role-permission table. -/
inductive Query where
  | pluckRoles (userID : Nat)
  | countUserRole (userID : Nat) (role : String)
  | countRolePermission (role permission : String)
  | pluckPermissions (role : String)
  | createRolePermission (role permission : String)
  | deleteRolePermission (role permission : String)

/-- The store: its tables, and the error, if any, with which it answers a query. -/
structure DB where
  userRoles : List UserRole
  rolePermissions : List RolePermission
  fails : Query → Option String

/-- The `RBACService` struct. -/
structure RBACService where
  db : DB

/-- `Model(&UserRole{}).Where("user_id = ?", userID).Pluck("role", &roles)`. -/
def RBACService.GetUserRoles (rs : RBACService) (userID : Nat) : Except String (List String) :=
  match rs.db.fails (.pluckRoles userID) with
  | some e => .error e
  | none => .ok ((rs.db.userRoles.filter (fun ur => decide (ur.UserID = userID))).map (·.Role))

/-- `Model(&UserRole{}).Where("user_id = ? AND role = ?", ...).Count(&count)`, then
`count > 0`; the callers read the error first. -/
def RBACService.HasRole (rs : RBACService) (userID : Nat) (role : String) : Except String Bool :=
  match rs.db.fails (.countUserRole userID role) with
  | some e => .error e
  | none =>
    .ok (decide ((rs.db.userRoles.filter
      (fun ur => decide (ur.UserID = userID) && decide (ur.Role = role))).length > 0))

/-- `Model(&RolePermission{}).Where("role = ? AND permission = ?", ...).Count(&count)`. -/
def RBACService.countRolePermission (rs : RBACService) (role permission : String) :
    Except String Nat :=
  match rs.db.fails (.countRolePermission role permission) with
  | some e => .error e
  | none =>
    .ok (rs.db.rolePermissions.filter
      (fun rp => decide (rp.Role = role) && decide (rp.Permission = permission))).length

/-- The loop of `HasPermission` over the roles of the principal. -/
def RBACService.anyRoleGrants (rs : RBACService) (permission : String) :
    List String → Except String Bool
  | [] => .ok false
  | role :: roles =>
    match rs.countRolePermission role permission with
    | .error e => .error e
    | .ok count => if count > 0 then .ok true else rs.anyRoleGrants permission roles

/-- `RBACService.HasPermission`. -/
def RBACService.HasPermission (rs : RBACService) (userID : Nat) (permission : String) :
    Except String Bool :=
  match rs.GetUserRoles userID with
  | .error e => .error e
  | .ok roles => rs.anyRoleGrants permission roles

/-- `RBACService.RequirePermission`: `.ok ()` is the nil error. -/
def RBACService.RequirePermission (rs : RBACService) (userID : Nat) (permission : String) :
    Except String Unit :=
  match rs.HasPermission userID permission with
  | .error e => .error ("failed to check permission: " ++ e)
  | .ok hasPermission =>
    if !hasPermission then .error ("insufficient permissions: " ++ permission ++ " required")
    else .ok ()

/-- `RBACService.RequireRole`. -/
def RBACService.RequireRole (rs : RBACService) (userID : Nat) (role : String) :
    Except String Unit :=
  match rs.HasRole userID role with
  | .error e => .error ("failed to check role: " ++ e)
  | .ok hasRole =>
    if !hasRole then .error ("insufficient role: " ++ role ++ " required")
    else .ok ()

/-- `RBACService.RequireOwnershipOrRole`. -/
def RBACService.RequireOwnershipOrRole (rs : RBACService) (userID resourceUserID : Nat)
    (role : String) : Except String Unit :=
  if userID = resourceUserID then .ok ()
  else rs.RequireRole userID role

/-- A store for the worked examples: principal 7 has the role `user`, principal 9 has no
role; `user` may create and read posts; no query fails. -/
def demoDB : DB :=
  { userRoles := [{ ID := 1, UserID := 7, Role := "user" }]
    rolePermissions :=
      [{ ID := 1, Role := "user", Permission := "create:post" },
       { ID := 2, Role := "user", Permission := "read:post" },
       { ID := 3, Role := "admin", Permission := "manage:system" }]
    fails := fun _ => none }

/-! ## middleware/auth.go

Of `gin.Context` the embedding keeps what the middlewares read and write: the
`Authorization` header and the client address of the request, the keys set on the context,
the response (headers, status, body), whether the chain was aborted, and whether the
middleware called `c.Next()`, that is, handed the request to the downstream handlers. -/

/-- A value stored under a context key or in a JSON body. -/
inductive Value where
  | uint (n : Nat)
  | int (n : Int)
  | str (s : String)
  deriving DecidableEq, Repr

/-- The request context. -/
structure Context where
  authorization : String
  clientIP : String
  keys : String → Option Value
  headers : List (String × String)
  status : Option Nat
  body : List (String × Value)
  aborted : Bool
  dispatched : Bool

/-- The context of a request as a middleware receives it: nothing written, not aborted,
not yet handed on.  `authorization` is what `c.GetHeader("Authorization")` returns, the
empty string when the header is absent. -/
def newRequest (authorization clientIP : String) (keys : String → Option Value) : Context :=
  { authorization := authorization, clientIP := clientIP, keys := keys, headers := [],
    status := none, body := [], aborted := false, dispatched := false }

/-- The call `c.Set(key, value)`. -/
def Context.Set (c : Context) (key : String) (value : Value) : Context :=
  { c with keys := fun k => if k = key then some value else c.keys k }

/-- The call `c.JSON(code, obj)`. -/
def Context.JSON (c : Context) (code : Nat) (obj : List (String × Value)) : Context :=
  { c with status := some code, body := obj }

/-- The call `c.Abort()`. -/
def Context.Abort (c : Context) : Context := { c with aborted := true }

/-- The call `c.Next()`. -/
def Context.Next (c : Context) : Context := { c with dispatched := true }

/-- `http.StatusUnauthorized`. -/
def StatusUnauthorized : Nat := 401

/-- `strings.Split` for a separator of one character, on lists of characters: the pieces
between the separators, in order; one piece more than there are separators. -/
def splitChars (sep : Char) : List Char → List (List Char)
  | [] => [[]]
  | c :: cs =>
    if c = sep then [] :: splitChars sep cs
    else
      match splitChars sep cs with
      | [] => [[c]]
      | p :: ps => (c :: p) :: ps

/-- `strings.Split(s, sep)` for a separator of one character. -/
def Split (s : String) (sep : Char) : List String :=
  (splitChars sep s.data).map String.mk

/-- `AuthMiddleware`: the handler it returns, applied to a context; `now` is the clock
reading of the token validator. -/
def AuthMiddleware (svc : AuthService) (lib : JwtLib) (now : Int) (c : Context) : Context :=
  let authHeader := c.authorization
  if authHeader = "" then
    (c.JSON StatusUnauthorized [("error", .str "Authorization header required")]).Abort
  else
    let tokenParts := Split authHeader ' '
    if tokenParts.length ≠ 2 ∨ tokenParts.getD 0 "" ≠ "Bearer" then
      (c.JSON StatusUnauthorized [("error", .str "Invalid authorization header format")]).Abort
    else
      let token := tokenParts.getD 1 ""
      match svc.ValidateToken lib now token with
      | .error _ => (c.JSON StatusUnauthorized [("error", .str "Invalid token")]).Abort
      | .ok claims =>
        (((c.Set "user_id" (.uint claims.UserID)).Set "username" (.str claims.Username)).Set
          "email" (.str claims.Email)).Next

/-- `OptionalAuthMiddleware`: the handler it returns, applied to a context. -/
def OptionalAuthMiddleware (svc : AuthService) (lib : JwtLib) (now : Int) (c : Context) :
    Context :=
  let authHeader := c.authorization
  if authHeader = "" then c.Next
  else
    let tokenParts := Split authHeader ' '
    if tokenParts.length ≠ 2 ∨ tokenParts.getD 0 "" ≠ "Bearer" then c.Next
    else
      let token := tokenParts.getD 1 ""
      match svc.ValidateToken lib now token with
      | .error _ => c.Next
      | .ok claims =>
        (((c.Set "user_id" (.uint claims.UserID)).Set "username" (.str claims.Username)).Set
          "email" (.str claims.Email)).Next

/-- The serialisation table of the middleware examples: the token minted for `ada` at
instant 0, under the name `tok`. -/
def bearerLib : JwtLib := tableLib [("tok", demoToken 0 0 0)]

/-! ## middleware/ratelimit.go: the readers -/

/-- `RateLimiter.GetRemainingRequests`, with its clock reading as an argument. -/
def RateLimiter.GetRemainingRequests (rl : RateLimiter) (now : Int) (key : String) : Int :=
  let cutoff := now - rl.window
  match rl.requests key with
  | none => rl.limit
  | some requests =>
    let validCount := (requests.filter (fun reqTime => decide (cutoff < reqTime))).length
    let remaining := rl.limit - (validCount : Int)
    if remaining < 0 then 0 else remaining

/-- The loop of `GetResetTime`: starting from `requests[0]`, every stored timestamp that
is before the oldest seen so far replaces it. -/
def oldestOf (oldest : Int) (requests : List Int) : Int :=
  requests.foldl (fun oldest reqTime => if reqTime < oldest then reqTime else oldest) oldest

/-- `RateLimiter.GetResetTime`; `now` is what `time.Now()` returns when the key has no
record or an empty one. -/
def RateLimiter.GetResetTime (rl : RateLimiter) (now : Int) (key : String) : Int :=
  match rl.requests key with
  | none => now
  | some [] => now
  | some (first :: rest) => oldestOf first (first :: rest) + rl.window

/-- One event applied to a limiter. -/
def stepEvent (rl : RateLimiter) : Event → RateLimiter
  | .isAllowed key now => (rl.IsAllowed now key).2
  | .sweep now => rl.cleanup now

/-- The limiter after a run of events. -/
def execEvents (rl : RateLimiter) : List Event → RateLimiter
  | [] => rl
  | e :: es => execEvents (stepEvent rl e) es

/-- A limiter for the worked examples: limit 1, window 10, the key `a` bound to the
single timestamp 5. -/
def oneSlot : RateLimiter := (NewRateLimiter 1 10).store "a" [5]

/-! ## float64

Two places of the source compute in float64: the whole seconds of a duration and the number
of pages.  The arithmetic is that of IEEE 754 binary64: a conversion, a quotient or a sum is
the exact result rounded to 53 significant bits, to the nearest, ties to the even mantissa.
The range of the exponent is not modelled: the values met here are integers of 64 bits,
their quotients and sums of the two, which lie between 2^-63 and 2^64, far from overflow
and from the subnormal numbers. -/

/-- A float64 value: a finite one, of sign `neg` and magnitude `m * 2^e` (written with any
mantissa `m` and exponent `e` that give the value), an infinity, or a NaN. -/
inductive Float64 where
  | finite (neg : Bool) (m : Nat) (e : Int)
  | inf (neg : Bool)
  | nan
  deriving DecidableEq, Repr

/-- The search behind `floorLog2`, `fuel` bounding the number of halvings. -/
def floorLog2Aux : Nat → Nat → Nat
  | 0, _ => 0
  | fuel + 1, n => if n < 2 then 0 else floorLog2Aux fuel (n / 2) + 1

/-- The position of the leading bit of a positive `n`: the `k` with `2^k ≤ n < 2^(k+1)`. -/
def floorLog2 (n : Nat) : Nat := floorLog2Aux n n

/-- The whole part of `n / (d * 2^e)`. -/
def scaledQuotient (n d : Nat) (e : Int) : Nat :=
  (n * 2 ^ (-e).toNat) / (d * 2 ^ e.toNat)

/-- The exponent of the last place of the float64 nearest to `n / d`, for positive `n` and
`d`: the `e` with `2^52 ≤ n / (d * 2^e) < 2^53`. -/
def exponentOf (n d : Nat) : Int :=
  let e0 : Int := (floorLog2 n : Int) - (floorLog2 d : Int) - 52
  if scaledQuotient n d e0 < 2 ^ 52 then e0 - 1 else e0

/-- The quotient `n / d` of positive `n` and `d` rounded to 53 significant bits, to the
nearest, ties to the even mantissa: the mantissa and the exponent of the result. -/
def round53 (n d : Nat) : Nat × Int :=
  let e := exponentOf n d
  let num := n * 2 ^ (-e).toNat
  let den := d * 2 ^ e.toNat
  let q := num / den
  let r := num % den
  (if den < 2 * r ∨ (2 * r = den ∧ q % 2 = 1) then q + 1 else q, e)

/-- The conversion `float64(n)` of an integer: the nearest float64, an integer itself,
written with exponent 0. -/
def Float64.ofInt (n : Int) : Float64 :=
  if n = 0 then .finite false 0 0
  else
    let me := round53 n.natAbs 1
    .finite (decide (n < 0)) (me.1 * 2 ^ me.2.toNat / 2 ^ (-me.2).toNat) 0

/-- The quotient `x / y` of two float64. -/
def Float64.div : Float64 → Float64 → Float64
  | .nan, _ => .nan
  | _, .nan => .nan
  | .inf _, .inf _ => .nan
  | .inf s, .finite t _ _ => .inf (xor s t)
  | .finite s _ _, .inf t => .finite (xor s t) 0 0
  | .finite s m1 e1, .finite t m2 e2 =>
    if m2 = 0 then (if m1 = 0 then .nan else .inf (xor s t))
    else if m1 = 0 then .finite (xor s t) 0 0
    else
      let me := round53 m1 m2
      .finite (xor s t) me.1 (me.2 + e1 - e2)

/-- The sum `x + y` of two float64. -/
def Float64.add : Float64 → Float64 → Float64
  | .nan, _ => .nan
  | _, .nan => .nan
  | .inf s, .inf t => if s = t then .inf s else .nan
  | .inf s, .finite _ _ _ => .inf s
  | .finite _ _ _, .inf t => .inf t
  | .finite s m1 e1, .finite t m2 e2 =>
    let e := min e1 e2
    let a1 : Int := ((m1 * 2 ^ (e1 - e).toNat : Nat) : Int)
    let a2 : Int := ((m2 * 2 ^ (e2 - e).toNat : Nat) : Int)
    let sum : Int := (if s then -a1 else a1) + (if t then -a2 else a2)
    if sum = 0 then .finite (s && t) 0 0
    else
      let me := round53 sum.natAbs 1
      .finite (decide (sum < 0)) me.1 (me.2 + e)

/-- `math.Ceil`. -/
def Ceil : Float64 → Float64
  | .finite neg m e =>
    if 0 ≤ e then .finite neg m e
    else if neg then .finite true (m / 2 ^ (-e).toNat) 0
    else .finite false ((m + 2 ^ (-e).toNat - 1) / 2 ^ (-e).toNat) 0
  | x => x

/-- The conversion `int(x)` of a float64: the value without its fraction when an `int` of 64
bits holds it; otherwise the result is left to the implementation, here `outOfRange`. -/
def Float64.toInt (outOfRange : Int) : Float64 → Int
  | .finite neg m e =>
    let magnitude : Int := ((m * 2 ^ e.toNat / 2 ^ (-e).toNat : Nat) : Int)
    let v : Int := if neg then -magnitude else magnitude
    if -2 ^ 63 ≤ v ∧ v < 2 ^ 63 then v else outOfRange
  | _ => outOfRange

/-! ## middleware/ratelimit.go: the middlewares

A middleware returns the context it leaves and the limiter after its admission check.
Its clock readings are arguments, in the order in which the source takes them: by
`IsAllowed`, by `GetRemainingRequests`, by `GetResetTime`, and by `time.Until` for the
body of a denial. -/

/-- `http.StatusTooManyRequests`. -/
def StatusTooManyRequests : Nat := 429

/-- The call `c.Header(key, value)` with a non-empty value: the response header `key` is
set to `value`, replacing a previous value. -/
def Context.Header (c : Context) (key value : String) : Context :=
  { c with headers := c.headers.filter (fun h => decide (h.1 ≠ key)) ++ [(key, value)] }

/-- `fmt.Sprintf("%d", n)`. -/
def formatInt (n : Int) : String := toString n

/-- `fmt.Sprintf("%v", v)` for a value stored on the context. -/
def formatValue : Value → String
  | .uint n => toString n
  | .int n => toString n
  | .str s => s

/-- `Time.Unix()`: whole seconds since the epoch. -/
def Unix (t : Int) : Int := t / Second

/-- The largest `time.Duration`, `math.MaxInt64` nanoseconds. -/
def maxDuration : Int := 9223372036854775807

/-- The smallest `time.Duration`, `math.MinInt64` nanoseconds. -/
def minDuration : Int := -9223372036854775808

/-- `time.Until(t)`, which is `t.Sub(time.Now())`: the span from the clock reading `now` to
`t`, and the largest or the smallest duration when the span does not fit one. -/
def Until (t now : Int) : Int :=
  if maxDuration < t - now then maxDuration
  else if t - now < minDuration then minDuration
  else t - now

/-- `Duration.Seconds`: `float64(sec) + float64(nsec)/1e9`, where `sec := d / Second` and
`nsec := d % Second` are Go's quotient and remainder, which truncate toward zero. -/
def Seconds (d : Int) : Float64 :=
  let sec := Int.tdiv d Second
  let nsec := Int.tmod d Second
  (Float64.ofInt sec).add ((Float64.ofInt nsec).div (Float64.ofInt 1000000000))

/-- The conversion `int(d.Seconds())` of a duration: the seconds as a float64, without
their fraction.  The seconds of a duration are below 2^34, so an `int` of 64 bits holds
them and the value the implementation gives out of range, written 0 here, is never
returned. -/
def wholeSeconds (d : Int) : Int := (Seconds d).toInt 0

/-- `getClientID`. -/
def getClientID (c : Context) : String :=
  match c.keys "user_id" with
  | some userID => "user:" ++ formatValue userID
  | none => c.clientIP

/-- `RateLimitMiddleware`: the handler it returns, applied to a context. -/
def RateLimitMiddleware (rl : RateLimiter) (nowAllowed nowRemaining nowReset nowUntil : Int)
    (c : Context) : Context × RateLimiter :=
  let clientID := getClientID c
  let checked := rl.IsAllowed nowAllowed clientID
  if !checked.1 then
    let remaining := checked.2.GetRemainingRequests nowRemaining clientID
    let resetTime := checked.2.GetResetTime nowReset clientID
    let c1 := c.Header "X-RateLimit-Limit" (formatInt rl.limit)
    let c2 := c1.Header "X-RateLimit-Remaining" (formatInt remaining)
    let c3 := c2.Header "X-RateLimit-Reset" (formatInt (Unix resetTime))
    let c4 := c3.JSON StatusTooManyRequests
      [("error", .str "Rate limit exceeded"),
       ("message", .str "Too many requests, please try again later"),
       ("retry_after", .int (wholeSeconds (Until resetTime nowUntil)))]
    (c4.Abort, checked.2)
  else
    let remaining := checked.2.GetRemainingRequests nowRemaining clientID
    let resetTime := checked.2.GetResetTime nowReset clientID
    let c1 := c.Header "X-RateLimit-Limit" (formatInt rl.limit)
    let c2 := c1.Header "X-RateLimit-Remaining" (formatInt remaining)
    let c3 := c2.Header "X-RateLimit-Reset" (formatInt (Unix resetTime))
    (c3.Next, checked.2)

/-- `IPRateLimitMiddleware`: the handler it returns, applied to a context. -/
def IPRateLimitMiddleware (rl : RateLimiter) (nowAllowed nowRemaining nowReset nowUntil : Int)
    (c : Context) : Context × RateLimiter :=
  let clientIP := c.clientIP
  let checked := rl.IsAllowed nowAllowed clientIP
  if !checked.1 then
    let remaining := checked.2.GetRemainingRequests nowRemaining clientIP
    let resetTime := checked.2.GetResetTime nowReset clientIP
    let c1 := c.Header "X-RateLimit-Limit" (formatInt rl.limit)
    let c2 := c1.Header "X-RateLimit-Remaining" (formatInt remaining)
    let c3 := c2.Header "X-RateLimit-Reset" (formatInt (Unix resetTime))
    let c4 := c3.JSON StatusTooManyRequests
      [("error", .str "Rate limit exceeded"),
       ("message", .str "Too many requests from this IP, please try again later"),
       ("retry_after", .int (wholeSeconds (Until resetTime nowUntil)))]
    (c4.Abort, checked.2)
  else
    let remaining := checked.2.GetRemainingRequests nowRemaining clientIP
    let resetTime := checked.2.GetResetTime nowReset clientIP
    let c1 := c.Header "X-RateLimit-Limit" (formatInt rl.limit)
    let c2 := c1.Header "X-RateLimit-Remaining" (formatInt remaining)
    let c3 := c2.Header "X-RateLimit-Reset" (formatInt (Unix resetTime))
    (c3.Next, checked.2)

/-- `UserRateLimitMiddleware`: the handler it returns, applied to a context. -/
def UserRateLimitMiddleware (rl : RateLimiter) (nowAllowed nowRemaining nowReset nowUntil : Int)
    (c : Context) : Context × RateLimiter :=
  match c.keys "user_id" with
  | none =>
    let clientIP := c.clientIP
    let checked := rl.IsAllowed nowAllowed clientIP
    if !checked.1 then
      ((c.JSON StatusTooManyRequests [("error", .str "Rate limit exceeded")]).Abort, checked.2)
    else
      (c.Next, checked.2)
  | some userID =>
    let userKey := "user:" ++ formatValue userID
    let checked := rl.IsAllowed nowAllowed userKey
    if !checked.1 then
      let remaining := checked.2.GetRemainingRequests nowRemaining userKey
      let resetTime := checked.2.GetResetTime nowReset userKey
      let c1 := c.Header "X-RateLimit-Limit" (formatInt rl.limit)
      let c2 := c1.Header "X-RateLimit-Remaining" (formatInt remaining)
      let c3 := c2.Header "X-RateLimit-Reset" (formatInt (Unix resetTime))
      let c4 := c3.JSON StatusTooManyRequests
        [("error", .str "Rate limit exceeded"),
         ("message", .str "Too many requests, please try again later"),
         ("retry_after", .int (wholeSeconds (Until resetTime nowUntil)))]
      (c4.Abort, checked.2)
    else
      let remaining := checked.2.GetRemainingRequests nowRemaining userKey
      let resetTime := checked.2.GetResetTime nowReset userKey
      let c1 := c.Header "X-RateLimit-Limit" (formatInt rl.limit)
      let c2 := c1.Header "X-RateLimit-Remaining" (formatInt remaining)
      let c3 := c2.Header "X-RateLimit-Reset" (formatInt (Unix resetTime))
      (c3.Next, checked.2)

/-- The value of a field of the JSON body written on the context. -/
def Context.bodyField (c : Context) (field : String) : Option Value :=
  (c.body.find? (fun kv => decide (kv.1 = field))).map (·.2)

/-- The value of a response header written on the context. -/
def Context.responseHeader (c : Context) (name : String) : Option String :=
  (c.headers.find? (fun kv => decide (kv.1 = name))).map (·.2)

/-- A limiter for the worked examples: limit 1, window one second, the address
`10.0.0.1` and the principal key `user:7` each bound to the single timestamp 0. -/
def busyLimiter : RateLimiter :=
  ((NewRateLimiter 1 Second).store "10.0.0.1" [0]).store "user:7" [0]

/-! ## auth/jwt.go: Login and Register

`Login` and `Register` reach the user table through the global handle `config.DB`.  The
table is the list of the rows a query sees (rows that are not soft-deleted), in the order
of the primary key; a lookup or an insert either fails with an error of the store or is
carried out on the table. -/

/-- The user table behind `config.DB`: the rows, the next value of the auto-increment
key, and the errors, if any, with which the store answers a lookup by email or the insert
of a row. -/
structure UserDB where
  users : List User
  nextID : Nat
  findFails : String → Option String
  createFails : User → Option String

/-- `Where("email = ?", email).First(&user)`: the first row with that email, the error
`record not found` when there is none. -/
def UserDB.FirstByEmail (db : UserDB) (email : String) : Except String User :=
  match db.findFails email with
  | some e => .error e
  | none =>
    match db.users.find? (fun u => decide (u.Email = email)) with
    | none => .error "record not found"
    | some user => .ok user

/-- `Create(userData)`: the row is refused when the store fails or when its username, its
email or its non-zero id is taken (the unique indexes and the primary key of the model);
otherwise it is inserted, a zero id being replaced by the next key, and written back to
the struct. -/
def UserDB.Create (db : UserDB) (userData : User) : Except String (User × UserDB) :=
  match db.createFails userData with
  | some e => .error e
  | none =>
    if db.users.any (fun u => decide (u.Username = userData.Username) ||
        decide (u.Email = userData.Email) ||
        (decide (userData.ID ≠ 0) && decide (u.ID = userData.ID))) then
      .error "duplicate key"
    else
      let row := if userData.ID = 0 then { userData with ID := db.nextID } else userData
      .ok (row, { db with users := db.users ++ [row], nextID := max db.nextID row.ID + 1 })

/-- `AuthService.Login`; the three clock readings are those of `GenerateToken`. -/
def AuthService.Login (svc : AuthService) (jwt : JwtLib) (bc : BcryptLib) (db : UserDB)
    (nowExp nowIat nowNbf : Int) (email password : String) : Except String (User × String) :=
  match db.FirstByEmail email with
  | .error _ => .error "invalid credentials"
  | .ok user =>
    if !user.IsActive then .error "account is deactivated"
    else
      match svc.CheckPassword bc user.Password password with
      | .error _ => .error "invalid credentials"
      | .ok _ =>
        match svc.GenerateToken jwt nowExp nowIat nowNbf user with
        | .error e => .error ("failed to generate token: " ++ e)
        | .ok token => .ok (user, token)

/-- `AuthService.Register`: the outcome and the user table after the call; `salt` is the
salt bcrypt draws. -/
def AuthService.Register (svc : AuthService) (jwt : JwtLib) (bc : BcryptLib) (db : UserDB)
    (salt : List UInt8) (nowExp nowIat nowNbf : Int) (userData : User) :
    Except String (User × String) × UserDB :=
  match svc.HashPassword bc salt userData.Password with
  | .error e => (.error ("failed to hash password: " ++ e), db)
  | .ok hashedPassword =>
    let userData1 := { userData with Password := hashedPassword }
    let userData2 := { userData1 with IsActive := true }
    match db.Create userData2 with
    | .error e => (.error ("failed to create user: " ++ e), db)
    | .ok (created, db1) =>
      match svc.GenerateToken jwt nowExp nowIat nowNbf created with
      | .error e => (.error ("failed to generate token: " ++ e), db1)
      | .ok token => (.ok (created, token), db1)

/-- A user table for the worked examples: `bob` is active, `eve` is deactivated; both
have the password `Abcdef1!`, hashed under `demoSalt` by the stand-in library. -/
def demoUsers : UserDB :=
  { users :=
      [{ ID := 1, Username := "bob", Email := "bob@x",
         Password := demoBcrypt.format DefaultCost demoSalt (keyStream (bytesOf "Abcdef1!")),
         FirstName := "", LastName := "", IsActive := true },
       { ID := 2, Username := "eve", Email := "eve@x",
         Password := demoBcrypt.format DefaultCost demoSalt (keyStream (bytesOf "Abcdef1!")),
         FirstName := "", LastName := "", IsActive := false }]
    nextID := 7
    findFails := fun _ => none
    createFails := fun _ => none }

/-- The registration of the worked example: `ada` with the secret `Abcdef1!`, the active
flag not set. -/
def newAda : User :=
  { ID := 0, Username := "ada", Email := "ada@x", Password := "Abcdef1!", FirstName := "",
    LastName := "", IsActive := false }

/-- The row `Register` creates for `newAda` in `demoUsers`. -/
def registeredAda : User :=
  { ID := 7, Username := "ada", Email := "ada@x",
    Password := demoBcrypt.format DefaultCost demoSalt (keyStream (bytesOf "Abcdef1!")),
    FirstName := "", LastName := "", IsActive := true }

/-- A stand-in for the bcrypt library whose hashes have the shape of the text form of
bcrypt: the four characters `$2a$` and 56 more, here one per byte of cost, salt and digest,
filled up with dots.  The digest is the key stream itself. -/
def textBcrypt : BcryptLib :=
  { core := fun _ _ stream => stream
    format := fun cost salt digest =>
      String.mk ('$' :: '2' :: 'a' :: '$' ::
        (((UInt8.ofNat cost :: salt ++ digest).map (fun b => Char.ofNat b.toNat) ++
          List.replicate 56 '.').take 56))
    parse := fun _ => none }

/-- The row `Register` creates for `newAda` in `demoUsers` with `textBcrypt`. -/
def shapedAda : User :=
  { ID := 7, Username := "ada", Email := "ada@x",
    Password := textBcrypt.format DefaultCost demoSalt (keyStream (bytesOf "Abcdef1!")),
    FirstName := "", LastName := "", IsActive := true }

/-! ## internal/dblinker/main_LoadDb.go

The store behind `*gorm.DB` is the rows of the table `bt_vm` and the failures of the raw
query.  A Go function that indexes a slice out of range does not return: it panics, and the
embedding records the panic as a third outcome next to the two kinds of return. -/

/-- The struct `dbmd.BtVM`, dates as instants. -/
structure BtVM where
  ID : Int
  Hostname : String
  Hostuser : String
  HostIP : String
  HostPwd : String
  Message : String
  DelYn : String
  RegDt : Int
  ModDt : Int
  DelDt : Int
  deriving DecidableEq, Repr

/-- The struct `sysenv.DataSearch`. -/
structure DataSearch where
  Id : Int
  deriving DecidableEq, Repr

/-- The VM store: the rows of `bt_vm` in the order the database returns them, and the error,
if any, with which the select for an id fails. -/
structure VmDB where
  rows : List BtVM
  fails : Int → Option String

/-- How a call ends: it returns a value, or it panics with a run-time error. -/
inductive Outcome (α : Type) where
  | returned (value : α)
  | panicked (message : String)
  deriving DecidableEq, Repr

/-- `db.Raw("select * from bt_vm br where br.id = ?", id).Scan(&vmList)`: the error of the
result, or the rows scanned into the list. -/
def VmDB.selectById (db : VmDB) (id : Int) : Except String (List BtVM) :=
  match db.fails id with
  | some e => .error e
  | none => .ok (db.rows.filter (fun r => decide (r.ID = id)))

/-- `dblinker.Search`: the error of the query when it has one, otherwise `vmList[0]`, which
panics on an empty list. -/
def Search (db : VmDB) (vm : DataSearch) : Outcome (Except String BtVM) :=
  match db.selectById vm.Id with
  | .error e => .returned (.error e)
  | .ok vmList =>
    match vmList with
    | [] => .panicked "runtime error: index out of range [0] with length 0"
    | first :: _ => .returned (.ok first)

/-- One row of `bt_vm`, with id 1. -/
def vmOne : BtVM :=
  { ID := 1, Hostname := "web-1", Hostuser := "root", HostIP := "10.0.0.1", HostPwd := "pw",
    Message := "", DelYn := "N", RegDt := 0, ModDt := 0, DelDt := 0 }

/-- A VM store that holds `vmOne` only and answers every select. -/
def demoVms : VmDB := { rows := [vmOne], fails := fun _ => none }

/-! ## validation/validator.go

A value is a text, the characters of which are what `for _, char := range value` yields;
`len(value)` is its length in bytes of UTF-8.  The classification of `unicode` is by
general category: every code point has one, `IsUpper` is membership of `Lu`, `IsLower` of
`Ll`, `IsDigit` of `Nd`, `IsPunct` of the categories `P*` and `IsSymbol` of the categories
`S*`.  The table of categories is a parameter. -/

/-- The struct `ValidationError`. -/
structure ValidationError where
  Field : String
  Message : String
  Code : String
  deriving DecidableEq, Repr

/-- The struct `Validator`. -/
structure Validator where
  errors : List ValidationError
  deriving DecidableEq, Repr

/-- `NewValidator`. -/
def NewValidator : Validator := { errors := [] }

/-- `Validator.AddError`. -/
def Validator.AddError (v : Validator) (field message code : String) : Validator :=
  { errors := v.errors ++ [{ Field := field, Message := message, Code := code }] }

/-- The general categories `Validator.Password` tells apart; `P` and `S` stand for the
punctuation and the symbol categories, `other` for all the rest. -/
inductive Category where
  | Lu
  | Ll
  | Nd
  | P
  | S
  | other
  deriving DecidableEq, Repr

/-- `unicode.IsUpper`. -/
def IsUpper (category : Char → Category) (r : Char) : Bool := decide (category r = .Lu)

/-- `unicode.IsLower`. -/
def IsLower (category : Char → Category) (r : Char) : Bool := decide (category r = .Ll)

/-- `unicode.IsDigit`. -/
def IsDigit (category : Char → Category) (r : Char) : Bool := decide (category r = .Nd)

/-- `unicode.IsPunct`. -/
def IsPunct (category : Char → Category) (r : Char) : Bool := decide (category r = .P)

/-- `unicode.IsSymbol`. -/
def IsSymbol (category : Char → Category) (r : Char) : Bool := decide (category r = .S)

/-- The four flags of `Validator.Password`. -/
structure PasswordFlags where
  hasUpper : Bool
  hasLower : Bool
  hasDigit : Bool
  hasSpecial : Bool
  deriving DecidableEq, Repr

/-- The body of the loop of `Validator.Password`: the `switch` takes the first case that
holds. -/
def scanRune (category : Char → Category) (f : PasswordFlags) (char : Char) : PasswordFlags :=
  if IsUpper category char then { f with hasUpper := true }
  else if IsLower category char then { f with hasLower := true }
  else if IsDigit category char then { f with hasDigit := true }
  else if IsPunct category char || IsSymbol category char then { f with hasSpecial := true }
  else f

/-- `Validator.Password`. -/
def Validator.Password (category : Char → Category) (v : Validator) (field value : String) :
    Validator :=
  if value ≠ "" then
    let v1 :=
      if value.utf8ByteSize < 8 then
        v.AddError field "Password must be at least 8 characters" "PASSWORD_TOO_SHORT"
      else v
    let f := value.data.foldl (scanRune category)
      { hasUpper := false, hasLower := false, hasDigit := false, hasSpecial := false }
    let v2 :=
      if !f.hasUpper then
        v1.AddError field "Password must contain at least one uppercase letter"
          "PASSWORD_NO_UPPER"
      else v1
    let v3 :=
      if !f.hasLower then
        v2.AddError field "Password must contain at least one lowercase letter"
          "PASSWORD_NO_LOWER"
      else v2
    let v4 :=
      if !f.hasDigit then
        v3.AddError field "Password must contain at least one digit" "PASSWORD_NO_DIGIT"
      else v3
    if !f.hasSpecial then
      v4.AddError field "Password must contain at least one special character"
        "PASSWORD_NO_SPECIAL"
    else v4
  else v

/-- The general categories of the ASCII characters, for the worked examples; every other
character is filed under `other`. -/
def asciiCategory (c : Char) : Category :=
  let n := c.toNat
  if 65 ≤ n ∧ n ≤ 90 then .Lu
  else if 97 ≤ n ∧ n ≤ 122 then .Ll
  else if 48 ≤ n ∧ n ≤ 57 then .Nd
  else if n ∈ [33, 34, 35, 37, 38, 39, 40, 41, 42, 44, 45, 46, 47, 58, 59, 63, 64, 91, 92, 93,
      95, 123, 125] then .P
  else if n ∈ [36, 43, 60, 61, 62, 94, 96, 124, 126] then .S
  else .other

/-- `unicode.IsSpace`: the code points with the property `White_Space`. -/
def IsSpace (r : Char) : Bool :=
  let n := r.toNat
  (9 ≤ n && n ≤ 13) || n == 32 || n == 133 || n == 160 || n == 5760 ||
    (8192 ≤ n && n ≤ 8202) || n == 8232 || n == 8233 || n == 8239 || n == 8287 || n == 12288

/-- `strings.TrimSpace`: the text without its leading and its trailing white space. -/
def TrimSpace (s : List Char) : List Char := (s.dropWhile IsSpace).rdropWhile IsSpace

/-- `strings.ReplaceAll(s, old, new)` for a pattern `old` of one character, the only use
`SanitizeString` makes of it: every occurrence of the character gives way to `new`. -/
def ReplaceAll (s : List Char) (old : Char) (new : List Char) : List Char :=
  s.flatMap (fun c => if c = old then new else [c])

/-- `Validator.SanitizeString`.  The double quote is character 34, the single quote
character 39. -/
def Validator.SanitizeString (_v : Validator) (value : String) : String :=
  let value := TrimSpace value.data
  let value := ReplaceAll value '<' "&lt;".data
  let value := ReplaceAll value '>' "&gt;".data
  let value := ReplaceAll value (Char.ofNat 34) "&quot;".data
  let value := ReplaceAll value (Char.ofNat 39) "&#x27;".data
  String.mk value

/-! ## auth/rbac.go: the writers

`AddPermission` and `RemovePermission` change the role-permission table: a call returns the
error of the store and leaves the table as it is, or returns nil, shown as the service over
the changed store.  `RolePermission` has a primary key and no other index, so an insert
appends its row whatever the table holds.  The roles and permissions are written as their
string values. -/

/-- The primary key the store gives a new row of the role-permission table: one more than
the largest key of the table. -/
def DB.nextRolePermissionID (db : DB) : Nat :=
  (db.rolePermissions.map (·.ID)).foldl max 0 + 1

/-- `RBACService.AddPermission`: `rs.db.Create(rolePermission)`. -/
def RBACService.AddPermission (rs : RBACService) (role permission : String) :
    Except String RBACService :=
  match rs.db.fails (.createRolePermission role permission) with
  | some e => .error e
  | none =>
    .ok { db := { rs.db with
      rolePermissions := rs.db.rolePermissions ++
        [{ ID := rs.db.nextRolePermissionID, Role := role, Permission := permission }] } }

/-- `RBACService.RemovePermission`:
`Where("role = ? AND permission = ?", ...).Delete(&RolePermission{})` deletes every row of
the pair. -/
def RBACService.RemovePermission (rs : RBACService) (role permission : String) :
    Except String RBACService :=
  match rs.db.fails (.deleteRolePermission role permission) with
  | some e => .error e
  | none =>
    .ok { db := { rs.db with
      rolePermissions := rs.db.rolePermissions.filter
        (fun rp => !(decide (rp.Role = role) && decide (rp.Permission = permission))) } }

/-- `RBACService.GetRolePermissions`:
`Model(&RolePermission{}).Where("role = ?", role).Pluck("permission", &permissions)`. -/
def RBACService.GetRolePermissions (rs : RBACService) (role : String) :
    Except String (List String) :=
  match rs.db.fails (.pluckPermissions role) with
  | some e => .error e
  | none =>
    .ok ((rs.db.rolePermissions.filter (fun rp => decide (rp.Role = role))).map (·.Permission))

/-- The map literal `defaultPermissions` of `InitializeDefaultRoles`, its entries in the
order of the source text. -/
def defaultPermissions : List (String × List String) :=
  [("admin",
      ["create:user", "read:user", "update:user", "delete:user",
       "create:post", "read:post", "update:post", "delete:post",
       "create:comment", "read:comment", "update:comment", "delete:comment",
       "manage:system"]),
   ("user",
      ["create:post", "read:post", "update:post", "delete:post",
       "create:comment", "read:comment", "update:comment", "delete:comment"]),
   ("guest", ["read:post", "read:comment"])]

/-- The body of the inner loop of `InitializeDefaultRoles`.  The count is read without a
look at its error, so a failed count leaves `count` at 0; the insert follows when the count
is 0, and its error is wrapped. -/
def RBACService.seedPermission (rs : RBACService) (role permission : String) :
    Except String RBACService :=
  let count :=
    match rs.countRolePermission role permission with
    | .ok n => n
    | .error _ => 0
  if count = 0 then
    match rs.AddPermission role permission with
    | .error e =>
      .error ("failed to add permission " ++ permission ++ " to role " ++ role ++ ": " ++ e)
    | .ok rs1 => .ok rs1
  else .ok rs

/-- The inner loop of `InitializeDefaultRoles` over the permissions of one role: the error
of the first insert that fails, or nil, with the store as the loop leaves it. -/
def RBACService.seedPermissions (rs : RBACService) (role : String) :
    List String → Except String Unit × RBACService
  | [] => (.ok (), rs)
  | permission :: rest =>
    match rs.seedPermission role permission with
    | .error e => (.error e, rs)
    | .ok rs1 => rs1.seedPermissions role rest

/-- `RBACService.InitializeDefaultRoles`.  Go leaves the order in which `range` visits a map
open, so the order of the visit is an argument: `iteration` lists the entries of the map as
the loop meets them. -/
def RBACService.InitializeDefaultRoles (rs : RBACService) :
    (iteration : List (String × List String)) → Except String Unit × RBACService
  | [] => (.ok (), rs)
  | (role, permissions) :: rest =>
    match rs.seedPermissions role permissions with
    | (.error e, rs1) => (.error e, rs1)
    | (.ok (), rs1) => rs1.InitializeDefaultRoles rest

/-- The pairs (role, permission) of the rows of the role-permission table. -/
def RBACService.pairs (rs : RBACService) : List (String × String) :=
  rs.db.rolePermissions.map (fun rp => (rp.Role, rp.Permission))

/-- A store with no role permission, in which principal 7 has the role `user`; no query
fails. -/
def emptyDB : DB :=
  { userRoles := [{ ID := 1, UserID := 7, Role := "user" }]
    rolePermissions := []
    fails := fun _ => none }

/-- A store in which the role `user` was granted `create:post` twice. -/
def twiceDB : DB :=
  { userRoles := [{ ID := 1, UserID := 7, Role := "user" }]
    rolePermissions :=
      [{ ID := 1, Role := "user", Permission := "create:post" },
       { ID := 2, Role := "user", Permission := "read:post" },
       { ID := 3, Role := "user", Permission := "create:post" }]
    fails := fun _ => none }

/-- A store with no row, in which the count of the pair (`guest`, `read:post`) fails. -/
def flakyDB : DB :=
  { userRoles := []
    rolePermissions := []
    fails := fun q =>
      match q with
      | .countRolePermission "guest" "read:post" => some "timeout"
      | _ => none }

/-! ## utils/pagination.go

`CalculatePagination` computes the number of pages in float64. -/

/-- The struct `Pagination`, without the fields `Sort` and `Order`, which
`CalculatePagination` leaves at their zero value. -/
structure Pagination where
  Page : Int
  PerPage : Int
  Total : Int
  TotalPages : Int
  HasNext : Bool
  HasPrev : Bool
  deriving DecidableEq, Repr

/-- `CalculatePagination`. -/
def CalculatePagination (outOfRange : Int) (page perPage total : Int) : Pagination :=
  let totalPages :=
    (Ceil ((Float64.ofInt total).div (Float64.ofInt perPage))).toInt outOfRange
  { Page := page, PerPage := perPage, Total := total, TotalPages := totalPages,
    HasNext := decide (page < totalPages), HasPrev := decide (page > 1) }

/-! # Properties -/

/-! ## The rate limiter -/

theorem validRequests_filter (c cutoff : Int) (l : List Int) (h : cutoff ≤ c) :
    (validRequests cutoff l).filter (fun a => decide (c < a)) =
      l.filter (fun a => decide (c < a)) := by
  unfold validRequests
  rw [List.filter_filter]
  apply List.filter_congr
  intro a _
  by_cases h1 : c < a
  · have h2 : cutoff < a := lt_of_le_of_lt h h1
    simp [h1, h2]
  · simp [h1]

theorem stored_IsAllowed_same (rl : RateLimiter) (now : Int) (key : String) :
    (rl.IsAllowed now key).2.stored key =
      if (rl.IsAllowed now key).1 then validRequests (now - rl.window) (rl.stored key) ++ [now]
      else validRequests (now - rl.window) (rl.stored key) := by
  unfold RateLimiter.IsAllowed RateLimiter.stored RateLimiter.store
  by_cases h : ((validRequests (now - rl.window) ((rl.requests key).getD [])).length : Int) < rl.limit
  · simp [h]
  · simp [h]

theorem stored_IsAllowed_other (rl : RateLimiter) (now : Int) (key k : String) (h : k ≠ key) :
    (rl.IsAllowed now key).2.stored k = rl.stored k := by
  unfold RateLimiter.IsAllowed RateLimiter.stored RateLimiter.store
  by_cases h1 : ((validRequests (now - rl.window) ((rl.requests key).getD [])).length : Int) < rl.limit
  · simp [h1, h]
  · simp [h1, h]

theorem IsAllowed_params (rl : RateLimiter) (now : Int) (key : String) :
    (rl.IsAllowed now key).2.limit = rl.limit ∧ (rl.IsAllowed now key).2.window = rl.window := by
  unfold RateLimiter.IsAllowed RateLimiter.store
  by_cases h1 : ((validRequests (now - rl.window) ((rl.requests key).getD [])).length : Int) < rl.limit
  · simp [h1]
  · simp [h1]

theorem IsAllowed_decision (rl : RateLimiter) (now : Int) (key : String) :
    (rl.IsAllowed now key).1 = true ↔
      ((validRequests (now - rl.window) (rl.stored key)).length : Int) < rl.limit := by
  unfold RateLimiter.IsAllowed RateLimiter.stored
  by_cases h1 : ((validRequests (now - rl.window) ((rl.requests key).getD [])).length : Int) < rl.limit
  · simp [h1]
  · simp [h1]

theorem stored_cleanup (rl : RateLimiter) (now : Int) (k : String) :
    (rl.cleanup now).stored k = validRequests (now - rl.window) (rl.stored k) := by
  simp only [RateLimiter.cleanup, RateLimiter.stored]
  cases h : rl.requests k with
  | none => simp [validRequests]
  | some l =>
    by_cases h1 : (validRequests (now - rl.window) l).length = 0
    · have h2 : validRequests (now - rl.window) l = [] := List.length_eq_zero.mp h1
      simp [h2]
    · simp [h1]

theorem admittedTimes_nil (key : String) : admittedTimes [] key = [] := rfl

theorem admittedTimes_cons (c : Call) (cs : List Call) (key : String) :
    admittedTimes (c :: cs) key =
      if c.key = key ∧ c.allowed = true then c.time :: admittedTimes cs key
      else admittedTimes cs key := by
  unfold admittedTimes
  by_cases h : c.key = key ∧ c.allowed = true
  · simp [List.filter_cons, h.1, h.2]
  · have h1 : ¬ (decide (c.key = key) && c.allowed) = true := by
      simpa using h
    simp only [List.filter_cons, h1, h, if_false]
    rfl

theorem admittedIn_eq (calls : List Call) (key : String) (window : Int) (T : Int) :
    admittedIn calls key window T =
      ((admittedTimes calls key).filter
        (fun a => decide (T - window < a) && decide (a ≤ T))).length := by
  unfold admittedIn admittedTimes
  rw [List.filter_map, List.length_map, List.filter_filter]
  congr 1
  apply List.filter_congr
  intro c _
  simp only [Function.comp]
  cases decide (c.key = key) <;> cases c.allowed <;>
    cases decide (T - window < c.time) <;> cases decide (c.time ≤ T) <;> rfl

theorem filter_window_le (W now T : Int) (log : List Int) (h : now ≤ T) :
    (log.filter (fun a => decide (T - W < a) && decide (a ≤ T))).length ≤
      (log.filter (fun a => decide (now - W < a))).length := by
  induction log with
  | nil => simp
  | cons a l ih =>
    by_cases h1 : T - W < a ∧ a ≤ T
    · have h2 : now - W < a := by omega
      have h3 : (decide (T - W < a) && decide (a ≤ T)) = true := by simp [h1.1, h1.2]
      have h4 : decide (now - W < a) = true := by simpa using h2
      simp only [List.filter_cons, h3, h4, if_true, List.length_cons]
      omega
    · have h3 : ¬ (decide (T - W < a) && decide (a ≤ T)) = true := by simpa using h1
      rw [List.filter_cons, if_neg h3]
      exact le_trans ih (List.Sublist.length_le
        (List.Sublist.filter _ (List.sublist_cons_self a l)))

theorem cap_aux (key : String) (W : Int) (limit : Int) :
    ∀ (evs : List Event) (rl : RateLimiter) (log : List Int) (t : Int),
      rl.limit = limit → rl.window = W →
      (∀ a ∈ log, a ≤ t) →
      (∀ c, t - W ≤ c → (rl.stored key).filter (fun a => decide (c < a)) =
        log.filter (fun a => decide (c < a))) →
      (∀ T, ((log.filter (fun a => decide (T - W < a) && decide (a ≤ T))).length : Int)
        ≤ limit) →
      (∀ e ∈ evs, t ≤ e.time) → (evs.map Event.time).Pairwise (· ≤ ·) →
      ∀ T, (((log ++ admittedTimes (runEvents rl evs) key).filter
        (fun a => decide (T - W < a) && decide (a ≤ T))).length : Int) ≤ limit := by
  intro evs
  induction evs with
  | nil =>
    intro rl log t _ _ _ _ hcap _ _ T
    simpa [runEvents, admittedTimes_nil] using hcap T
  | cons e es ih =>
    intro rl log t hl hw hle hst hcap hev hmono T
    have hmono1 : (es.map Event.time).Pairwise (· ≤ ·) := by
      simp only [List.map_cons, List.pairwise_cons] at hmono
      exact hmono.2
    have hnext : ∀ e1 ∈ es, e.time ≤ e1.time := by
      intro e1 he1
      simp only [List.map_cons, List.pairwise_cons] at hmono
      exact hmono.1 _ (List.mem_map_of_mem _ he1)
    have hte : t ≤ e.time := hev e (List.mem_cons_self _ _)
    cases e with
    | sweep now =>
      simp only [Event.time] at hte hnext
      simp only [runEvents]
      refine ih (rl.cleanup now) log now ?_ ?_ ?_ ?_ hcap hnext hmono1 T
      · simpa [RateLimiter.cleanup] using hl
      · simpa [RateLimiter.cleanup] using hw
      · intro a ha
        exact le_trans (hle a ha) hte
      · intro c hc
        rw [stored_cleanup, validRequests_filter c _ _ (by rw [hw]; exact hc)]
        exact hst c (by omega)
    | isAllowed k now =>
      simp only [Event.time] at hte hnext
      simp only [runEvents]
      have hp := IsAllowed_params rl now k
      by_cases hk : k = key
      · subst hk
        have hstored := stored_IsAllowed_same rl now k
        by_cases hd : (rl.IsAllowed now k).1 = true
        · rw [admittedTimes_cons]
          simp only [hd, and_self, if_true]
          have happ : log ++ now :: admittedTimes (runEvents (rl.IsAllowed now k).2 es) k =
              (log ++ [now]) ++ admittedTimes (runEvents (rl.IsAllowed now k).2 es) k := by
            simp
          rw [happ]
          have hvalid := (IsAllowed_decision rl now k).mp hd
          refine ih (rl.IsAllowed now k).2 (log ++ [now]) now ?_ ?_ ?_ ?_ ?_ hnext hmono1 T
          · rw [hp.1]; exact hl
          · rw [hp.2]; exact hw
          · intro a ha
            rcases List.mem_append.mp ha with h1 | h1
            · exact le_trans (hle a h1) hte
            · simp at h1
              omega
          · intro c hc
            rw [hstored, if_pos hd, List.filter_append]
            rw [validRequests_filter c _ _ (by rw [hw]; exact hc), hst c (by omega),
              List.filter_append]
          · intro T1
            rw [List.filter_append, List.length_append]
            by_cases hin : T1 - W < now ∧ now ≤ T1
            · have h1 := filter_window_le W now T1 log hin.2
              have h2 : (log.filter (fun a => decide (now - W < a))).length =
                  (validRequests (now - rl.window) (rl.stored k)).length := by
                rw [← hst (now - W) (by omega), hw]
                rfl
              have h3 : ([now].filter
                  (fun a => decide (T1 - W < a) && decide (a ≤ T1))).length ≤ 1 :=
                le_trans (List.length_filter_le _ _) (by simp)
              rw [hl] at hvalid
              push_cast
              omega
            · have h3 : [now].filter
                  (fun a => decide (T1 - W < a) && decide (a ≤ T1)) = [] := by
                have : ¬ (decide (T1 - W < now) && decide (now ≤ T1)) = true := by
                  simpa using hin
                rw [List.filter_cons, if_neg this, List.filter_nil]
              rw [h3]
              simpa using hcap T1
        · rw [admittedTimes_cons]
          simp only [hd, and_false, if_false]
          refine ih (rl.IsAllowed now k).2 log now ?_ ?_ ?_ ?_ hcap hnext hmono1 T
          · rw [hp.1]; exact hl
          · rw [hp.2]; exact hw
          · intro a ha
            exact le_trans (hle a ha) hte
          · intro c hc
            rw [hstored, if_neg hd]
            rw [validRequests_filter c _ _ (by rw [hw]; exact hc)]
            exact hst c (by omega)
      · rw [admittedTimes_cons]
        simp only [hk, false_and, if_false]
        refine ih (rl.IsAllowed now k).2 log now ?_ ?_ ?_ ?_ hcap hnext hmono1 T
        · rw [hp.1]; exact hl
        · rw [hp.2]; exact hw
        · intro a ha
          exact le_trans (hle a ha) hte
        · intro c hc
          rw [stored_IsAllowed_other rl now k key (fun h => hk h.symm)]
          exact hst c (by omega)

/-- C1 (rate-limit cap).  A limiter with `limit ≥ 1` and `window > 0` starts empty and
goes through any sequence of `IsAllowed` calls (for any keys) and cleanup sweeps whose
clock readings are non-decreasing.  Then for every key and every instant `T`, the number of
`IsAllowed(key)` calls that returned true at an instant in `(T - window, T]` is at most
`limit`. -/
theorem rate_limit_cap (limit window : Int) (hl : 1 ≤ limit) (_hw : 0 < window)
    (evs : List Event) (hmono : (evs.map Event.time).Pairwise (· ≤ ·))
    (key : String) (T : Int) :
    (admittedIn (runEvents (NewRateLimiter limit window) evs) key window T : Int) ≤ limit := by
  rw [admittedIn_eq]
  have h := cap_aux key window limit evs (NewRateLimiter limit window) []
    (match evs with
      | [] => 0
      | e :: _ => e.time) rfl rfl (by simp)
    (by intro c _; simp [RateLimiter.stored, NewRateLimiter])
    (by intro T1; simp; omega)
    (by
      cases evs with
      | nil => simp
      | cons e es =>
        intro e1 he1
        rcases List.mem_cons.mp he1 with h1 | h1
        · rw [h1]
        · simp only [List.map_cons, List.pairwise_cons] at hmono
          exact hmono.1 _ (List.mem_map_of_mem _ h1))
    hmono T
  simpa using h

/-- A run that fills the window: with limit 2 and window 10, three calls for `"a"` at
0, 1 and 3 (a sweep and a call for `"b"` in between) admit exactly two. -/
theorem rate_limit_cap_witness :
    admittedIn (runEvents (NewRateLimiter 2 10)
        [.isAllowed "a" 0, .isAllowed "a" 1, .sweep 2, .isAllowed "b" 3, .isAllowed "a" 3])
        "a" 10 5 = 2 ∧
    (admittedIn (runEvents (NewRateLimiter 2 10)
        [.isAllowed "a" 0, .isAllowed "a" 1, .sweep 2, .isAllowed "b" 3, .isAllowed "a" 3])
        "a" 10 5 : Int) ≤ 2 :=
  ⟨by decide, rate_limit_cap 2 10 (by decide) (by decide)
    [.isAllowed "a" 0, .isAllowed "a" 1, .sweep 2, .isAllowed "b" 3, .isAllowed "a" 3]
    (by decide) "a" 5⟩

/-- C2 (`IsAllowed`).  With `surviving` the stored timestamps of `key` strictly after
`cutoff = now - window`, in their stored order: `IsAllowed(key)` returns true iff
`surviving` has fewer than `limit` elements; on true the key is bound to `surviving`
followed by `now`, on false to `surviving`; the instant `cutoff` itself is not among the
survivors; the binding of every other key is unchanged. -/
theorem IsAllowed_spec (rl : RateLimiter) (now : Int) (key : String) :
    ((rl.IsAllowed now key).1 = true ↔
      (((rl.stored key).filter (fun t => decide (now - rl.window < t))).length : Int)
        < rl.limit) ∧
    ((rl.IsAllowed now key).1 = true →
      (rl.IsAllowed now key).2.requests key =
        some ((rl.stored key).filter (fun t => decide (now - rl.window < t)) ++ [now])) ∧
    ((rl.IsAllowed now key).1 = false →
      (rl.IsAllowed now key).2.requests key =
        some ((rl.stored key).filter (fun t => decide (now - rl.window < t)))) ∧
    now - rl.window ∉ (rl.stored key).filter (fun t => decide (now - rl.window < t)) ∧
    (∀ k, k ≠ key → (rl.IsAllowed now key).2.requests k = rl.requests k) ∧
    (rl.IsAllowed now key).2.limit = rl.limit ∧
    (rl.IsAllowed now key).2.window = rl.window := by
  refine ⟨IsAllowed_decision rl now key, ?_, ?_, ?_, ?_, IsAllowed_params rl now key⟩
  · intro h
    have h1 := (IsAllowed_decision rl now key).mp h
    unfold RateLimiter.stored at h1
    simp only [RateLimiter.IsAllowed, h1, if_true, RateLimiter.store]
    rfl
  · intro h
    have h1 : ¬ ((validRequests (now - rl.window) (rl.stored key)).length : Int) < rl.limit := by
      intro h2
      rw [(IsAllowed_decision rl now key).mpr h2] at h
      exact Bool.noConfusion h
    unfold RateLimiter.stored at h1
    simp only [RateLimiter.IsAllowed, h1, if_false, RateLimiter.store]
    rfl
  · simp
  · intro k hk
    unfold RateLimiter.IsAllowed RateLimiter.store
    by_cases h1 : ((validRequests (now - rl.window) ((rl.requests key).getD [])).length : Int)
        < rl.limit
    · simp [h1, hk]
    · simp [h1, hk]

/-! ## Tokens -/

theorem NewNumericDate_le (t : Int) : NewNumericDate t ≤ t := by
  unfold NewNumericDate Second
  omega

theorem validateClaims_ok_iff (now : Int) (c : RegisteredClaims) :
    validateClaims now c = .ok () ↔
      (∀ e, c.ExpiresAt = some e → now < e) ∧ (∀ n, c.NotBefore = some n → n ≤ now) := by
  unfold validateClaims verifyExpiresAt verifyNotBefore
  cases h1 : c.ExpiresAt <;> cases h2 : c.NotBefore
  all_goals simp
  all_goals split_ifs
  all_goals simp
  all_goals omega

theorem ValidateToken_ok_iff (svc : AuthService) (lib : JwtLib) (now : Int)
    (tokenString : String) (claims : Claims) :
    svc.ValidateToken lib now tokenString = .ok claims ↔
      ∃ token, lib.decode tokenString = some token ∧ token.claims = claims ∧
        (token.alg = "HS256" ∨ token.alg = "HS384" ∨ token.alg = "HS512") ∧
        lib.mac token.alg svc.secretKey token.claims = token.signature ∧
        validateClaims now token.claims.Registered = .ok () := by
  unfold AuthService.ValidateToken AuthService.ParseWithClaims
  cases hd : lib.decode tokenString with
  | none => simp
  | some token =>
    simp only [Option.some.injEq, exists_eq_left']
    by_cases halg : token.alg = "HS256" ∨ token.alg = "HS384" ∨ token.alg = "HS512"
    · simp only [GetSigningMethod, halg, if_true, AuthService.keyFunc, true_and]
      by_cases hs : lib.mac token.alg svc.secretKey token.claims = token.signature
      · simp only [hs, if_true, true_and]
        cases hv : validateClaims now token.claims.Registered with
        | error e => simp
        | ok u => simp
      · simp [hs]
    · simp only [halg, false_and, and_false, iff_false]
      unfold GetSigningMethod
      rw [if_neg halg]
      split_ifs <;> simp [AuthService.keyFunc]

/-- C3 (token round-trip).  For every principal `p` and every service key, the token
`GenerateToken(p)` returns, when the serialisation decodes it back, is accepted by
`ValidateToken` of the same service at every instant from the last clock reading of the
minting up to, and not including, the expiry of the token, and the claims returned carry
the id, the username and the email of `p`. -/
theorem token_round_trip (svc : AuthService) (lib : JwtLib) (p : User)
    (nowExp nowIat nowNbf t : Int)
    (hcodec : lib.decode (lib.encode (svc.signedToken lib (mintClaims nowExp nowIat nowNbf p)))
      = some (svc.signedToken lib (mintClaims nowExp nowIat nowNbf p)))
    (hfrom : nowNbf ≤ t) (hbefore : t < NewNumericDate (nowExp + 24 * Hour)) :
    ∃ tokenString claims,
      svc.GenerateToken lib nowExp nowIat nowNbf p = .ok tokenString ∧
      svc.ValidateToken lib t tokenString = .ok claims ∧
      claims.UserID = p.ID ∧ claims.Username = p.Username ∧ claims.Email = p.Email := by
  refine ⟨lib.encode (svc.signedToken lib (mintClaims nowExp nowIat nowNbf p)),
    mintClaims nowExp nowIat nowNbf p, rfl, ?_, rfl, rfl, rfl⟩
  rw [ValidateToken_ok_iff]
  refine ⟨_, hcodec, rfl, Or.inl rfl, rfl, ?_⟩
  rw [validateClaims_ok_iff]
  constructor
  · intro e he
    simp only [AuthService.signedToken, mintClaims, Option.some.injEq] at he
    rw [← he]
    exact hbefore
  · intro n hn
    simp only [AuthService.signedToken, mintClaims, Option.some.injEq] at hn
    rw [← hn]
    exact le_trans (NewNumericDate_le nowNbf) hfrom

/-- The token minted for `ada` at 1.5 s is accepted one hour later. -/
theorem token_round_trip_witness :
    ∃ tokenString claims,
      demoService.GenerateToken (tableLib [("t", demoToken 1500000000 1500000000 1500000000)])
        1500000000 1500000000 1500000000 ada = .ok tokenString ∧
      demoService.ValidateToken (tableLib [("t", demoToken 1500000000 1500000000 1500000000)])
        3600000000000 tokenString = .ok claims ∧
      claims.UserID = ada.ID ∧ claims.Username = ada.Username ∧ claims.Email = ada.Email :=
  token_round_trip demoService (tableLib [("t", demoToken 1500000000 1500000000 1500000000)])
    ada 1500000000 1500000000 1500000000 3600000000000 (by decide) (by decide) (by decide)

/-- C4 (algorithm confinement).  `ValidateToken` returns an error for every token whose
header declares an algorithm other than `HS256`, `HS384` and `HS512`, whatever its claims
and its signature, under every key and at every instant. -/
theorem algorithm_confinement (svc : AuthService) (lib : JwtLib) (now : Int)
    (tokenString : String) (token : Token) (hdec : lib.decode tokenString = some token)
    (halg : token.alg ≠ "HS256" ∧ token.alg ≠ "HS384" ∧ token.alg ≠ "HS512") :
    ∃ e, svc.ValidateToken lib now tokenString = .error e := by
  cases h : svc.ValidateToken lib now tokenString with
  | error e => exact ⟨e, rfl⟩
  | ok claims =>
    obtain ⟨token1, h1, _, h2, _⟩ := (ValidateToken_ok_iff svc lib now tokenString claims).mp h
    rw [hdec] at h1
    cases h1
    rcases h2 with h2 | h2 | h2
    · exact absurd h2 halg.1
    · exact absurd h2 halg.2.1
    · exact absurd h2 halg.2.2

/-- The token minted for `ada`, its header rewritten to `none` and its signature dropped,
is rejected while the token as minted is accepted. -/
theorem algorithm_confinement_witness :
    (∃ claims, demoService.ValidateToken
      (tableLib [("minted", demoToken 0 0 0),
        ("rewritten", { demoToken 0 0 0 with alg := "none", signature := [] })])
      1 "minted" = .ok claims) ∧
    ∃ e, demoService.ValidateToken
      (tableLib [("minted", demoToken 0 0 0),
        ("rewritten", { demoToken 0 0 0 with alg := "none", signature := [] })])
      1 "rewritten" = .error e :=
  ⟨⟨mintClaims 0 0 0 ada, by decide⟩,
    algorithm_confinement demoService
      (tableLib [("minted", demoToken 0 0 0),
        ("rewritten", { demoToken 0 0 0 with alg := "none", signature := [] })])
      1 "rewritten" { demoToken 0 0 0 with alg := "none", signature := [] }
      (by decide) (by decide)⟩

theorem RefreshToken_ok_iff (svc : AuthService) (lib : JwtLib)
    (nowValidate nowUntil nowExp nowIat nowNbf : Int) (tokenString s : String) :
    svc.RefreshToken lib nowValidate nowUntil nowExp nowIat nowNbf tokenString = .ok s ↔
      ∃ claims exp, svc.ValidateToken lib nowValidate tokenString = .ok claims ∧
        claims.Registered.ExpiresAt = some exp ∧ exp - nowUntil ≤ Hour ∧
        s = lib.encode (svc.signedToken lib (mintClaims nowExp nowIat nowNbf
          { ID := claims.UserID, Username := claims.Username, Email := claims.Email,
            Password := "", FirstName := "", LastName := "", IsActive := false })) := by
  unfold AuthService.RefreshToken
  cases hv : svc.ValidateToken lib nowValidate tokenString with
  | error e => simp
  | ok claims =>
    cases he : claims.Registered.ExpiresAt with
    | none => simp [he]
    | some exp =>
      by_cases h : exp - nowUntil > Hour
      · simp only [h, if_true, Except.ok.injEq, exists_and_left, exists_eq_left', he,
          Option.some.injEq, false_iff, reduceCtorEq]
        intro h1
        omega
      · simp only [h, if_false, AuthService.GenerateToken, Except.ok.injEq, he,
          Option.some.injEq, exists_and_left, exists_eq_left']
        constructor
        · intro h1
          exact ⟨by omega, h1.symm⟩
        · intro h1
          exact h1.2.symm

/-- C5 (refresh window), amended.  `RefreshToken(t)` at the instant `now` succeeds iff
`ValidateToken(t)` succeeds and `0 ≤ expires_at(t) - now ≤ 1h`.  On success the token
returned is signed by the service with `HS256`, its id, username and email are those of
`t`, and its expiry is `now + 24h` truncated to a whole second. -/
theorem refresh_window (svc : AuthService) (lib : JwtLib) (now : Int) (tokenString : String) :
    ((∃ s, svc.RefreshToken lib now now now now now tokenString = .ok s) ↔
      ∃ claims exp, svc.ValidateToken lib now tokenString = .ok claims ∧
        claims.Registered.ExpiresAt = some exp ∧ 0 ≤ exp - now ∧ exp - now ≤ Hour) ∧
    (∀ s, svc.RefreshToken lib now now now now now tokenString = .ok s →
      ∃ claims token, svc.ValidateToken lib now tokenString = .ok claims ∧
        s = lib.encode token ∧ token.alg = "HS256" ∧
        token.signature = lib.mac "HS256" svc.secretKey token.claims ∧
        token.claims.Registered.ExpiresAt = some ((now + 24 * Hour) / Second * Second) ∧
        token.claims.UserID = claims.UserID ∧ token.claims.Username = claims.Username ∧
        token.claims.Email = claims.Email) := by
  constructor
  · constructor
    · rintro ⟨s, hs⟩
      obtain ⟨claims, exp, hv, he, hle, _⟩ := (RefreshToken_ok_iff _ _ _ _ _ _ _ _ _).mp hs
      refine ⟨claims, exp, hv, he, ?_, hle⟩
      obtain ⟨token, _, hc, _, _, hval⟩ := (ValidateToken_ok_iff _ _ _ _ _).mp hv
      rw [hc] at hval
      have := ((validateClaims_ok_iff _ _).mp hval).1 exp he
      omega
    · rintro ⟨claims, exp, hv, he, _, hle⟩
      exact ⟨_, (RefreshToken_ok_iff _ _ _ _ _ _ _ _ _).mpr ⟨claims, exp, hv, he, hle, rfl⟩⟩
  · intro s hs
    obtain ⟨claims, exp, hv, _, _, hs1⟩ := (RefreshToken_ok_iff _ _ _ _ _ _ _ _ _).mp hs
    exact ⟨claims, _, hv, hs1, rfl, rfl, rfl, rfl, rfl, rfl⟩

/-- C5 as stated fails: the token minted for `ada` at instant 0 is refreshed at 84599.5 s;
the refresh succeeds and returns the token whose expiry is 170999 s, not
`now + 24h = 170999.5 s`. -/
theorem refresh_expiry_counterexample :
    demoService.RefreshToken refreshLib 84599500000000 84599500000000 84599500000000
      84599500000000 84599500000000 "old" = .ok "new" ∧
    (∃ token, refreshLib.decode "new" = some token ∧
      token.claims.Registered.ExpiresAt = some 170999000000000) ∧
    (170999000000000 : Int) ≠ 84599500000000 + 24 * Hour := by
  refine ⟨by decide, ⟨demoToken 84599500000000 84599500000000 84599500000000, by decide,
    by decide⟩, by decide⟩

/-! ## Passwords -/

theorem keyStream_collision : keyStream (bytesOf "a") = keyStream (bytesOf "a\x00a") := by
  decide

/-- C6 (hash round-trip), amended.  When the text of a hash reads back as written: for
every secret `s` of at most 72 bytes `HashPassword(s)` succeeds and
`CheckPassword(HashPassword(s), s)` returns nil, and for every `s'`,
`CheckPassword(HashPassword(s), s')` returns nil exactly when bcrypt derives from `s'`,
under the cost and the salt of the hash, the digest it derived from `s`, and an error
otherwise; for a secret of more than 72 bytes `HashPassword` returns an error. -/
theorem hash_round_trip (svc : AuthService) (lib : BcryptLib) (salt : List UInt8) (s : String)
    (hcodec : lib.parse (lib.format DefaultCost salt
        (lib.core DefaultCost salt (keyStream (bytesOf s)))) =
      some (DefaultCost, salt, lib.core DefaultCost salt (keyStream (bytesOf s)))) :
    ((bytesOf s).length ≤ 72 →
      ∃ h, svc.HashPassword lib salt s = .ok h ∧ svc.CheckPassword lib h s = .ok () ∧
        ∀ s1, (svc.CheckPassword lib h s1 = .ok () ↔
            lib.core DefaultCost salt (keyStream (bytesOf s1)) =
              lib.core DefaultCost salt (keyStream (bytesOf s))) ∧
          (svc.CheckPassword lib h s1 ≠ .ok () → ∃ e, svc.CheckPassword lib h s1 = .error e)) ∧
    (72 < (bytesOf s).length → ∃ e, svc.HashPassword lib salt s = .error e) := by
  constructor
  · intro hlen
    have hnot : ¬ (bytesOf s).length > 72 := by omega
    refine ⟨lib.format DefaultCost salt (lib.core DefaultCost salt (keyStream (bytesOf s))),
      ?_, ?_, ?_⟩
    · simp [AuthService.HashPassword, GenerateFromPassword, hnot]
    · simp [AuthService.CheckPassword, CompareHashAndPassword, hcodec]
    · intro s1
      constructor
      · simp only [AuthService.CheckPassword, CompareHashAndPassword, hcodec]
        split_ifs with h1
        · simp [h1]
        · simp [h1]
      · intro h1
        cases h2 : svc.CheckPassword lib
          (lib.format DefaultCost salt (lib.core DefaultCost salt (keyStream (bytesOf s)))) s1 with
        | error e => exact ⟨e, rfl⟩
        | ok u => exact absurd h2 h1
  · intro hlen
    refine ⟨"failed to hash password: bcrypt: password length exceeds 72 bytes", ?_⟩
    simp [AuthService.HashPassword, GenerateFromPassword, hlen]

/-- The stand-in library reads back what it writes under `demoSalt`; the secret
`"Abcdef1!"` is hashed and verifies, and a candidate verifies exactly when its digest is
that of the secret. -/
theorem hash_round_trip_witness :
    ((bytesOf "Abcdef1!").length ≤ 72 →
      ∃ h, demoService.HashPassword demoBcrypt demoSalt "Abcdef1!" = .ok h ∧
        demoService.CheckPassword demoBcrypt h "Abcdef1!" = .ok () ∧
        ∀ s1, (demoService.CheckPassword demoBcrypt h s1 = .ok () ↔
            demoBcrypt.core DefaultCost demoSalt (keyStream (bytesOf s1)) =
              demoBcrypt.core DefaultCost demoSalt (keyStream (bytesOf "Abcdef1!"))) ∧
          (demoService.CheckPassword demoBcrypt h s1 ≠ .ok () →
            ∃ e, demoService.CheckPassword demoBcrypt h s1 = .error e)) ∧
    (72 < (bytesOf "Abcdef1!").length →
      ∃ e, demoService.HashPassword demoBcrypt demoSalt "Abcdef1!" = .error e) :=
  hash_round_trip demoService demoBcrypt demoSalt "Abcdef1!" (by decide)

/-- C6 as stated fails twice.  A secret of 73 bytes is not hashed, whatever the library
computes.  And the secrets `"a"` and `"a\x00a"` differ, yet every hash accepts one exactly
when it accepts the other, because bcrypt reads the same 72 key bytes from both; with the
stand-in library the hash of `"a"` accepts `"a\x00a"`. -/
theorem hash_round_trip_counterexample :
    (∀ (lib : BcryptLib) (salt : List UInt8),
      ∃ e, demoService.HashPassword lib salt longSecret = .error e) ∧
    "a" ≠ "a\x00a" ∧
    (∀ (lib : BcryptLib) (h : String),
      demoService.CheckPassword lib h "a\x00a" = demoService.CheckPassword lib h "a") ∧
    ∃ h, demoService.HashPassword demoBcrypt demoSalt "a" = .ok h ∧
      demoService.CheckPassword demoBcrypt h "a" = .ok () ∧
      demoService.CheckPassword demoBcrypt h "a\x00a" = .ok () := by
  refine ⟨?_, by decide, ?_, ?_⟩
  · intro lib salt
    have hlen : (bytesOf longSecret).length > 72 := by decide
    refine ⟨"failed to hash password: bcrypt: password length exceeds 72 bytes", ?_⟩
    simp [AuthService.HashPassword, GenerateFromPassword, hlen]
  · intro lib h
    unfold AuthService.CheckPassword CompareHashAndPassword
    rw [keyStream_collision]
  · exact ⟨demoBcrypt.format DefaultCost demoSalt (keyStream (bytesOf "a")),
      by decide, by decide, by decide⟩

/-! ## Roles and permissions -/

theorem anyRoleGrants_iff (rs : RBACService) (permission : String)
    (hno : ∀ q, rs.db.fails q = none) (roles : List String) :
    (rs.anyRoleGrants permission roles = .ok true ∨
      rs.anyRoleGrants permission roles = .ok false) ∧
    (rs.anyRoleGrants permission roles = .ok true ↔
      ∃ r ∈ roles, ∃ rp ∈ rs.db.rolePermissions, rp.Role = r ∧ rp.Permission = permission) := by
  induction roles with
  | nil => simp [RBACService.anyRoleGrants]
  | cons role roles ih =>
    unfold RBACService.anyRoleGrants
    simp only [RBACService.countRolePermission, hno]
    by_cases hc : (rs.db.rolePermissions.filter
        (fun rp => decide (rp.Role = role) && decide (rp.Permission = permission))).length > 0
    · simp only [hc, if_true, true_or, true_and, true_iff]
      obtain ⟨rp, hrp⟩ := List.exists_mem_of_length_pos hc
      rw [List.mem_filter] at hrp
      simp only [Bool.and_eq_true, decide_eq_true_eq] at hrp
      exact ⟨role, List.mem_cons_self _ _, rp, hrp.1, hrp.2.1, hrp.2.2⟩
    · simp only [hc, if_false]
      refine ⟨ih.1, ?_⟩
      rw [ih.2]
      constructor
      · rintro ⟨r, hr, h⟩
        exact ⟨r, List.mem_cons_of_mem _ hr, h⟩
      · rintro ⟨r, hr, rp, hrp, h1, h2⟩
        rcases List.mem_cons.mp hr with h | h
        · exfalso
          apply hc
          apply List.length_pos_of_mem (a := rp)
          rw [List.mem_filter]
          simp [hrp, h1, h2, h]
        · exact ⟨r, h, rp, hrp, h1, h2⟩

theorem mem_GetUserRoles (rs : RBACService) (userID : Nat)
    (hno : ∀ q, rs.db.fails q = none) :
    ∃ roles, rs.GetUserRoles userID = .ok roles ∧
      ∀ r, r ∈ roles ↔ ∃ ur ∈ rs.db.userRoles, ur.UserID = userID ∧ ur.Role = r := by
  refine ⟨(rs.db.userRoles.filter (fun ur => decide (ur.UserID = userID))).map (·.Role),
    by simp only [RBACService.GetUserRoles, hno], ?_⟩
  intro r
  simp only [List.mem_map, List.mem_filter, decide_eq_true_eq]
  constructor
  · rintro ⟨ur, ⟨h1, h2⟩, h3⟩
    exact ⟨ur, h1, h2, h3⟩
  · rintro ⟨ur, h1, h2, h3⟩
    exact ⟨ur, ⟨h1, h2⟩, h3⟩

theorem RequirePermission_ok_iff (rs : RBACService) (userID : Nat) (permission : String) :
    rs.RequirePermission userID permission = .ok () ↔
      rs.HasPermission userID permission = .ok true := by
  unfold RBACService.RequirePermission
  cases h : rs.HasPermission userID permission with
  | error e => simp
  | ok b => cases b <;> simp

/-- C7 (`HasPermission`, `RequirePermission`).  When no query of the store fails,
`HasPermission(u, p)` returns true iff some role `r` has a row `(u, r)` in the role-grant
table and a row `(r, p)` in the role-permission table, and returns false otherwise.
Whatever the store does, `RequirePermission(u, p)` returns nil exactly when
`HasPermission(u, p)` returns true, and an error in every other case. -/
theorem HasPermission_spec (rs : RBACService) (userID : Nat) (permission : String) :
    ((∀ q, rs.db.fails q = none) →
      (rs.HasPermission userID permission = .ok true ↔
        ∃ r, (∃ ur ∈ rs.db.userRoles, ur.UserID = userID ∧ ur.Role = r) ∧
          (∃ rp ∈ rs.db.rolePermissions, rp.Role = r ∧ rp.Permission = permission)) ∧
      (rs.HasPermission userID permission = .ok true ∨
        rs.HasPermission userID permission = .ok false) ∧
      (rs.RequirePermission userID permission = .ok () ↔
        ∃ r, (∃ ur ∈ rs.db.userRoles, ur.UserID = userID ∧ ur.Role = r) ∧
          (∃ rp ∈ rs.db.rolePermissions, rp.Role = r ∧ rp.Permission = permission))) ∧
    (rs.RequirePermission userID permission = .ok () ↔
      rs.HasPermission userID permission = .ok true) ∧
    (rs.RequirePermission userID permission ≠ .ok () →
      ∃ e, rs.RequirePermission userID permission = .error e) := by
  refine ⟨?_, RequirePermission_ok_iff rs userID permission, ?_⟩
  · intro hno
    obtain ⟨roles, hroles, hmem⟩ := mem_GetUserRoles rs userID hno
    have hany := anyRoleGrants_iff rs permission hno roles
    have hHP : rs.HasPermission userID permission = rs.anyRoleGrants permission roles := by
      simp only [RBACService.HasPermission, hroles]
    have hiff : rs.HasPermission userID permission = .ok true ↔
        ∃ r, (∃ ur ∈ rs.db.userRoles, ur.UserID = userID ∧ ur.Role = r) ∧
          (∃ rp ∈ rs.db.rolePermissions, rp.Role = r ∧ rp.Permission = permission) := by
      rw [hHP, hany.2]
      constructor
      · rintro ⟨r, hr, h⟩
        exact ⟨r, (hmem r).mp hr, h⟩
      · rintro ⟨r, hr, h⟩
        exact ⟨r, (hmem r).mpr hr, h⟩
    refine ⟨hiff, ?_, ?_⟩
    · rw [hHP]
      exact hany.1
    · rw [RequirePermission_ok_iff]
      exact hiff
  · intro hne
    cases h : rs.RequirePermission userID permission with
    | error e => exact ⟨e, rfl⟩
    | ok u => exact absurd h hne

/-- In `demoDB` principal 7 holds `create:post` through the role `user` and does not hold
`manage:system`. -/
theorem HasPermission_spec_witness :
    RBACService.RequirePermission { db := demoDB } 7 "create:post" = .ok () ∧
    RBACService.RequirePermission { db := demoDB } 7 "manage:system" =
      .error "insufficient permissions: manage:system required" ∧
    (RBACService.HasPermission { db := demoDB } 7 "create:post" = .ok true ↔
      ∃ r, (∃ ur ∈ demoDB.userRoles, ur.UserID = 7 ∧ ur.Role = r) ∧
        (∃ rp ∈ demoDB.rolePermissions, rp.Role = r ∧ rp.Permission = "create:post")) :=
  ⟨by decide, by decide,
    ((HasPermission_spec { db := demoDB } 7 "create:post").1 (fun _ => rfl)).1⟩

/-- C8 (ownership short-circuit).  For every store, failing or not, every principal `u`
and every role `r`: `RequireOwnershipOrRole(u, u, r)` returns nil; and for every owner `o`
the call `RequireOwnershipOrRole(u, o, r)` returns nil when `u = o` and what
`RequireRole(u, r)` returns when `u ≠ o`. -/
theorem ownership_short_circuit (rs : RBACService) (u o : Nat) (r : String) :
    rs.RequireOwnershipOrRole u u r = .ok () ∧
    rs.RequireOwnershipOrRole u o r = (if u = o then .ok () else rs.RequireRole u r) := by
  refine ⟨?_, rfl⟩
  simp [RBACService.RequireOwnershipOrRole]

/-- Principal 9 has no role in `demoDB`, owns the resource and passes; principal 7 does not
own it, is no admin and is refused; on a store that fails every query the owner still
passes. -/
theorem ownership_short_circuit_examples :
    RBACService.RequireOwnershipOrRole { db := demoDB } 9 9 "admin" = .ok () ∧
    RBACService.RequireOwnershipOrRole { db := demoDB } 7 9 "admin" =
      .error "insufficient role: admin required" ∧
    RBACService.RequireOwnershipOrRole
      { db := { demoDB with fails := fun _ => some "connection refused" } } 9 9 "admin" = .ok () ∧
    RBACService.RequireOwnershipOrRole
      { db := { demoDB with fails := fun _ => some "connection refused" } } 7 9 "admin" =
      .error "failed to check role: connection refused" := by
  refine ⟨by decide, by decide, by decide, by decide⟩

/-! ## Identity extraction -/

theorem splitChars_shape (sep : Char) (s : List Char) :
    ∃ p ps, splitChars sep s = p :: ps ∧ sep ∉ p ∧ (ps = [] → s = p) ∧
      (∀ q rest, ps = q :: rest → ∃ b, s = p ++ sep :: b ∧ splitChars sep b = q :: rest) := by
  induction s with
  | nil => exact ⟨[], [], rfl, by simp, fun _ => rfl, by simp⟩
  | cons c cs ih =>
    obtain ⟨p, ps, hsplit, hp, hone, hmore⟩ := ih
    by_cases hc : c = sep
    · refine ⟨[], p :: ps, by simp [splitChars, hc, hsplit], by simp, by simp, ?_⟩
      intro q rest hq
      refine ⟨cs, by simp [hc], ?_⟩
      rw [hsplit, hq]
    · refine ⟨c :: p, ps, by simp [splitChars, hc, hsplit], ?_, ?_, ?_⟩
      · simp only [List.mem_cons, not_or]
        exact ⟨fun h => hc h.symm, hp⟩
      · intro h
        rw [hone h]
      · intro q rest hq
        obtain ⟨b, hb, hsb⟩ := hmore q rest hq
        exact ⟨b, by simp [hb], hsb⟩

theorem splitChars_no_sep (sep : Char) (s : List Char) (h : sep ∉ s) :
    splitChars sep s = [s] := by
  induction s with
  | nil => rfl
  | cons c cs ih =>
    simp only [List.mem_cons, not_or] at h
    have hc : ¬ c = sep := fun e => h.1 e.symm
    simp [splitChars, hc, ih h.2]

theorem splitChars_append (sep : Char) (a b : List Char) (h : sep ∉ a) :
    splitChars sep (a ++ sep :: b) = a :: splitChars sep b := by
  induction a with
  | nil => simp [splitChars]
  | cons c cs ih =>
    simp only [List.mem_cons, not_or] at h
    have hc : ¬ c = sep := fun e => h.1 e.symm
    simp [splitChars, hc, ih h.2]

theorem splitChars_two (sep : Char) (s a b : List Char) :
    splitChars sep s = [a, b] ↔ s = a ++ sep :: b ∧ sep ∉ a ∧ sep ∉ b := by
  constructor
  · intro h
    obtain ⟨p, ps, hsplit, hp, _, hmore⟩ := splitChars_shape sep s
    rw [h] at hsplit
    simp only [List.cons.injEq] at hsplit
    obtain ⟨hpa, hps⟩ := hsplit
    subst hpa
    obtain ⟨b1, hs, hb1⟩ := hmore b [] hps.symm
    obtain ⟨p1, ps1, hsplit1, hp1, hone1, _⟩ := splitChars_shape sep b1
    rw [hb1] at hsplit1
    simp only [List.cons.injEq] at hsplit1
    obtain ⟨hb, hnil⟩ := hsplit1
    have : b1 = p1 := hone1 hnil.symm
    subst hb
    rw [this] at hs
    exact ⟨hs, hp, hp1⟩
  · rintro ⟨hs, ha, hb⟩
    rw [hs, splitChars_append sep a b ha, splitChars_no_sep sep b hb]

theorem Split_bearer (authHeader token : String) (hh : authHeader = "Bearer " ++ token)
    (hns : ' ' ∉ token.data) : Split authHeader ' ' = ["Bearer", token] := by
  have hd : authHeader.data = "Bearer".data ++ ' ' :: token.data := by
    rw [hh, String.data_append]
    rfl
  have hb : ' ' ∉ "Bearer".data := by decide
  unfold Split
  rw [(splitChars_two ' ' authHeader.data "Bearer".data token.data).mpr ⟨hd, hb, hns⟩]
  rfl

theorem Split_two (authHeader : String) (hlen : (Split authHeader ' ').length = 2)
    (h0 : (Split authHeader ' ').getD 0 "" = "Bearer") :
    ∃ token, authHeader = "Bearer " ++ token ∧ ' ' ∉ token.data ∧
      (Split authHeader ' ').getD 1 "" = token := by
  unfold Split at hlen h0 ⊢
  rw [List.length_map] at hlen
  match hsp : splitChars ' ' authHeader.data, hlen with
  | [a, b], _ =>
    rw [hsp] at h0
    simp only [List.map_cons, List.getD_cons_zero] at h0
    have ha : a = "Bearer".data := by rw [← h0]
    obtain ⟨hd, _, hb⟩ := (splitChars_two ' ' authHeader.data a b).mp hsp
    refine ⟨String.mk b, ?_, hb, ?_⟩
    · apply String.ext
      rw [String.data_append, hd, ha]
      rfl
    · simp

/-- How both middlewares read the `Authorization` header: the token they hand to
`ValidateToken`, if the header has the shape `Bearer`, one space, a token without space. -/
theorem bearerToken_cases (authHeader : String) :
    (authHeader ≠ "" ∧ ¬ ((Split authHeader ' ').length ≠ 2 ∨
        (Split authHeader ' ').getD 0 "" ≠ "Bearer") ∧
      ∃ token, authHeader = "Bearer " ++ token ∧ ' ' ∉ token.data ∧
        (Split authHeader ' ').getD 1 "" = token) ∨
    ((authHeader = "" ∨ ((Split authHeader ' ').length ≠ 2 ∨
        (Split authHeader ' ').getD 0 "" ≠ "Bearer")) ∧
      ¬ ∃ token, authHeader = "Bearer " ++ token ∧ ' ' ∉ token.data) := by
  by_cases hshape : (Split authHeader ' ').length ≠ 2 ∨
      (Split authHeader ' ').getD 0 "" ≠ "Bearer"
  · right
    refine ⟨Or.inr hshape, ?_⟩
    rintro ⟨token, hh, hns⟩
    rw [Split_bearer authHeader token hh hns] at hshape
    simp at hshape
  · have h2 : (Split authHeader ' ').length = 2 ∧
        (Split authHeader ' ').getD 0 "" = "Bearer" := by
      constructor
      · by_contra h
        exact hshape (Or.inl h)
      · by_contra h
        exact hshape (Or.inr h)
    obtain ⟨token, hh, hns, h1⟩ := Split_two authHeader h2.1 h2.2
    left
    refine ⟨?_, hshape, token, hh, hns, h1⟩
    intro he
    rw [he] at hh
    have hlen := congrArg String.length hh
    rw [String.length_append] at hlen
    have h7 : "Bearer ".length = 7 := by decide
    have h0 : "".length = 0 := by decide
    omega

theorem bearer_cancel (a b : String) (h : "Bearer " ++ a = "Bearer " ++ b) : a = b := by
  apply String.ext
  have hd := congrArg String.data h
  rw [String.data_append, String.data_append] at hd
  exact List.append_cancel_left hd

theorem AuthMiddleware_rejected (svc : AuthService) (lib : JwtLib) (now : Int)
    (authHeader clientIP : String) (keys : String → Option Value)
    (h : (AuthMiddleware svc lib now (newRequest authHeader clientIP keys)).dispatched = false) :
    (AuthMiddleware svc lib now (newRequest authHeader clientIP keys)).status = some 401 ∧
    (AuthMiddleware svc lib now (newRequest authHeader clientIP keys)).aborted = true ∧
    (AuthMiddleware svc lib now (newRequest authHeader clientIP keys)).keys = keys := by
  unfold AuthMiddleware at h ⊢
  simp only [newRequest] at h ⊢
  split_ifs at h ⊢
  · exact ⟨rfl, rfl, rfl⟩
  · exact ⟨rfl, rfl, rfl⟩
  · split at h
    · exact ⟨rfl, rfl, rfl⟩
    · simp [Context.Next] at h

theorem AuthMiddleware_bearer (svc : AuthService) (lib : JwtLib) (now : Int)
    (token clientIP : String) (keys : String → Option Value) (hns : ' ' ∉ token.data) :
    AuthMiddleware svc lib now (newRequest ("Bearer " ++ token) clientIP keys) =
      match svc.ValidateToken lib now token with
      | .error _ =>
        ((newRequest ("Bearer " ++ token) clientIP keys).JSON StatusUnauthorized
          [("error", .str "Invalid token")]).Abort
      | .ok claims =>
        ((((newRequest ("Bearer " ++ token) clientIP keys).Set "user_id"
          (.uint claims.UserID)).Set "username" (.str claims.Username)).Set
          "email" (.str claims.Email)).Next := by
  have hsplit := Split_bearer ("Bearer " ++ token) token rfl hns
  have hne : ¬ ("Bearer " ++ token = "") := by
    intro he
    have hlen := congrArg String.length he
    rw [String.length_append] at hlen
    have h7 : "Bearer ".length = 7 := by decide
    have h0 : "".length = 0 := by decide
    omega
  unfold AuthMiddleware
  simp only [newRequest, hne, if_false, hsplit]
  simp

/-- C9 (required identity extraction).  Accepted tokens contain no space, as the compact
serialisation has none.  Then `AuthMiddleware` hands the request on iff the
`Authorization` header is `Bearer`, one space, and a token `ValidateToken` accepts; when it
does, the chain is not aborted, no reply is written, and the context holds `user_id`,
`username` and `email` of the claims of the token; when it does not, the reply is 401, the
chain is aborted and no key is set. -/
theorem AuthMiddleware_spec (svc : AuthService) (lib : JwtLib) (now : Int)
    (authHeader clientIP : String) (keys : String → Option Value)
    (hspace : ∀ s token, lib.decode s = some token → ' ' ∉ s.data) :
    ((AuthMiddleware svc lib now (newRequest authHeader clientIP keys)).dispatched = true ↔
      ∃ token claims, authHeader = "Bearer " ++ token ∧
        svc.ValidateToken lib now token = .ok claims) ∧
    (∀ token claims, authHeader = "Bearer " ++ token →
      svc.ValidateToken lib now token = .ok claims →
      (AuthMiddleware svc lib now (newRequest authHeader clientIP keys)).aborted = false ∧
      (AuthMiddleware svc lib now (newRequest authHeader clientIP keys)).status = none ∧
      (AuthMiddleware svc lib now (newRequest authHeader clientIP keys)).keys "user_id" =
        some (.uint claims.UserID) ∧
      (AuthMiddleware svc lib now (newRequest authHeader clientIP keys)).keys "username" =
        some (.str claims.Username) ∧
      (AuthMiddleware svc lib now (newRequest authHeader clientIP keys)).keys "email" =
        some (.str claims.Email)) ∧
    ((AuthMiddleware svc lib now (newRequest authHeader clientIP keys)).dispatched = false →
      (AuthMiddleware svc lib now (newRequest authHeader clientIP keys)).status = some 401 ∧
      (AuthMiddleware svc lib now (newRequest authHeader clientIP keys)).aborted = true ∧
      (AuthMiddleware svc lib now (newRequest authHeader clientIP keys)).keys = keys) := by
  have hok : ∀ token claims, authHeader = "Bearer " ++ token →
      svc.ValidateToken lib now token = .ok claims →
      AuthMiddleware svc lib now (newRequest authHeader clientIP keys) =
        ((((newRequest authHeader clientIP keys).Set "user_id"
          (.uint claims.UserID)).Set "username" (.str claims.Username)).Set
          "email" (.str claims.Email)).Next := by
    intro token claims hh hv
    obtain ⟨tok, hdec, _⟩ := (ValidateToken_ok_iff svc lib now token claims).mp hv
    have hns := hspace token tok hdec
    rw [hh, AuthMiddleware_bearer svc lib now token clientIP keys hns, hv]
  refine ⟨⟨?_, ?_⟩, ?_, AuthMiddleware_rejected svc lib now authHeader clientIP keys⟩
  · intro hd
    rcases bearerToken_cases authHeader with ⟨_, _, token, hh, hns, _⟩ | ⟨hbad, _⟩
    · rw [hh, AuthMiddleware_bearer svc lib now token clientIP keys hns] at hd
      cases hv : svc.ValidateToken lib now token with
      | error e =>
        rw [hv] at hd
        simp [Context.JSON, Context.Abort, newRequest] at hd
      | ok claims => exact ⟨token, claims, hh, hv⟩
    · exfalso
      unfold AuthMiddleware at hd
      simp only [newRequest] at hd
      rcases hbad with h1 | h1
      · simp [h1, Context.JSON, Context.Abort] at hd
      · by_cases he : authHeader = ""
        · simp [he, Context.JSON, Context.Abort] at hd
        · simp only [he, if_false, h1, if_true] at hd
          simp [Context.JSON, Context.Abort] at hd
  · rintro ⟨token, claims, hh, hv⟩
    rw [hok token claims hh hv]
    rfl
  · intro token claims hh hv
    rw [hok token claims hh hv]
    refine ⟨rfl, rfl, ?_, ?_, ?_⟩ <;> simp [Context.Next, Context.Set]

theorem bearerLib_no_space (s : String) (token : Token)
    (h : bearerLib.decode s = some token) : ' ' ∉ s.data := by
  have hs : s = "tok" := by
    by_contra hne
    have hne1 : ¬ "tok" = s := fun e => hne e.symm
    simp [bearerLib, tableLib, List.find?, hne1] at h
  rw [hs]
  decide

/-- With the token of `ada` serialised as `tok`: the header `Bearer tok` is handed on with
the identity of `ada` attached, and the headers `tok`, `bearer tok`, `Bearer  tok` (two
spaces), `Bearer nope` and the absent header are answered 401. -/
theorem AuthMiddleware_spec_witness :
    ((AuthMiddleware demoService bearerLib 1
        (newRequest "Bearer tok" "10.0.0.1" (fun _ => none))).dispatched = true ↔
      ∃ token claims, "Bearer tok" = "Bearer " ++ token ∧
        demoService.ValidateToken bearerLib 1 token = .ok claims) ∧
    (AuthMiddleware demoService bearerLib 1
        (newRequest "Bearer tok" "10.0.0.1" (fun _ => none))).dispatched = true ∧
    (AuthMiddleware demoService bearerLib 1
        (newRequest "Bearer tok" "10.0.0.1" (fun _ => none))).keys "user_id" =
      some (.uint 7) ∧
    (AuthMiddleware demoService bearerLib 1
        (newRequest "tok" "10.0.0.1" (fun _ => none))).status = some 401 ∧
    (AuthMiddleware demoService bearerLib 1
        (newRequest "bearer tok" "10.0.0.1" (fun _ => none))).status = some 401 ∧
    (AuthMiddleware demoService bearerLib 1
        (newRequest "Bearer  tok" "10.0.0.1" (fun _ => none))).status = some 401 ∧
    (AuthMiddleware demoService bearerLib 1
        (newRequest "Bearer nope" "10.0.0.1" (fun _ => none))).status = some 401 ∧
    (AuthMiddleware demoService bearerLib 1
        (newRequest "" "10.0.0.1" (fun _ => none))).status = some 401 :=
  ⟨(AuthMiddleware_spec demoService bearerLib 1 "Bearer tok" "10.0.0.1" (fun _ => none)
      bearerLib_no_space).1,
    by decide, by decide, by decide, by decide, by decide, by decide, by decide⟩

/-- C10 (optional identity extraction).  `OptionalAuthMiddleware` always hands the request
on, never aborts and never writes a reply.  Where `AuthMiddleware` hands the request on, it
leaves the same context, so the same `user_id`, `username` and `email`; where
`AuthMiddleware` replies 401, it sets no key. -/
theorem OptionalAuthMiddleware_spec (svc : AuthService) (lib : JwtLib) (now : Int)
    (authHeader clientIP : String) (keys : String → Option Value) :
    (OptionalAuthMiddleware svc lib now (newRequest authHeader clientIP keys)).dispatched = true ∧
    (OptionalAuthMiddleware svc lib now (newRequest authHeader clientIP keys)).aborted = false ∧
    (OptionalAuthMiddleware svc lib now (newRequest authHeader clientIP keys)).status = none ∧
    (OptionalAuthMiddleware svc lib now (newRequest authHeader clientIP keys)).body = [] ∧
    ((AuthMiddleware svc lib now (newRequest authHeader clientIP keys)).dispatched = true →
      OptionalAuthMiddleware svc lib now (newRequest authHeader clientIP keys) =
        AuthMiddleware svc lib now (newRequest authHeader clientIP keys)) ∧
    ((AuthMiddleware svc lib now (newRequest authHeader clientIP keys)).dispatched = false →
      (AuthMiddleware svc lib now (newRequest authHeader clientIP keys)).status = some 401 ∧
      (OptionalAuthMiddleware svc lib now (newRequest authHeader clientIP keys)).keys = keys) := by
  unfold OptionalAuthMiddleware AuthMiddleware
  simp only [newRequest]
  split_ifs
  · simp [Context.Next, Context.JSON, Context.Abort, StatusUnauthorized]
  · simp [Context.Next, Context.JSON, Context.Abort, StatusUnauthorized]
  · cases hv : svc.ValidateToken lib now ((Split authHeader ' ').getD 1 "") with
    | error e => simp [Context.Next, Context.JSON, Context.Abort, StatusUnauthorized]
    | ok claims => simp [Context.Next, Context.Set]

/-! ## The rate limiter: readers, eviction, sliding -/

/-- C14 (eviction transparency).  For every limiter, every key and all instants `s ≤ t`:
a cleanup sweep at `s` followed by `IsAllowed(key)` at `t` returns the decision, and
leaves for `key` the list, that `IsAllowed(key)` at `t` returns and leaves without the
sweep. -/
theorem eviction_transparent (rl : RateLimiter) (key : String) (s t : Int) (hst : s ≤ t) :
    ((rl.cleanup s).IsAllowed t key).1 = (rl.IsAllowed t key).1 ∧
    ((rl.cleanup s).IsAllowed t key).2.requests key = (rl.IsAllowed t key).2.requests key := by
  have hw : (rl.cleanup s).window = rl.window := rfl
  have hl : (rl.cleanup s).limit = rl.limit := rfl
  have hv : validRequests (t - rl.window) ((rl.cleanup s).stored key) =
      validRequests (t - rl.window) (rl.stored key) := by
    rw [stored_cleanup]
    exact validRequests_filter (t - rl.window) (s - rl.window) (rl.stored key) (by omega)
  have hstored : ∀ r : RateLimiter, (r.requests key).getD [] = r.stored key := fun _ => rfl
  unfold RateLimiter.IsAllowed
  simp only [hw, hl, hstored, hv]
  by_cases h : ((validRequests (t - rl.window) (rl.stored key)).length : Int) < rl.limit
  · simp [h, RateLimiter.store]
  · simp [h, RateLimiter.store]

/-- With limit 1 and window 10 and the key `a` bound to `[5]`: a sweep at 15 deletes the
key, and the call at 16 is admitted and leaves `[16]` with or without it. -/
theorem eviction_transparent_witness :
    (((oneSlot.cleanup 15).IsAllowed 16 "a").1 = (oneSlot.IsAllowed 16 "a").1 ∧
      ((oneSlot.cleanup 15).IsAllowed 16 "a").2.requests "a" =
        (oneSlot.IsAllowed 16 "a").2.requests "a") ∧
    (oneSlot.cleanup 15).requests "a" = none ∧
    (oneSlot.IsAllowed 16 "a").1 = true ∧
    (oneSlot.IsAllowed 16 "a").2.requests "a" = some [16] :=
  ⟨eviction_transparent oneSlot "a" 15 16 (by decide), by decide, by decide, by decide⟩

theorem remaining_eq_max (rl : RateLimiter) (now : Int) (key : String) (hpos : 0 < rl.limit) :
    rl.GetRemainingRequests now key =
      max 0 (rl.limit -
        (((rl.stored key).filter (fun t => decide (now - rl.window < t))).length : Int)) := by
  unfold RateLimiter.GetRemainingRequests RateLimiter.stored
  cases h : rl.requests key with
  | none =>
    simp only [Option.getD_none, List.filter_nil, List.length_nil]
    omega
  | some requests =>
    simp only [Option.getD_some]
    split_ifs <;> omega

/-- C15 (`GetRemainingRequests`).  For a limiter with positive limit, every state, key
and instant `now`: the result is `max(0, limit - c)` with `c` the number of stored
timestamps of the key strictly after `now - window`; it lies in `[0, limit]`; and it is
`limit` for a key without record. -/
theorem GetRemainingRequests_spec (rl : RateLimiter) (now : Int) (key : String)
    (hpos : 0 < rl.limit) :
    rl.GetRemainingRequests now key =
      max 0 (rl.limit -
        (((rl.stored key).filter (fun t => decide (now - rl.window < t))).length : Int)) ∧
    0 ≤ rl.GetRemainingRequests now key ∧
    rl.GetRemainingRequests now key ≤ rl.limit ∧
    (rl.requests key = none → rl.GetRemainingRequests now key = rl.limit) := by
  unfold RateLimiter.GetRemainingRequests RateLimiter.stored
  cases h : rl.requests key with
  | none =>
    refine ⟨?_, ?_, ?_, fun _ => rfl⟩
    · simp only [Option.getD_none, List.filter_nil, List.length_nil]
      omega
    · simp only
      omega
    · simp only
      omega
  | some requests =>
    simp only [Option.getD_some]
    refine ⟨?_, ?_, ?_, fun h1 => by simp at h1⟩ <;> split_ifs <;> omega

/-- With limit 1 and the key `a` bound to `[5]`, window 10: nothing remains at 12, one
request remains at 15 and for the unknown key `b`. -/
theorem GetRemainingRequests_spec_witness :
    (oneSlot.GetRemainingRequests 12 "a" =
        max 0 (oneSlot.limit -
          (((oneSlot.stored "a").filter (fun t => decide (12 - oneSlot.window < t))).length
            : Int)) ∧
      0 ≤ oneSlot.GetRemainingRequests 12 "a" ∧
      oneSlot.GetRemainingRequests 12 "a" ≤ oneSlot.limit ∧
      (oneSlot.requests "a" = none → oneSlot.GetRemainingRequests 12 "a" = oneSlot.limit)) ∧
    oneSlot.GetRemainingRequests 12 "a" = 0 ∧
    oneSlot.GetRemainingRequests 15 "a" = 1 ∧
    oneSlot.GetRemainingRequests 12 "b" = 1 :=
  ⟨GetRemainingRequests_spec oneSlot 12 "a" (by decide), by decide, by decide, by decide⟩

theorem oldestOf_le (o : Int) (l : List Int) :
    oldestOf o l ≤ o ∧ ∀ a ∈ l, oldestOf o l ≤ a := by
  induction l generalizing o with
  | nil => simp [oldestOf]
  | cons b l ih =>
    have hstep : oldestOf o (b :: l) = oldestOf (if b < o then b else o) l := rfl
    rw [hstep]
    obtain ⟨h1, h2⟩ := ih (if b < o then b else o)
    constructor
    · split_ifs at h1 ⊢ <;> omega
    · intro a ha
      rcases List.mem_cons.mp ha with h | h
      · subst h
        split_ifs at h1 ⊢ <;> omega
      · exact h2 a h

theorem validRequests_eq_self (cutoff : Int) (l : List Int) (h : ∀ a ∈ l, cutoff < a) :
    validRequests cutoff l = l := by
  unfold validRequests
  rw [List.filter_eq_self]
  intro a ha
  simpa using h a ha

theorem validRequests_mem (cutoff a : Int) (l : List Int) (ha : a ∈ l) (h : cutoff < a) :
    a ∈ validRequests cutoff l := by
  unfold validRequests
  rw [List.mem_filter]
  exact ⟨ha, by simpa using h⟩

theorem stored_stepEvent_other (rl : RateLimiter) (key k : String) (now : Int) (h : k ≠ key) :
    (stepEvent rl (.isAllowed k now)).stored key = rl.stored key :=
  stored_IsAllowed_other rl now k key (fun e => h e.symm)

theorem stepEvent_params (rl : RateLimiter) (e : Event) :
    (stepEvent rl e).limit = rl.limit ∧ (stepEvent rl e).window = rl.window := by
  cases e with
  | isAllowed k now => exact IsAllowed_params rl now k
  | sweep now => exact ⟨rfl, rfl⟩

/-- A key whose list is full and whose every timestamp expires at `r` or later stays as
it is under every event before `r`, and every call for it before `r` is denied. -/
theorem frozen_step (rl : RateLimiter) (key : String) (r : Int) (e : Event)
    (hfull : ¬ ((rl.stored key).length : Int) < rl.limit)
    (hlive : ∀ a ∈ rl.stored key, r ≤ a + rl.window) (he : e.time < r) :
    (stepEvent rl e).stored key = rl.stored key ∧
    (∀ now, e = .isAllowed key now → (rl.IsAllowed now key).1 = false) := by
  have hkeep : validRequests (e.time - rl.window) (rl.stored key) = rl.stored key :=
    validRequests_eq_self _ _ (fun a ha => by have := hlive a ha; omega)
  cases e with
  | sweep now =>
    refine ⟨?_, fun now1 h => by cases h⟩
    simp only [Event.time] at hkeep
    simp only [stepEvent, stored_cleanup, hkeep]
  | isAllowed k now =>
    simp only [Event.time] at hkeep
    by_cases hk : k = key
    · subst hk
      have hden : ¬ (rl.IsAllowed now k).1 = true := by
        rw [IsAllowed_decision, hkeep]
        exact hfull
      refine ⟨?_, ?_⟩
      · simp only [stepEvent]
        rw [stored_IsAllowed_same, if_neg hden, hkeep]
      · intro now1 h
        cases h
        simpa using hden
    · refine ⟨stored_stepEvent_other rl key k now hk, ?_⟩
      intro now1 h
      cases h
      exact absurd rfl hk

theorem denial_frozen (rl : RateLimiter) (key : String) (t nowR : Int)
    (hden : (rl.IsAllowed t key).1 = false) :
    ¬ (((rl.IsAllowed t key).2.stored key).length : Int) < (rl.IsAllowed t key).2.limit ∧
    ∀ a ∈ (rl.IsAllowed t key).2.stored key,
      (rl.IsAllowed t key).2.GetResetTime nowR key ≤ a + (rl.IsAllowed t key).2.window := by
  have hnot : ¬ (rl.IsAllowed t key).1 = true := by simp [hden]
  have hst := stored_IsAllowed_same rl t key
  rw [if_neg hnot] at hst
  have hp := IsAllowed_params rl t key
  constructor
  · rw [hst, hp.1]
    exact fun h => hnot ((IsAllowed_decision rl t key).mpr h)
  · intro a ha
    unfold RateLimiter.GetResetTime
    unfold RateLimiter.stored at ha
    cases hreq : (rl.IsAllowed t key).2.requests key with
    | none => simp [hreq] at ha
    | some l =>
      rw [hreq] at ha
      simp only [Option.getD_some] at ha
      cases l with
      | nil => simp at ha
      | cons first rest =>
        simp only
        have := (oldestOf_le first (first :: rest)).2 a ha
        omega

theorem runEvents_time_mem (rl : RateLimiter) (evs : List Event) (c : Call)
    (hc : c ∈ runEvents rl evs) : ∃ e ∈ evs, e.time = c.time := by
  induction evs generalizing rl with
  | nil => simp [runEvents] at hc
  | cons e es ih =>
    cases e with
    | sweep now =>
      simp only [runEvents] at hc
      obtain ⟨e1, h1, h2⟩ := ih _ hc
      exact ⟨e1, List.mem_cons_of_mem _ h1, h2⟩
    | isAllowed k now =>
      simp only [runEvents, List.mem_cons] at hc
      rcases hc with h | h
      · exact ⟨.isAllowed k now, List.mem_cons_self _ _, by rw [h]; rfl⟩
      · obtain ⟨e1, h1, h2⟩ := ih _ h
        exact ⟨e1, List.mem_cons_of_mem _ h1, h2⟩

theorem runEvents_cons_mem (rl : RateLimiter) (e : Event) (es : List Event) (c : Call)
    (hc : c ∈ runEvents rl (e :: es)) :
    (∃ now, e = .isAllowed c.key now ∧ c.time = now ∧ c.allowed = (rl.IsAllowed now c.key).1) ∨
    c ∈ runEvents (stepEvent rl e) es := by
  cases e with
  | sweep now =>
    right
    simpa [runEvents, stepEvent] using hc
  | isAllowed k now =>
    simp only [runEvents, List.mem_cons] at hc
    rcases hc with h | h
    · left
      subst h
      exact ⟨now, rfl, rfl, rfl⟩
    · right
      simpa [stepEvent] using h

theorem frozen_run_denied (key : String) (r : Int) (evs : List Event) :
    ∀ (rl : RateLimiter), ¬ ((rl.stored key).length : Int) < rl.limit →
      (∀ a ∈ rl.stored key, r ≤ a + rl.window) → (∀ e ∈ evs, e.time < r) →
      ∀ c ∈ runEvents rl evs, c.key = key → c.allowed = false := by
  induction evs with
  | nil =>
    intro rl _ _ _ c hc
    simp [runEvents] at hc
  | cons e es ih =>
    intro rl hfull hlive hev c hc hk
    have hstep := frozen_step rl key r e hfull hlive (hev e (List.mem_cons_self _ _))
    have hp := stepEvent_params rl e
    rcases runEvents_cons_mem rl e es c hc with ⟨now, he, _, hal⟩ | hin
    · rw [hal, hk]
      rw [hk] at he
      exact hstep.2 now he
    · refine ih (stepEvent rl e) ?_ ?_ (fun e1 h1 => hev e1 (List.mem_cons_of_mem _ h1)) c hin hk
      · rw [hstep.1, hp.1]
        exact hfull
      · rw [hstep.1, hp.2]
        exact hlive

theorem frozen_run_next (key : String) (r : Int) (evs : List Event) :
    ∀ (rl : RateLimiter), ¬ ((rl.stored key).length : Int) < rl.limit →
      (∀ a ∈ rl.stored key, r ≤ a + rl.window) →
      (evs.map Event.time).Pairwise (· ≤ ·) →
      ∀ c ∈ runEvents rl evs, c.key = key → c.allowed = true → r ≤ c.time := by
  induction evs with
  | nil =>
    intro rl _ _ _ c hc
    simp [runEvents] at hc
  | cons e es ih =>
    intro rl hfull hlive hmono c hc hk hal
    simp only [List.map_cons, List.pairwise_cons] at hmono
    by_cases he : e.time < r
    · have hstep := frozen_step rl key r e hfull hlive he
      have hp := stepEvent_params rl e
      rcases runEvents_cons_mem rl e es c hc with ⟨now, he1, _, hal1⟩ | hin
      · rw [hk] at he1 hal1
        rw [hstep.2 now he1] at hal1
        rw [hal1] at hal
        exact Bool.noConfusion hal
      · refine ih (stepEvent rl e) ?_ ?_ hmono.2 c hin hk hal
        · rw [hstep.1, hp.1]
          exact hfull
        · rw [hstep.1, hp.2]
          exact hlive
    · obtain ⟨e1, he1, ht⟩ := runEvents_time_mem rl (e :: es) c hc
      rcases List.mem_cons.mp he1 with h | h
      · rw [h] at ht
        omega
      · have := hmono.1 _ (List.mem_map_of_mem _ h)
        omega

/-- C13 (rate-limit sliding).  `IsAllowed(key)` returns false at `t`, and `r` is what
`GetResetTime(key)` returns in the resulting state.  Then in every run of events from that
state whose clock readings are all before `r`, every `IsAllowed(key)` call returns false;
and in every run of events at non-decreasing clock readings, every `IsAllowed(key)` call
that returns true is made at `r` or later. -/
theorem rate_limit_sliding (rl : RateLimiter) (key : String) (t nowReset : Int)
    (hden : (rl.IsAllowed t key).1 = false) (evs : List Event) :
    ((∀ e ∈ evs, t ≤ e.time ∧ e.time < (rl.IsAllowed t key).2.GetResetTime nowReset key) →
      ∀ c ∈ runEvents (rl.IsAllowed t key).2 evs, c.key = key → c.allowed = false) ∧
    ((evs.map Event.time).Pairwise (· ≤ ·) →
      ∀ c ∈ runEvents (rl.IsAllowed t key).2 evs, c.key = key → c.allowed = true →
        (rl.IsAllowed t key).2.GetResetTime nowReset key ≤ c.time) := by
  obtain ⟨hfull, hlive⟩ := denial_frozen rl key t nowReset hden
  exact ⟨fun hev => frozen_run_denied key _ evs _ hfull hlive (fun e h => (hev e h).2),
    frozen_run_next key _ evs _ hfull hlive⟩

/-- With limit 1 and window 10 and the key `a` bound to `[5]`: the call at 12 is denied,
the reset time read then is 15, the calls at 13 and 14 are denied and the call at 15 is
admitted. -/
theorem rate_limit_sliding_witness :
    (((∀ e ∈ [Event.isAllowed "a" 13, .sweep 13, .isAllowed "a" 14],
        12 ≤ e.time ∧ e.time < (oneSlot.IsAllowed 12 "a").2.GetResetTime 12 "a") →
      ∀ c ∈ runEvents (oneSlot.IsAllowed 12 "a").2
          [Event.isAllowed "a" 13, .sweep 13, .isAllowed "a" 14],
        c.key = "a" → c.allowed = false) ∧
    ((([Event.isAllowed "a" 13, .sweep 13, .isAllowed "a" 14]).map Event.time).Pairwise
        (· ≤ ·) →
      ∀ c ∈ runEvents (oneSlot.IsAllowed 12 "a").2
          [Event.isAllowed "a" 13, .sweep 13, .isAllowed "a" 14],
        c.key = "a" → c.allowed = true →
          (oneSlot.IsAllowed 12 "a").2.GetResetTime 12 "a" ≤ c.time)) ∧
    (oneSlot.IsAllowed 12 "a").2.GetResetTime 12 "a" = 15 ∧
    (runEvents (oneSlot.IsAllowed 12 "a").2
        [.isAllowed "a" 13, .sweep 13, .isAllowed "a" 14, .isAllowed "a" 15]).map
      (·.allowed) = [false, false, true] :=
  ⟨rate_limit_sliding oneSlot "a" 12 12 (by decide)
      [.isAllowed "a" 13, .sweep 13, .isAllowed "a" 14],
    by decide, by decide⟩

/-- C16 at its failing input: a limiter with limit 1 and window 10 admits `a` at 5 and is
swept at 10, which keeps the timestamp; at 17 no timestamp of `a` is after `17 - 10`, and
`GetResetTime` returns 15, which is before 17. -/
theorem GetResetTime_stale :
    (execEvents (NewRateLimiter 1 10) [.isAllowed "a" 5, .sweep 10]).requests "a" = some [5] ∧
    ([5].filter (fun t : Int => decide (17 - 10 < t))) = [] ∧
    (execEvents (NewRateLimiter 1 10) [.isAllowed "a" 5, .sweep 10]).GetResetTime 17 "a" = 15 ∧
    (execEvents (NewRateLimiter 1 10) [.isAllowed "a" 5, .sweep 10]).GetResetTime 17 "a" < 17 := by
  refine ⟨by decide, by decide, by decide, by decide⟩

theorem runEvents_append (rl : RateLimiter) (a b : List Event) :
    runEvents rl (a ++ b) = runEvents rl a ++ runEvents (execEvents rl a) b := by
  induction a generalizing rl with
  | nil => rfl
  | cons e es ih =>
    cases e with
    | sweep now => simp [runEvents, execEvents, stepEvent, ih]
    | isAllowed k now => simp [runEvents, execEvents, stepEvent, ih]

theorem execEvents_append (rl : RateLimiter) (a b : List Event) :
    execEvents rl (a ++ b) = execEvents (execEvents rl a) b := by
  induction a generalizing rl with
  | nil => rfl
  | cons e es ih => simp [execEvents, ih]

/-- Calls for one key at instants in `[t1, t1 + W)`, while the list of the key holds only
timestamps from `t1` on and has room for all of them, are all admitted and appended. -/
theorem fill_aux (key : String) (t1 W L : Int) (ts : List Int) :
    ∀ (rl : RateLimiter), rl.limit = L → rl.window = W →
      (∀ a ∈ rl.stored key, t1 ≤ a) → (∀ t ∈ ts, t1 ≤ t ∧ t < t1 + W) →
      (((rl.stored key).length : Int) + (ts.length : Int) ≤ L) →
      (runEvents rl (ts.map (Event.isAllowed key))).map (·.allowed) =
        List.replicate ts.length true ∧
      (execEvents rl (ts.map (Event.isAllowed key))).stored key = rl.stored key ++ ts ∧
      (execEvents rl (ts.map (Event.isAllowed key))).limit = L ∧
      (execEvents rl (ts.map (Event.isAllowed key))).window = W := by
  induction ts with
  | nil =>
    intro rl hl hw _ _ _
    simp [runEvents, execEvents, hl, hw]
  | cons t ts ih =>
    intro rl hl hw hge hts hroom
    have ht := hts t (List.mem_cons_self _ _)
    have hkeep : validRequests (t - rl.window) (rl.stored key) = rl.stored key :=
      validRequests_eq_self _ _ (fun a ha => by have := hge a ha; omega)
    have hadm : (rl.IsAllowed t key).1 = true := by
      rw [IsAllowed_decision, hkeep, hl]
      simp only [List.length_cons] at hroom
      push_cast at hroom
      omega
    have hst : (rl.IsAllowed t key).2.stored key = rl.stored key ++ [t] := by
      rw [stored_IsAllowed_same, if_pos hadm, hkeep]
    have hp := IsAllowed_params rl t key
    obtain ⟨h1, h2, h3, h4⟩ := ih (rl.IsAllowed t key).2 (by rw [hp.1, hl]) (by rw [hp.2, hw])
      (by
        intro a ha
        rw [hst] at ha
        rcases List.mem_append.mp ha with h | h
        · exact hge a h
        · simp at h
          omega)
      (fun t2 h2 => hts t2 (List.mem_cons_of_mem _ h2))
      (by
        rw [hst]
        simp only [List.length_append, List.length_cons, List.length_nil] at hroom ⊢
        push_cast at hroom ⊢
        omega)
    refine ⟨?_, ?_, ?_, ?_⟩
    · simp only [List.map_cons, runEvents, List.length_cons, List.replicate_succ, hadm]
      rw [h1]
    · simp only [List.map_cons, execEvents, stepEvent]
      rw [h2, hst]
      simp
    · simpa [execEvents, stepEvent] using h3
    · simpa [execEvents, stepEvent] using h4

/-- C17 (filling the window).  On a fresh limiter with limit `L ≥ 1` (here `L` is the
number of instants `t1 :: mid`) and window `W`, `L + 1` calls for one key at instants
`t1 ≤ ... ≤ tlast`, all before `t1 + W`: the first `L` return true and the last false;
`GetRemainingRequests` read before `t1 + W` is then 0; and a further call at exactly
`t1 + W` returns true. -/
theorem fill_window (key : String) (W t1 tlast : Int) (mid : List Int)
    (hsorted : ((t1 :: mid) ++ [tlast]).Pairwise (· ≤ ·)) (hlast : tlast < t1 + W) :
    (runEvents (NewRateLimiter ((mid.length : Int) + 1) W)
        (((t1 :: mid) ++ [tlast]).map (Event.isAllowed key))).map (·.allowed) =
      List.replicate (mid.length + 1) true ++ [false] ∧
    (∀ now, now < t1 + W →
      (execEvents (NewRateLimiter ((mid.length : Int) + 1) W)
        (((t1 :: mid) ++ [tlast]).map (Event.isAllowed key))).GetRemainingRequests now key = 0) ∧
    ((execEvents (NewRateLimiter ((mid.length : Int) + 1) W)
        (((t1 :: mid) ++ [tlast]).map (Event.isAllowed key))).IsAllowed (t1 + W) key).1 = true := by
  have hpw := List.pairwise_append.mp hsorted
  have hcons := List.pairwise_cons.mp hpw.1
  have hlast1 : t1 ≤ tlast := hpw.2.2 t1 (List.mem_cons_self _ _) tlast (List.mem_singleton.mpr rfl)
  have hin : ∀ t ∈ t1 :: mid, t1 ≤ t ∧ t < t1 + W := by
    intro t ht
    have h2 : t ≤ tlast := hpw.2.2 t ht tlast (List.mem_singleton.mpr rfl)
    rcases List.mem_cons.mp ht with h | h
    · subst h
      exact ⟨le_refl _, by omega⟩
    · exact ⟨hcons.1 t h, by omega⟩
  obtain ⟨hrun, hst, hl, hw⟩ := fill_aux key t1 W ((mid.length : Int) + 1) (t1 :: mid)
    (NewRateLimiter ((mid.length : Int) + 1) W) rfl rfl
    (by simp [RateLimiter.stored, NewRateLimiter]) hin
    (by simp [RateLimiter.stored, NewRateLimiter])
  have hst0 : (NewRateLimiter ((mid.length : Int) + 1) W).stored key = [] := by
    simp [RateLimiter.stored, NewRateLimiter]
  rw [hst0, List.nil_append] at hst
  generalize hfilled : execEvents (NewRateLimiter ((mid.length : Int) + 1) W)
    ((t1 :: mid).map (Event.isAllowed key)) = filled at hst hl hw
  have hge : ∀ a ∈ filled.stored key, t1 ≤ a := by
    intro a ha
    rw [hst] at ha
    exact (hin a ha).1
  have hkeep : ∀ now, now < t1 + W →
      validRequests (now - filled.window) (filled.stored key) = filled.stored key :=
    fun now hnow => validRequests_eq_self _ _ (fun a ha => by have := hge a ha; omega)
  have hden : ¬ (filled.IsAllowed tlast key).1 = true := by
    rw [IsAllowed_decision, hkeep tlast hlast, hst, hl]
    simp
  have hst2 : (filled.IsAllowed tlast key).2.stored key = t1 :: mid := by
    rw [stored_IsAllowed_same, if_neg hden, hkeep tlast hlast, hst]
  have hp := IsAllowed_params filled tlast key
  have hexec : execEvents (NewRateLimiter ((mid.length : Int) + 1) W)
      (((t1 :: mid) ++ [tlast]).map (Event.isAllowed key)) = (filled.IsAllowed tlast key).2 := by
    rw [List.map_append, execEvents_append, hfilled]
    rfl
  refine ⟨?_, ?_, ?_⟩
  · rw [List.map_append, runEvents_append, List.map_append, hrun, hfilled]
    simp only [List.length_cons, List.map_cons, List.map_nil, runEvents]
    simp only [Bool.not_eq_true] at hden
    rw [hden]
  · intro now hnow
    rw [hexec]
    have hspec := remaining_eq_max (filled.IsAllowed tlast key).2 now key
      (by rw [hp.1, hl]; omega)
    rw [hspec, hst2, hp.1, hp.2, hl, hw]
    have hall : (t1 :: mid).filter (fun t => decide (now - W < t)) = t1 :: mid := by
      rw [List.filter_eq_self]
      intro a ha
      have := (hin a ha).1
      simp only [decide_eq_true_eq]
      omega
    rw [hall]
    simp
  · rw [hexec, IsAllowed_decision, hst2, hp.1, hp.2, hl, hw]
    have hdrop : validRequests (t1 + W - W) (t1 :: mid) = validRequests (t1 + W - W) mid := by
      unfold validRequests
      rw [List.filter_cons]
      simp
    rw [hdrop]
    have hlen : (validRequests (t1 + W - W) mid).length ≤ mid.length := by
      unfold validRequests
      exact List.length_filter_le _ _
    omega

/-- Limit 3, window one second, four calls within 200 ms: three admitted, the fourth
denied, nothing remaining, and the call at one second admitted. -/
theorem fill_window_witness :
    (runEvents (NewRateLimiter 3 Second)
        [.isAllowed "a" 0, .isAllowed "a" 50000000, .isAllowed "a" 100000000,
          .isAllowed "a" 200000000]).map (·.allowed) = [true, true, true, false] ∧
    (∀ now, now < 0 + Second →
      (execEvents (NewRateLimiter 3 Second)
        [.isAllowed "a" 0, .isAllowed "a" 50000000, .isAllowed "a" 100000000,
          .isAllowed "a" 200000000]).GetRemainingRequests now "a" = 0) ∧
    ((execEvents (NewRateLimiter 3 Second)
        [.isAllowed "a" 0, .isAllowed "a" 50000000, .isAllowed "a" 100000000,
          .isAllowed "a" 200000000]).IsAllowed (0 + Second) "a").1 = true :=
  fill_window "a" Second 0 200000000 [50000000, 100000000] (by decide) (by decide)

theorem mem_stepEvent (rl : RateLimiter) (key : String) (a : Int) (e : Event)
    (ha : a ∈ rl.stored key) (he : e.time < a + rl.window) :
    a ∈ (stepEvent rl e).stored key := by
  cases e with
  | sweep now =>
    simp only [Event.time] at he
    simp only [stepEvent, stored_cleanup]
    exact validRequests_mem _ _ _ ha (by omega)
  | isAllowed k now =>
    simp only [Event.time] at he
    by_cases hk : k = key
    · subst hk
      have hv : a ∈ validRequests (now - rl.window) (rl.stored k) :=
        validRequests_mem _ _ _ ha (by omega)
      simp only [stepEvent]
      rw [stored_IsAllowed_same]
      split_ifs
      · exact List.mem_append_left _ hv
      · exact hv
    · rw [stored_stepEvent_other rl key k now hk]
      exact ha

theorem mem_execEvents (key : String) (a : Int) (evs : List Event) :
    ∀ (rl : RateLimiter), a ∈ rl.stored key → (∀ e ∈ evs, e.time < a + rl.window) →
      a ∈ (execEvents rl evs).stored key ∧ (execEvents rl evs).limit = rl.limit ∧
        (execEvents rl evs).window = rl.window := by
  induction evs with
  | nil =>
    intro rl ha _
    exact ⟨ha, rfl, rfl⟩
  | cons e es ih =>
    intro rl ha hev
    have hp := stepEvent_params rl e
    have h1 := mem_stepEvent rl key a e ha (hev e (List.mem_cons_self _ _))
    obtain ⟨h2, h3, h4⟩ := ih (stepEvent rl e) h1
      (fun e1 he1 => by rw [hp.2]; exact hev e1 (List.mem_cons_of_mem _ he1))
    exact ⟨h2, by rw [← hp.1]; exact h3, by rw [← hp.2]; exact h4⟩

/-- C18 (admission visibility), amended.  `IsAllowed(key)` returns true at `t` on a
limiter with limit at least 1.  Then after every run of calls and sweeps made before
`t + window`, `GetRemainingRequests(key)` read at an instant `t'` with `t < t' < t + window`
counts that admission: its result is at most `limit - 1`. -/
theorem admission_visible (rl : RateLimiter) (key : String) (t t1 : Int) (evs : List Event)
    (hl : 1 ≤ rl.limit) (hadm : (rl.IsAllowed t key).1 = true)
    (hev : ∀ e ∈ evs, e.time < t + rl.window)
    (_hlater : t < t1) (hwin : t1 < t + rl.window) :
    (execEvents (rl.IsAllowed t key).2 evs).GetRemainingRequests t1 key ≤ rl.limit - 1 := by
  have hp := IsAllowed_params rl t key
  have hmem0 : t ∈ (rl.IsAllowed t key).2.stored key := by
    rw [stored_IsAllowed_same, if_pos hadm]
    simp
  obtain ⟨hmem, hlim, hwd⟩ := mem_execEvents key t evs (rl.IsAllowed t key).2 hmem0
    (by rw [hp.2]; exact hev)
  rw [hp.1] at hlim
  rw [hp.2] at hwd
  have hspec := remaining_eq_max (execEvents (rl.IsAllowed t key).2 evs) t1 key
    (by rw [hlim]; omega)
  rw [hspec, hlim, hwd]
  have hpos : 0 < (((execEvents (rl.IsAllowed t key).2 evs).stored key).filter
      (fun a => decide (t1 - rl.window < a))).length := by
    apply List.length_pos_of_mem (a := t)
    rw [List.mem_filter]
    exact ⟨hmem, by simp only [decide_eq_true_eq]; omega⟩
  have h0 : (0 : Int) ≤ rl.limit - 1 := by omega
  rw [max_le_iff]
  exact ⟨h0, by omega⟩

/-- On a fresh limiter with limit 1 and window 10, the call at 0 is admitted; read at 7,
after a sweep at 3, nothing remains. -/
theorem admission_visible_witness :
    ((NewRateLimiter 1 10).IsAllowed 0 "a").1 = true ∧
    (execEvents ((NewRateLimiter 1 10).IsAllowed 0 "a").2 [.sweep 3]).GetRemainingRequests 7 "a"
      = 0 ∧
    (execEvents ((NewRateLimiter 1 10).IsAllowed 0 "a").2 [.sweep 3]).GetRemainingRequests 7 "a"
      ≤ (NewRateLimiter 1 10).limit - 1 :=
  ⟨by decide, by decide,
    admission_visible (NewRateLimiter 1 10) "a" 0 7 [.sweep 3] (by decide) (by decide)
      (by decide) (by decide) (by decide)⟩

/-- C18 as stated fails: on a fresh limiter with limit 1 and window 10 the call at 0 is
admitted, and `GetRemainingRequests` read at the later instant 10 returns 1, which is not
at most `limit - 1 = 0`: the admission has left the window. -/
theorem admission_visible_counterexample :
    ((NewRateLimiter 1 10).IsAllowed 0 "a").1 = true ∧ (0 : Int) < 10 ∧
    ((NewRateLimiter 1 10).IsAllowed 0 "a").2.GetRemainingRequests 10 "a" = 1 ∧
    ¬ ((NewRateLimiter 1 10).IsAllowed 0 "a").2.GetRemainingRequests 10 "a" ≤
      (NewRateLimiter 1 10).limit - 1 := by
  refine ⟨by decide, by decide, by decide, by decide⟩

/-! ## The rate-limit middlewares -/

theorem responseHeader_Header_same (c : Context) (key value : String) :
    (c.Header key value).responseHeader key = some value := by
  unfold Context.responseHeader Context.Header
  simp only [List.find?_append]
  have hnone : List.find? (fun kv => decide (kv.1 = key))
      (c.headers.filter (fun h => decide (h.1 ≠ key))) = none := by
    rw [List.find?_eq_none]
    intro x hx
    rw [List.mem_filter] at hx
    simpa using hx.2
  rw [hnone]
  simp

theorem responseHeader_Header_other (c : Context) (key k value : String) (h : k ≠ key) :
    (c.Header key value).responseHeader k = c.responseHeader k := by
  unfold Context.responseHeader Context.Header
  simp only [List.find?_append]
  have hfilter : List.find? (fun kv => decide (kv.1 = k))
      (c.headers.filter (fun h => decide (h.1 ≠ key))) =
      List.find? (fun kv => decide (kv.1 = k)) c.headers := by
    induction c.headers with
    | nil => rfl
    | cons x xs ih =>
      rw [List.filter_cons]
      by_cases hx : x.1 = key
      · have hp : ¬ (decide (x.1 ≠ key) = true) := by simp [hx]
        have hk : decide (x.1 = k) = false := by
          simp only [decide_eq_false_iff_not]
          exact fun e => h (e.symm.trans hx)
        rw [if_neg hp, ih, List.find?_cons, hk]
      · have hp : decide (x.1 ≠ key) = true := by simp [hx]
        rw [if_pos hp, List.find?_cons, List.find?_cons, ih]
  rw [hfilter]
  cases hfind : List.find? (fun kv => decide (kv.1 = k)) c.headers with
  | some y => simp
  | none =>
    have hk : ¬ key = k := fun e => h e.symm
    simp [List.find?_cons, hk]

/-- The three header calls of the middlewares leave the three headers set. -/
theorem three_headers (c : Context) (limit remaining reset : String) :
    (((c.Header "X-RateLimit-Limit" limit).Header "X-RateLimit-Remaining" remaining).Header
        "X-RateLimit-Reset" reset).responseHeader "X-RateLimit-Limit" = some limit ∧
    (((c.Header "X-RateLimit-Limit" limit).Header "X-RateLimit-Remaining" remaining).Header
        "X-RateLimit-Reset" reset).responseHeader "X-RateLimit-Remaining" = some remaining ∧
    (((c.Header "X-RateLimit-Limit" limit).Header "X-RateLimit-Remaining" remaining).Header
        "X-RateLimit-Reset" reset).responseHeader "X-RateLimit-Reset" = some reset := by
  refine ⟨?_, ?_, ?_⟩
  · rw [responseHeader_Header_other _ _ _ _ (by decide),
      responseHeader_Header_other _ _ _ _ (by decide), responseHeader_Header_same]
  · rw [responseHeader_Header_other _ _ _ _ (by decide), responseHeader_Header_same]
  · rw [responseHeader_Header_same]

/-- C19 at its failing input: a request without `user_id` through
`UserRateLimitMiddleware`.  Whatever the limiter and the clock readings, no response
header is written; on a fresh limiter the request is handed on without headers; on a
limiter whose slot for the address is taken it is answered 429 without headers and with a
body of the one field `error`, where `IPRateLimitMiddleware` on the same request writes
the three headers. -/
theorem UserRateLimitMiddleware_fallback_no_headers :
    (∀ (rl : RateLimiter) (nowAllowed nowRemaining nowReset nowUntil : Int) (ip : String),
      (UserRateLimitMiddleware rl nowAllowed nowRemaining nowReset nowUntil
        (newRequest "" ip (fun _ => none))).1.headers = []) ∧
    (UserRateLimitMiddleware (NewRateLimiter 1 Second) 0 0 0 0
        (newRequest "" "10.0.0.1" (fun _ => none))).1.dispatched = true ∧
    (UserRateLimitMiddleware (NewRateLimiter 1 Second) 0 0 0 0
        (newRequest "" "10.0.0.1" (fun _ => none))).1.responseHeader "X-RateLimit-Limit" = none ∧
    (UserRateLimitMiddleware busyLimiter 500000000 500000000 500000000 500000000
        (newRequest "" "10.0.0.1" (fun _ => none))).1.status = some 429 ∧
    (UserRateLimitMiddleware busyLimiter 500000000 500000000 500000000 500000000
        (newRequest "" "10.0.0.1" (fun _ => none))).1.responseHeader "X-RateLimit-Limit" = none ∧
    (UserRateLimitMiddleware busyLimiter 500000000 500000000 500000000 500000000
        (newRequest "" "10.0.0.1" (fun _ => none))).1.body =
      [("error", .str "Rate limit exceeded")] ∧
    (IPRateLimitMiddleware busyLimiter 500000000 500000000 500000000 500000000
        (newRequest "" "10.0.0.1" (fun _ => none))).1.headers =
      [("X-RateLimit-Limit", "1"), ("X-RateLimit-Remaining", "0"), ("X-RateLimit-Reset", "1")] := by
  refine ⟨?_, by decide, by decide, by decide, by decide, by decide, by decide⟩
  intro rl nowAllowed nowRemaining nowReset nowUntil ip
  unfold UserRateLimitMiddleware
  simp only [newRequest]
  split_ifs <;> rfl

theorem oldestOf_mem (o : Int) (l : List Int) : oldestOf o l = o ∨ oldestOf o l ∈ l := by
  induction l generalizing o with
  | nil => exact Or.inl rfl
  | cons b l ih =>
    have hstep : oldestOf o (b :: l) = oldestOf (if b < o then b else o) l := rfl
    rw [hstep]
    rcases ih (if b < o then b else o) with h | h
    · rw [h]
      split_ifs
      · exact Or.inr (List.mem_cons_self _ _)
      · exact Or.inl rfl
    · exact Or.inr (List.mem_cons_of_mem _ h)

theorem reset_after_denial (rl : RateLimiter) (key : String) (now : Int)
    (hden : (rl.IsAllowed now key).1 = false) :
    now ≤ (rl.IsAllowed now key).2.GetResetTime now key := by
  have hnot : ¬ (rl.IsAllowed now key).1 = true := by simp [hden]
  have hst := stored_IsAllowed_same rl now key
  rw [if_neg hnot] at hst
  have hp := IsAllowed_params rl now key
  unfold RateLimiter.GetResetTime
  unfold RateLimiter.stored at hst
  cases hreq : (rl.IsAllowed now key).2.requests key with
  | none => exact le_refl _
  | some l =>
    rw [hreq] at hst
    simp only [Option.getD_some] at hst
    cases l with
    | nil => exact le_refl _
    | cons first rest =>
      simp only
      have hmem : oldestOf first (first :: rest) ∈ first :: rest := by
        rcases oldestOf_mem first (first :: rest) with h | h
        · rw [h]
          exact List.mem_cons_self _ _
        · exact h
      generalize oldestOf first (first :: rest) = m at hmem ⊢
      rw [hst] at hmem
      unfold validRequests at hmem
      rw [List.mem_filter] at hmem
      have h2 := hmem.2
      simp only [decide_eq_true_eq] at h2
      rw [hp.2]
      omega

theorem bodyField_JSON (c : Context) (code : Nat) (e m : String) (v : Value) :
    ((c.JSON code [("error", .str e), ("message", .str m), ("retry_after", v)]).Abort).bodyField
      "retry_after" = some v ∧
    ((c.JSON code [("error", .str e), ("message", .str m), ("retry_after", v)]).Abort).status
      = some code := by
  constructor
  · simp [Context.bodyField, Context.JSON, Context.Abort, List.find?_cons]
  · rfl

/-! ## Login and Register -/

/-- C11 (login failures), amended.  `Login` returns the error `invalid credentials` when
the lookup of the contact address finds no row or fails, and when the row is active and
the secret does not verify; it returns the different error `account is deactivated` when
the row is inactive, whatever the secret.  In all three cases the result is the error
alone, with no user and no token. -/
theorem Login_failures (svc : AuthService) (jwt : JwtLib) (bc : BcryptLib) (db : UserDB)
    (nowExp nowIat nowNbf : Int) (email password : String) :
    ((∃ e, db.FirstByEmail email = .error e) →
      svc.Login jwt bc db nowExp nowIat nowNbf email password = .error "invalid credentials") ∧
    (∀ user, db.FirstByEmail email = .ok user → user.IsActive = false →
      svc.Login jwt bc db nowExp nowIat nowNbf email password =
        .error "account is deactivated") ∧
    (∀ user e, db.FirstByEmail email = .ok user → user.IsActive = true →
      svc.CheckPassword bc user.Password password = .error e →
      svc.Login jwt bc db nowExp nowIat nowNbf email password = .error "invalid credentials") := by
  refine ⟨?_, ?_, ?_⟩
  · rintro ⟨e, he⟩
    simp only [AuthService.Login, he]
  · intro user hu hact
    simp only [AuthService.Login, hu, hact, Bool.not_false, if_true]
  · intro user e hu hact hchk
    simp only [AuthService.Login, hu, hact, Bool.not_true, Bool.false_eq_true, if_false, hchk]

/-- C11 as stated fails: in `demoUsers` the deactivated `eve` gets the error
`account is deactivated`, with the right secret and with a wrong one, while the unknown
address and the wrong secret of the active `bob` get `invalid credentials`. -/
theorem Login_failures_counterexample :
    demoService.Login (tableLib []) demoBcrypt demoUsers 0 0 0 "eve@x" "Abcdef1!" =
      .error "account is deactivated" ∧
    demoService.Login (tableLib []) demoBcrypt demoUsers 0 0 0 "eve@x" "wrong" =
      .error "account is deactivated" ∧
    demoService.Login (tableLib []) demoBcrypt demoUsers 0 0 0 "nobody@x" "Abcdef1!" =
      .error "invalid credentials" ∧
    demoService.Login (tableLib []) demoBcrypt demoUsers 0 0 0 "bob@x" "wrong" =
      .error "invalid credentials" ∧
    demoService.Login (tableLib []) demoBcrypt demoUsers 0 0 0 "eve@x" "Abcdef1!" ≠
      demoService.Login (tableLib []) demoBcrypt demoUsers 0 0 0 "nobody@x" "Abcdef1!" := by
  refine ⟨by decide, by decide, by decide, by decide, by decide⟩

theorem minted_token_validates (svc : AuthService) (jwt : JwtLib) (user : User)
    (nowExp nowIat nowNbf t : Int)
    (hcodec : jwt.decode (jwt.encode (svc.signedToken jwt (mintClaims nowExp nowIat nowNbf user)))
      = some (svc.signedToken jwt (mintClaims nowExp nowIat nowNbf user)))
    (hfrom : nowNbf ≤ t) (hbefore : t < NewNumericDate (nowExp + 24 * Hour)) :
    svc.ValidateToken jwt t
        (jwt.encode (svc.signedToken jwt (mintClaims nowExp nowIat nowNbf user))) =
      .ok (mintClaims nowExp nowIat nowNbf user) := by
  rw [ValidateToken_ok_iff]
  refine ⟨_, hcodec, rfl, Or.inl rfl, rfl, ?_⟩
  rw [validateClaims_ok_iff]
  constructor
  · intro e he
    simp only [AuthService.signedToken, mintClaims, Option.some.injEq] at he
    rw [← he]
    exact hbefore
  · intro n hn
    simp only [AuthService.signedToken, mintClaims, Option.some.injEq] at hn
    rw [← hn]
    exact le_trans (NewNumericDate_le nowNbf) hfrom

theorem Create_ok (db : UserDB) (userData row : User) (db1 : UserDB)
    (h : db.Create userData = .ok (row, db1)) :
    row.Username = userData.Username ∧ row.Email = userData.Email ∧
    row.Password = userData.Password ∧ row.IsActive = userData.IsActive ∧
    row ∈ db1.users := by
  unfold UserDB.Create at h
  split at h
  · cases h
  · split_ifs at h with hdup hzero
    · simp only [Except.ok.injEq, Prod.mk.injEq] at h
      obtain ⟨h1, h2⟩ := h
      subst h1
      subst h2
      simp
    · simp only [Except.ok.injEq, Prod.mk.injEq] at h
      obtain ⟨h1, h2⟩ := h
      subst h1
      subst h2
      simp

/-- The hashes of `textBcrypt` have the text form of bcrypt. -/
theorem textBcrypt_shape (cost : Nat) (salt digest : List UInt8) :
    ∃ rest : List Char,
      (textBcrypt.format cost salt digest).data = '$' :: '2' :: 'a' :: '$' :: rest ∧
      rest.length = 56 := by
  refine ⟨_, rfl, ?_⟩
  rw [List.length_take, List.length_append, List.length_replicate]
  omega

/-- C12 (`Register`).  When `Register` succeeds, the principal it returns is active
whatever flag the caller supplied, its `Password` field is the hash `HashPassword`
returned for the supplied secret (which `CheckPassword` accepts for that secret when the
text of the hash reads back), its username and email are the supplied ones, it is a row of
the table, and the token returned is the one minted for it: whenever the serialisation
decodes that token back, `ValidateToken` accepts it from the last clock reading of the
minting until its expiry, with claims carrying the id, username and email of the
principal.  The `Password` field is not the secret: a hash of the library has the text
form of bcrypt, `$2a$` and 56 more characters, so the field differs from every secret that
is not itself 60 characters long and begun by `$2a$`.  When hashing fails or the insert
fails, `Register` returns an error, with no principal and no token, and leaves the table as
it was. -/
theorem Register_spec (svc : AuthService) (jwt : JwtLib) (bc : BcryptLib) (db : UserDB)
    (salt : List UInt8) (nowExp nowIat nowNbf : Int) (userData : User) :
    (∀ user token db1,
      svc.Register jwt bc db salt nowExp nowIat nowNbf userData = (.ok (user, token), db1) →
      user.IsActive = true ∧
      svc.HashPassword bc salt userData.Password = .ok user.Password ∧
      (bc.parse user.Password = some (DefaultCost, salt,
          bc.core DefaultCost salt (keyStream (bytesOf userData.Password))) →
        svc.CheckPassword bc user.Password userData.Password = .ok ()) ∧
      user.Username = userData.Username ∧ user.Email = userData.Email ∧
      user ∈ db1.users ∧
      token = jwt.encode (svc.signedToken jwt (mintClaims nowExp nowIat nowNbf user)) ∧
      (jwt.decode token = some (svc.signedToken jwt (mintClaims nowExp nowIat nowNbf user)) →
        ∀ t, nowNbf ≤ t → t < NewNumericDate (nowExp + 24 * Hour) →
          ∃ claims, svc.ValidateToken jwt t token = .ok claims ∧ claims.UserID = user.ID ∧
            claims.Username = user.Username ∧ claims.Email = user.Email) ∧
      ((∀ cost salt1 digest, ∃ rest : List Char,
          (bc.format cost salt1 digest).data = '$' :: '2' :: 'a' :: '$' :: rest ∧
          rest.length = 56) →
        (userData.Password.data.length ≠ 60 ∨
          userData.Password.data.take 4 ≠ ['$', '2', 'a', '$']) →
        user.Password ≠ userData.Password)) ∧
    ((∃ e, svc.HashPassword bc salt userData.Password = .error e) →
      ∃ e, svc.Register jwt bc db salt nowExp nowIat nowNbf userData = (.error e, db)) ∧
    (∀ hashedPassword, svc.HashPassword bc salt userData.Password = .ok hashedPassword →
      (∃ e, db.Create { userData with Password := hashedPassword, IsActive := true } = .error e) →
      ∃ e, svc.Register jwt bc db salt nowExp nowIat nowNbf userData = (.error e, db)) := by
  refine ⟨?_, ?_, ?_⟩
  · intro user token db1 h
    unfold AuthService.Register at h
    cases hh : svc.HashPassword bc salt userData.Password with
    | error e => simp [hh] at h
    | ok hashedPassword =>
      simp only [hh] at h
      cases hc : db.Create { userData with Password := hashedPassword, IsActive := true } with
      | error e => simp [hc] at h
      | ok res =>
        obtain ⟨created, db2⟩ := res
        simp only [hc, AuthService.GenerateToken, Prod.mk.injEq, Except.ok.injEq] at h
        obtain ⟨⟨hu, ht⟩, hdb⟩ := h
        subst hu
        subst hdb
        obtain ⟨h1, h2, h3, h4, h5⟩ := Create_ok db _ created db2 hc
        simp only at h1 h2 h3 h4
        have hhash : hashedPassword = bc.format DefaultCost salt
            (bc.core DefaultCost salt (keyStream (bytesOf userData.Password))) := by
          unfold AuthService.HashPassword GenerateFromPassword at hh
          split_ifs at hh
          simp only [Except.ok.injEq] at hh
          exact hh.symm
        refine ⟨h4, by rw [h3], ?_, h1, h2, h5, ht.symm, ?_, ?_⟩
        · intro hparse
          simp only [AuthService.CheckPassword, CompareHashAndPassword, hparse, if_true]
        · intro hdec t hfrom hbefore
          rw [← ht] at hdec ⊢
          exact ⟨_, minted_token_validates svc jwt created nowExp nowIat nowNbf t hdec hfrom
            hbefore, rfl, rfl, rfl⟩
        · intro hshape hsecret heq
          obtain ⟨rest, hdata, hlen⟩ := hshape DefaultCost salt
            (bc.core DefaultCost salt (keyStream (bytesOf userData.Password)))
          rw [← hhash, ← h3, heq] at hdata
          rcases hsecret with hs | hs
          · apply hs
            rw [hdata]
            simp [hlen]
          · apply hs
            rw [hdata]
            rfl
  · rintro ⟨e, he⟩
    refine ⟨"failed to hash password: " ++ e, ?_⟩
    simp only [AuthService.Register, he]
  · rintro hashedPassword hh ⟨e, he⟩
    refine ⟨"failed to create user: " ++ e, ?_⟩
    simp only [AuthService.Register, hh, he]

/-- Registering `ada` with the secret `Abcdef1!` in `demoUsers`: the principal returned
has id 7, is active, carries the hash and not the secret, and the token `tok` validates to
claims with its id, username and email; with a library whose hashes have the text form of
bcrypt the field differs from the secret because the secret has 8 characters, not 60. -/
theorem Register_spec_witness :
    (demoService.Register bearerLib demoBcrypt demoUsers demoSalt 0 0 0 newAda).1 =
      .ok (registeredAda, "tok") ∧
    registeredAda.Password ≠ newAda.Password ∧
    registeredAda.IsActive = true ∧
    demoService.CheckPassword demoBcrypt registeredAda.Password "Abcdef1!" = .ok () ∧
    (∃ claims, demoService.ValidateToken bearerLib 1 "tok" = .ok claims ∧
      claims.UserID = registeredAda.ID ∧ claims.Username = registeredAda.Username ∧
      claims.Email = registeredAda.Email) ∧
    (demoService.Register bearerLib textBcrypt demoUsers demoSalt 0 0 0 newAda).1 =
      .ok (shapedAda, "tok") ∧
    newAda.Password.data.length ≠ 60 ∧
    shapedAda.Password ≠ newAda.Password :=
  have h : demoService.Register bearerLib demoBcrypt demoUsers demoSalt 0 0 0 newAda =
      (.ok (registeredAda, "tok"),
        (demoService.Register bearerLib demoBcrypt demoUsers demoSalt 0 0 0 newAda).2) :=
    Prod.ext (by decide) rfl
  have hspec := (Register_spec demoService bearerLib demoBcrypt demoUsers demoSalt 0 0 0
    newAda).1 registeredAda "tok" _ h
  have h2 : demoService.Register bearerLib textBcrypt demoUsers demoSalt 0 0 0 newAda =
      (.ok (shapedAda, "tok"),
        (demoService.Register bearerLib textBcrypt demoUsers demoSalt 0 0 0 newAda).2) :=
    Prod.ext (by decide) rfl
  have hspec2 := (Register_spec demoService bearerLib textBcrypt demoUsers demoSalt 0 0 0
    newAda).1 shapedAda "tok" _ h2
  ⟨by decide, by decide, hspec.1, hspec.2.2.1 (by decide),
    hspec.2.2.2.2.2.2.2.1 (by decide) 1 (by decide) (by decide),
    by decide, by decide,
    hspec2.2.2.2.2.2.2.2.2 textBcrypt_shape (Or.inl (by decide))⟩

/-! ## The rate-limit identity key -/

/-- C21 (rate-limit identity key).  `getClientID` returns `user:` followed by the value
stored under `user_id` when there is one (its decimal digits when it is the `uint` that
`AuthMiddleware` stores), and the client address otherwise; `UserRateLimitMiddleware`
meters exactly that key: the limiter it leaves is the one `IsAllowed` leaves for that key,
and on a fresh request it hands the request on iff `IsAllowed` of that key returned true,
and replies 429 and aborts iff it returned false. -/
theorem rate_limit_key (rl : RateLimiter) (nowAllowed nowRemaining nowReset nowUntil : Int)
    (authorization clientIP : String) (keys : String → Option Value) :
    (∀ userID, keys "user_id" = some userID →
      getClientID (newRequest authorization clientIP keys) = "user:" ++ formatValue userID) ∧
    (∀ n : Nat, keys "user_id" = some (.uint n) →
      getClientID (newRequest authorization clientIP keys) = "user:" ++ toString n) ∧
    (keys "user_id" = none → getClientID (newRequest authorization clientIP keys) = clientIP) ∧
    (UserRateLimitMiddleware rl nowAllowed nowRemaining nowReset nowUntil
        (newRequest authorization clientIP keys)).2 =
      (rl.IsAllowed nowAllowed (getClientID (newRequest authorization clientIP keys))).2 ∧
    ((UserRateLimitMiddleware rl nowAllowed nowRemaining nowReset nowUntil
        (newRequest authorization clientIP keys)).1.dispatched =
      (rl.IsAllowed nowAllowed (getClientID (newRequest authorization clientIP keys))).1) ∧
    ((UserRateLimitMiddleware rl nowAllowed nowRemaining nowReset nowUntil
        (newRequest authorization clientIP keys)).1.aborted =
      !(rl.IsAllowed nowAllowed (getClientID (newRequest authorization clientIP keys))).1) ∧
    ((rl.IsAllowed nowAllowed (getClientID (newRequest authorization clientIP keys))).1 = false →
      (UserRateLimitMiddleware rl nowAllowed nowRemaining nowReset nowUntil
        (newRequest authorization clientIP keys)).1.status = some 429) := by
  refine ⟨?_, ?_, ?_, ?_⟩
  · intro userID h
    simp [getClientID, newRequest, h]
  · intro n h
    simp [getClientID, newRequest, h, formatValue]
  · intro h
    simp [getClientID, newRequest, h]
  · unfold UserRateLimitMiddleware getClientID
    simp only [newRequest]
    cases hk : keys "user_id" with
    | none =>
      simp only
      cases hd : (rl.IsAllowed nowAllowed clientIP).1 <;>
        simp [hd, Context.Next, Context.JSON, Context.Abort, StatusTooManyRequests]
    | some userID =>
      simp only
      cases hd : (rl.IsAllowed nowAllowed ("user:" ++ formatValue userID)).1 <;>
        simp [hd, Context.Next, Context.JSON, Context.Abort, Context.Header,
          StatusTooManyRequests]

/-- The request of principal 7 is metered under `user:7`, the anonymous one under its
address. -/
theorem rate_limit_key_examples :
    getClientID (newRequest "" "10.0.0.1"
      (fun k => if k = "user_id" then some (.uint 7) else none)) = "user:7" ∧
    getClientID (newRequest "" "10.0.0.1" (fun _ => none)) = "10.0.0.1" ∧
    ((UserRateLimitMiddleware (NewRateLimiter 1 Second) 0 0 0 0 (newRequest "" "10.0.0.1"
      (fun k => if k = "user_id" then some (.uint 7) else none))).2.requests "user:7"
        = some [0]) ∧
    ((UserRateLimitMiddleware (NewRateLimiter 1 Second) 0 0 0 0 (newRequest "" "10.0.0.1"
      (fun _ => none))).2.requests "10.0.0.1" = some [0]) := by
  refine ⟨by decide, by decide, by decide, by decide⟩

/-- The request of principal 7 at a fresh limiter is metered under the key `user:7`. -/
theorem rate_limit_key_witness :
    (if "user_id" = "user_id" then some (Value.uint 7) else none) = some (Value.uint 7) ∧
    getClientID (newRequest "" "10.0.0.1"
      (fun k => if k = "user_id" then some (.uint 7) else none)) = "user:" ++ toString 7 :=
  ⟨by decide,
    (rate_limit_key (NewRateLimiter 1 Second) 0 0 0 0 "" "10.0.0.1"
      (fun k => if k = "user_id" then some (.uint 7) else none)).2.1 7 (by decide)⟩

/-! ## The dates of a minted token -/

/-- C26 (dates of a minted token), amended.  `GenerateToken` reads the clock three times,
for `expires_at`, for `issued_at` and for `not_before`, in that order, and truncates each
date to a whole second: `issued_at` and `not_before` are their readings truncated and
`expires_at` is its reading plus 24 hours, truncated.  When the three readings are one
instant `now`, `not_before = issued_at` and `expires_at - issued_at` is exactly 24 hours,
and the three dates are `now`, `now` and `now + 24h` when `now` is a whole second.  The
claims carry the id, username and email of the user, and the token is signed with `HS256`
under the key of the service. -/
theorem GenerateToken_dates (svc : AuthService) (lib : JwtLib) (nowExp nowIat nowNbf now : Int)
    (user : User) :
    svc.GenerateToken lib nowExp nowIat nowNbf user =
      .ok (lib.encode (svc.signedToken lib (mintClaims nowExp nowIat nowNbf user))) ∧
    (svc.signedToken lib (mintClaims nowExp nowIat nowNbf user)).alg = "HS256" ∧
    (svc.signedToken lib (mintClaims nowExp nowIat nowNbf user)).signature =
      lib.mac "HS256" svc.secretKey (mintClaims nowExp nowIat nowNbf user) ∧
    (mintClaims nowExp nowIat nowNbf user).UserID = user.ID ∧
    (mintClaims nowExp nowIat nowNbf user).Username = user.Username ∧
    (mintClaims nowExp nowIat nowNbf user).Email = user.Email ∧
    (mintClaims nowExp nowIat nowNbf user).Registered.ExpiresAt =
      some ((nowExp + 24 * Hour) / Second * Second) ∧
    (mintClaims nowExp nowIat nowNbf user).Registered.IssuedAt =
      some (nowIat / Second * Second) ∧
    (mintClaims nowExp nowIat nowNbf user).Registered.NotBefore =
      some (nowNbf / Second * Second) ∧
    (mintClaims now now now user).Registered.NotBefore =
      (mintClaims now now now user).Registered.IssuedAt ∧
    (now + 24 * Hour) / Second * Second - now / Second * Second = 24 * Hour ∧
    (now % Second = 0 →
      (mintClaims now now now user).Registered.IssuedAt = some now ∧
      (mintClaims now now now user).Registered.NotBefore = some now ∧
      (mintClaims now now now user).Registered.ExpiresAt = some (now + 24 * Hour)) := by
  refine ⟨rfl, rfl, rfl, rfl, rfl, rfl, rfl, rfl, rfl, rfl, ?_, ?_⟩
  · unfold Hour Minute Second
    omega
  · intro h
    simp only [mintClaims, NewNumericDate, Option.some.injEq]
    unfold Hour Minute Second at *
    refine ⟨?_, ?_, ?_⟩ <;> omega

/-- Minted with the three readings at second 1: the dates are the reading, the reading and
the reading plus 24 hours. -/
theorem GenerateToken_dates_witness :
    (1000000000 : Int) % Second = 0 ∧
    (mintClaims 1000000000 1000000000 1000000000 ada).Registered.IssuedAt =
      some 1000000000 ∧
    (mintClaims 1000000000 1000000000 1000000000 ada).Registered.NotBefore =
      some 1000000000 ∧
    (mintClaims 1000000000 1000000000 1000000000 ada).Registered.ExpiresAt =
      some (1000000000 + 24 * Hour) :=
  ⟨by decide,
    (GenerateToken_dates demoService (tableLib []) 0 0 0 1000000000 ada).2.2.2.2.2.2.2.2.2.2.2
      (by decide)⟩

/-- C26 as stated fails.  Read at 1.5 s, `issued_at` is 1 s and not the reading; and with
the readings 0.999999999 s, 1 s and 1 s of one run, `expires_at` is 86400 s and
`issued_at` is 1 s, which are 24 hours less one second apart. -/
theorem GenerateToken_dates_counterexample :
    (mintClaims 1500000000 1500000000 1500000000 ada).Registered.IssuedAt = some 1000000000 ∧
    (1000000000 : Int) ≠ 1500000000 ∧
    (mintClaims 1500000000 1500000000 1500000000 ada).Registered.ExpiresAt =
      some 86401000000000 ∧
    (86401000000000 : Int) ≠ 1500000000 + 24 * Hour ∧
    (mintClaims 999999999 1000000000 1000000000 ada).Registered.ExpiresAt =
      some 86400000000000 ∧
    (mintClaims 999999999 1000000000 1000000000 ada).Registered.IssuedAt = some 1000000000 ∧
    (86400000000000 : Int) - 1000000000 ≠ 24 * Hour := by
  refine ⟨by decide, by decide, by decide, by decide, by decide, by decide, by decide⟩

/-! ## The VM search -/

/-- The three ways a call of `Search` ends. -/
theorem Search_cases (db : VmDB) (vm : DataSearch) :
    (∀ e, db.fails vm.Id = some e → Search db vm = .returned (.error e)) ∧
    (db.fails vm.Id = none → ∀ first rest,
      db.rows.filter (fun r => decide (r.ID = vm.Id)) = first :: rest →
      Search db vm = .returned (.ok first)) ∧
    (db.fails vm.Id = none → db.rows.filter (fun r => decide (r.ID = vm.Id)) = [] →
      Search db vm = .panicked "runtime error: index out of range [0] with length 0") := by
  refine ⟨?_, ?_, ?_⟩
  · intro e h
    simp [Search, VmDB.selectById, h]
  · intro h first rest hf
    simp [Search, VmDB.selectById, h, hf]
  · intro h hf
    simp [Search, VmDB.selectById, h, hf]

/-- C27 (search of a VM by id), where the code departs from it.  On a store that answers
the select and holds no row of the id asked for, `Search` returns neither a record nor an
error: it indexes the empty result list and panics.  So it is for every id on the empty
table, and for id 2 on a table that holds the row of id 1 only; for id 1 the same table
gives the record, and a failing select gives its error. -/
theorem Search_empty_panics (id : Int) :
    Search { rows := [], fails := fun _ => none } { Id := id } =
      .panicked "runtime error: index out of range [0] with length 0" ∧
    Search demoVms { Id := 2 } =
      .panicked "runtime error: index out of range [0] with length 0" ∧
    (∀ result, Search demoVms { Id := 2 } ≠ .returned result) ∧
    Search demoVms { Id := 1 } = .returned (.ok vmOne) ∧
    Search { rows := [vmOne], fails := fun _ => some "connection refused" } { Id := 1 } =
      .returned (.error "connection refused") := by
  refine ⟨rfl, by decide, ?_, by decide, by decide⟩
  intro result h
  have h2 : Search demoVms { Id := 2 } =
      .panicked "runtime error: index out of range [0] with length 0" := by decide
  rw [h2] at h
  cases h

/-! ## Validation -/

/-- What the loop of `Validator.Password` leaves in the four flags. -/
theorem scan_flags (category : Char → Category) (l : List Char) (f : PasswordFlags) :
    (l.foldl (scanRune category) f).hasUpper = (f.hasUpper || l.any (fun c => decide (category c = .Lu))) ∧
    (l.foldl (scanRune category) f).hasLower = (f.hasLower || l.any (fun c => decide (category c = .Ll))) ∧
    (l.foldl (scanRune category) f).hasDigit = (f.hasDigit || l.any (fun c => decide (category c = .Nd))) ∧
    (l.foldl (scanRune category) f).hasSpecial =
      (f.hasSpecial || l.any (fun c => decide (category c = .P) || decide (category c = .S))) := by
  induction l generalizing f with
  | nil => simp
  | cons c l ih =>
    simp only [List.foldl_cons, List.any_cons]
    obtain ⟨h1, h2, h3, h4⟩ := ih (scanRune category f c)
    rw [h1, h2, h3, h4]
    unfold scanRune IsUpper IsLower IsDigit IsPunct IsSymbol
    cases hc : category c <;> simp [Bool.or_assoc]

/-- The errors `Validator.Password` leaves: the earlier ones, then one per requirement the
value violates, in the order of the source. -/
theorem Password_errors (category : Char → Category) (v : Validator) (field value : String) :
    (v.Password category field value).errors = v.errors ++
      ((if value ≠ "" ∧ value.utf8ByteSize < 8 then
          [{ Field := field, Message := "Password must be at least 8 characters",
             Code := "PASSWORD_TOO_SHORT" }] else []) ++
       (if value ≠ "" ∧ ¬ ∃ c ∈ value.data, category c = .Lu then
          [{ Field := field, Message := "Password must contain at least one uppercase letter",
             Code := "PASSWORD_NO_UPPER" }] else []) ++
       (if value ≠ "" ∧ ¬ ∃ c ∈ value.data, category c = .Ll then
          [{ Field := field, Message := "Password must contain at least one lowercase letter",
             Code := "PASSWORD_NO_LOWER" }] else []) ++
       (if value ≠ "" ∧ ¬ ∃ c ∈ value.data, category c = .Nd then
          [{ Field := field, Message := "Password must contain at least one digit",
             Code := "PASSWORD_NO_DIGIT" }] else []) ++
       (if value ≠ "" ∧ ¬ ∃ c ∈ value.data, category c = .P ∨ category c = .S then
          [{ Field := field, Message := "Password must contain at least one special character",
             Code := "PASSWORD_NO_SPECIAL" }] else [])) := by
  have e1 : (∃ c ∈ value.data, category c = .Lu) ↔
      value.data.any (fun c => decide (category c = .Lu)) = true := by
    simp [List.any_eq_true]
  have e2 : (∃ c ∈ value.data, category c = .Ll) ↔
      value.data.any (fun c => decide (category c = .Ll)) = true := by
    simp [List.any_eq_true]
  have e3 : (∃ c ∈ value.data, category c = .Nd) ↔
      value.data.any (fun c => decide (category c = .Nd)) = true := by
    simp [List.any_eq_true]
  have e4 : (∃ c ∈ value.data, category c = .P ∨ category c = .S) ↔
      value.data.any (fun c => decide (category c = .P) || decide (category c = .S)) = true := by
    simp [List.any_eq_true]
  unfold Validator.Password
  by_cases hv : value = ""
  · simp [hv]
  · obtain ⟨h1, h2, h3, h4⟩ := scan_flags category value.data
      { hasUpper := false, hasLower := false, hasDigit := false, hasSpecial := false }
    simp only [ne_eq, hv, not_false_eq_true, if_true, true_and, h1, h2, h3, h4, Bool.false_or,
      Validator.AddError, e1, e2, e3, e4]
    generalize value.data.any (fun c => decide (category c = .Lu)) = b1
    generalize value.data.any (fun c => decide (category c = .Ll)) = b2
    generalize value.data.any (fun c => decide (category c = .Nd)) = b3
    generalize value.data.any (fun c => decide (category c = .P) || decide (category c = .S)) = b4
    by_cases c0 : value.utf8ByteSize < 8 <;> cases b1 <;> cases b2 <;> cases b3 <;> cases b4 <;>
      simp [c0]

/-- C28 (`Validator.Password`).  The call adds no error iff the value is empty, or it is at
least 8 bytes long and holds an uppercase letter, a lowercase letter, a digit and a
punctuation or symbol character.  In every case the errors after the call are the errors
before it followed by one error per violated requirement, in the order
`PASSWORD_TOO_SHORT`, `PASSWORD_NO_UPPER`, `PASSWORD_NO_LOWER`, `PASSWORD_NO_DIGIT`,
`PASSWORD_NO_SPECIAL`, each with the field and the message of the source. -/
theorem Password_spec (category : Char → Category) (v : Validator) (field value : String) :
    ((v.Password category field value).errors = v.errors ↔
      value = "" ∨
        (8 ≤ value.utf8ByteSize ∧ (∃ c ∈ value.data, category c = .Lu) ∧
          (∃ c ∈ value.data, category c = .Ll) ∧ (∃ c ∈ value.data, category c = .Nd) ∧
          (∃ c ∈ value.data, category c = .P ∨ category c = .S))) ∧
    (v.Password category field value).errors = v.errors ++
      ((if value ≠ "" ∧ value.utf8ByteSize < 8 then
          [{ Field := field, Message := "Password must be at least 8 characters",
             Code := "PASSWORD_TOO_SHORT" }] else []) ++
       (if value ≠ "" ∧ ¬ ∃ c ∈ value.data, category c = .Lu then
          [{ Field := field, Message := "Password must contain at least one uppercase letter",
             Code := "PASSWORD_NO_UPPER" }] else []) ++
       (if value ≠ "" ∧ ¬ ∃ c ∈ value.data, category c = .Ll then
          [{ Field := field, Message := "Password must contain at least one lowercase letter",
             Code := "PASSWORD_NO_LOWER" }] else []) ++
       (if value ≠ "" ∧ ¬ ∃ c ∈ value.data, category c = .Nd then
          [{ Field := field, Message := "Password must contain at least one digit",
             Code := "PASSWORD_NO_DIGIT" }] else []) ++
       (if value ≠ "" ∧ ¬ ∃ c ∈ value.data, category c = .P ∨ category c = .S then
          [{ Field := field, Message := "Password must contain at least one special character",
             Code := "PASSWORD_NO_SPECIAL" }] else [])) := by
  refine ⟨?_, Password_errors category v field value⟩
  rw [Password_errors, List.append_right_eq_self]
  by_cases hv : value = ""
  · simp [hv]
  · by_cases c0 : value.utf8ByteSize < 8
    · have : ¬ 8 ≤ value.utf8ByteSize := by omega
      simp [hv, c0, this]
    · have h8 : 8 ≤ value.utf8ByteSize := by omega
      by_cases c1 : ∃ c ∈ value.data, category c = .Lu <;>
      by_cases c2 : ∃ c ∈ value.data, category c = .Ll <;>
      by_cases c3 : ∃ c ∈ value.data, category c = .Nd <;>
      by_cases c4 : ∃ c ∈ value.data, category c = .P ∨ category c = .S <;>
      simp only [ne_eq, hv, not_false_eq_true, c0, and_false, and_true, if_false, if_true,
        c1, c2, c3, c4, not_true_eq_false, List.nil_append, List.append_nil, false_or,
        h8, true_and, and_self, List.cons_append, reduceCtorEq, iff_false, iff_true, false_and,
        List.cons_ne_nil, not_false_eq_true]

/-- With the categories of ASCII: `Abcdef1!` and the empty value pass, `abc` gets four
errors, and `ABCDEFGH1` gets two, after the error that was there before. -/
theorem Password_examples :
    (NewValidator.Password asciiCategory "password" "Abcdef1!").errors = [] ∧
    (NewValidator.Password asciiCategory "password" "").errors = [] ∧
    (NewValidator.Password asciiCategory "password" "abc").errors =
      [{ Field := "password", Message := "Password must be at least 8 characters",
         Code := "PASSWORD_TOO_SHORT" },
       { Field := "password", Message := "Password must contain at least one uppercase letter",
         Code := "PASSWORD_NO_UPPER" },
       { Field := "password", Message := "Password must contain at least one digit",
         Code := "PASSWORD_NO_DIGIT" },
       { Field := "password", Message := "Password must contain at least one special character",
         Code := "PASSWORD_NO_SPECIAL" }] ∧
    (Validator.Password asciiCategory
        { errors := [{ Field := "email", Message := "Invalid email format",
                       Code := "INVALID_EMAIL" }] } "password" "ABCDEFGH1").errors =
      [{ Field := "email", Message := "Invalid email format", Code := "INVALID_EMAIL" },
       { Field := "password", Message := "Password must contain at least one lowercase letter",
         Code := "PASSWORD_NO_LOWER" },
       { Field := "password", Message := "Password must contain at least one special character",
         Code := "PASSWORD_NO_SPECIAL" }] := by
  refine ⟨by decide, by decide, by decide, by decide⟩

/-- What `TrimSpace` removes and what it leaves: white space on both sides, and a text that
neither starts nor ends with white space. -/
theorem TrimSpace_spec (s : List Char) :
    ∃ leading trailing, s = leading ++ TrimSpace s ++ trailing ∧
      (∀ c ∈ leading, IsSpace c = true) ∧ (∀ c ∈ trailing, IsSpace c = true) ∧
      (∀ c, (TrimSpace s).head? = some c → IsSpace c = false) ∧
      (∀ c, (TrimSpace s).getLast? = some c → IsSpace c = false) := by
  refine ⟨s.takeWhile IsSpace, (s.dropWhile IsSpace).rtakeWhile IsSpace, ?_, ?_, ?_, ?_, ?_⟩
  · unfold TrimSpace
    have h : ∀ l : List Char, l.rdropWhile IsSpace ++ l.rtakeWhile IsSpace = l := by
      intro l
      unfold List.rdropWhile List.rtakeWhile
      rw [← List.reverse_append, List.takeWhile_append_dropWhile, List.reverse_reverse]
    rw [List.append_assoc, h, List.takeWhile_append_dropWhile]
  · intro c hc
    exact List.mem_takeWhile_imp hc
  · intro c hc
    unfold List.rtakeWhile at hc
    rw [List.mem_reverse] at hc
    exact List.mem_takeWhile_imp hc
  · intro c hc
    unfold TrimSpace at hc
    obtain ⟨t, ht⟩ := List.rdropWhile_prefix IsSpace (s.dropWhile IsSpace)
    cases hr : (s.dropWhile IsSpace).rdropWhile IsSpace with
    | nil => rw [hr] at hc; simp at hc
    | cons a l =>
      rw [hr] at hc ht
      simp only [List.head?_cons, Option.some.injEq] at hc
      have h := List.head?_dropWhile_not IsSpace s
      rw [← ht] at h
      simp only [List.cons_append, List.head?_cons] at h
      rw [← hc]; exact h
  · intro c hc
    unfold TrimSpace at hc
    have hne : (s.dropWhile IsSpace).rdropWhile IsSpace ≠ [] := by
      intro h; rw [h] at hc; simp at hc
    have h := List.rdropWhile_last_not IsSpace (s.dropWhile IsSpace) hne
    rw [List.getLast?_eq_getLast _ hne] at hc
    simp only [Option.some.injEq] at hc
    rw [hc] at h
    simpa using h

/-- The four replacements of `SanitizeString`, one after the other, replace each character
of the text on its own: no replacement text holds a character a later call looks for. -/
theorem escape_four (s : List Char) :
    ReplaceAll (ReplaceAll (ReplaceAll (ReplaceAll s '<' "&lt;".data) '>' "&gt;".data)
        (Char.ofNat 34) "&quot;".data) (Char.ofNat 39) "&#x27;".data =
      s.flatMap (fun c =>
        if c = '<' then "&lt;".data else if c = '>' then "&gt;".data
        else if c = Char.ofNat 34 then "&quot;".data
        else if c = Char.ofNat 39 then "&#x27;".data else [c]) := by
  unfold ReplaceAll
  simp only [List.flatMap_assoc]
  congr 1
  funext c
  by_cases h1 : c = '<'
  · subst h1; decide
  · by_cases h2 : c = '>'
    · subst h2; decide
    · by_cases h3 : c = Char.ofNat 34
      · subst h3; decide
      · by_cases h4 : c = Char.ofNat 39
        · subst h4; decide
        · simp [h1, h2, h3, h4]

/-- What one character becomes: a text without any of the four characters, which starts
and ends without white space when the character is not white space. -/
theorem escape_rune (a : Char) :
    (∀ c ∈ (if a = '<' then "&lt;".data else if a = '>' then "&gt;".data
        else if a = Char.ofNat 34 then "&quot;".data
        else if a = Char.ofNat 39 then "&#x27;".data else [a]),
      c ≠ '<' ∧ c ≠ '>' ∧ c ≠ Char.ofNat 34 ∧ c ≠ Char.ofNat 39) ∧
    (IsSpace a = false →
      ∃ x l y, (if a = '<' then "&lt;".data else if a = '>' then "&gt;".data
        else if a = Char.ofNat 34 then "&quot;".data
        else if a = Char.ofNat 39 then "&#x27;".data else [a]) = x :: l ∧
        (x :: l).getLast? = some y ∧ IsSpace x = false ∧ IsSpace y = false) := by
  by_cases h1 : a = '<'
  · subst h1; exact ⟨by decide, fun _ => ⟨'&', _, ';', rfl, by decide, by decide, by decide⟩⟩
  · by_cases h2 : a = '>'
    · subst h2; exact ⟨by decide, fun _ => ⟨'&', _, ';', rfl, by decide, by decide, by decide⟩⟩
    · by_cases h3 : a = Char.ofNat 34
      · subst h3
        exact ⟨by decide, fun _ => ⟨'&', _, ';', rfl, by decide, by decide, by decide⟩⟩
      · by_cases h4 : a = Char.ofNat 39
        · subst h4
          exact ⟨by decide, fun _ => ⟨'&', _, ';', rfl, by decide, by decide, by decide⟩⟩
        · simp only [h1, h2, h3, h4, if_false, List.mem_singleton]
          refine ⟨?_, fun h => ⟨a, [], a, rfl, rfl, h, h⟩⟩
          intro c hc
          subst hc
          exact ⟨h1, h2, h3, h4⟩

/-- C29 (`SanitizeString`).  The output is the trimmed input with every `<`, `>`, double
quote and single quote replaced by `&lt;`, `&gt;`, `&quot;` and `&#x27;` and every other
character kept, in order; it holds none of the four characters; it neither starts nor ends
with white space; and the trimmed input is the input without a leading and a trailing run
of white space, itself neither starting nor ending with white space. -/
theorem SanitizeString_spec (v : Validator) (value : String) :
    (v.SanitizeString value).data = (TrimSpace value.data).flatMap (fun c =>
        if c = '<' then "&lt;".data else if c = '>' then "&gt;".data
        else if c = Char.ofNat 34 then "&quot;".data
        else if c = Char.ofNat 39 then "&#x27;".data else [c]) ∧
    (∀ c ∈ (v.SanitizeString value).data,
      c ≠ '<' ∧ c ≠ '>' ∧ c ≠ Char.ofNat 34 ∧ c ≠ Char.ofNat 39) ∧
    (∀ c, (v.SanitizeString value).data.head? = some c → IsSpace c = false) ∧
    (∀ c, (v.SanitizeString value).data.getLast? = some c → IsSpace c = false) ∧
    (∃ leading trailing, value.data = leading ++ TrimSpace value.data ++ trailing ∧
      (∀ c ∈ leading, IsSpace c = true) ∧ (∀ c ∈ trailing, IsSpace c = true) ∧
      (∀ c, (TrimSpace value.data).head? = some c → IsSpace c = false) ∧
      (∀ c, (TrimSpace value.data).getLast? = some c → IsSpace c = false)) := by
  have hout : (v.SanitizeString value).data = (TrimSpace value.data).flatMap (fun c =>
        if c = '<' then "&lt;".data else if c = '>' then "&gt;".data
        else if c = Char.ofNat 34 then "&quot;".data
        else if c = Char.ofNat 39 then "&#x27;".data else [c]) := by
    unfold Validator.SanitizeString
    exact escape_four (TrimSpace value.data)
  obtain ⟨leading, trailing, hsplit, hlead, htrail, hhead, hlast⟩ := TrimSpace_spec value.data
  refine ⟨hout, ?_, ?_, ?_, leading, trailing, hsplit, hlead, htrail, hhead, hlast⟩
  · intro c hc
    rw [hout, List.mem_flatMap] at hc
    obtain ⟨a, _, hca⟩ := hc
    exact (escape_rune a).1 c hca
  · intro c hc
    rw [hout] at hc
    cases ht : TrimSpace value.data with
    | nil => rw [ht] at hc; simp at hc
    | cons a t =>
      rw [ht] at hc hhead
      obtain ⟨x, l, y, hx, _, hsx, _⟩ := (escape_rune a).2 (hhead a rfl)
      rw [List.flatMap_cons] at hc
      simp only at hc
      rw [hx] at hc
      simp only [List.cons_append, List.head?_cons, Option.some.injEq] at hc
      rw [← hc]; exact hsx
  · intro c hc
    rw [hout] at hc
    rcases List.eq_nil_or_concat (TrimSpace value.data) with ht | ⟨t, b, ht⟩
    · rw [ht] at hc; simp at hc
    · rw [ht] at hc hlast
      have hb : IsSpace b = false := hlast b (by simp)
      obtain ⟨x, l, y, hx, hy, _, hsy⟩ := (escape_rune b).2 hb
      rw [List.concat_eq_append, List.flatMap_append, List.flatMap_cons, List.flatMap_nil,
        List.append_nil] at hc
      simp only at hc
      rw [hx, List.getLast?_append, hy] at hc
      simp only [Option.or_some, Option.some.injEq] at hc
      rw [← hc]; exact hsy

/-- The value ` <b ` becomes `&lt;b`, which starts with `&`, no white space. -/
theorem SanitizeString_spec_witness :
    (Validator.SanitizeString NewValidator " <b ").data.head? = some '&' ∧
    IsSpace '&' = false ∧
    Validator.SanitizeString NewValidator " <b " = "&lt;b" :=
  ⟨by decide, (SanitizeString_spec NewValidator " <b ").2.2.1 '&' (by decide), by decide⟩

/-- Worked examples: a tag, the two quotes between white space, inner blanks kept, and a
value of blanks only. -/
theorem SanitizeString_examples :
    Validator.SanitizeString NewValidator "  <b>bold</b>  " = "&lt;b&gt;bold&lt;/b&gt;" ∧
    Validator.SanitizeString NewValidator
        (String.mk [' ', Char.ofNat 34, 'a', Char.ofNat 39, Char.ofNat 10]) =
      "&quot;a&#x27;" ∧
    Validator.SanitizeString NewValidator " a  b " = "a  b" ∧
    Validator.SanitizeString NewValidator "   " = "" := by
  refine ⟨by decide, by decide, by decide, by decide⟩

/-! ## Granting, revoking and the default seed -/

/-- A pair is among the pairs of the service iff the table has a row of it. -/
theorem mem_pairs (rs : RBACService) (r p : String) :
    (r, p) ∈ rs.pairs ↔ ∃ rp ∈ rs.db.rolePermissions, rp.Role = r ∧ rp.Permission = p := by
  unfold RBACService.pairs
  simp only [List.mem_map, Prod.mk.injEq]

/-- On a store that answers every query, `HasPermission` returns true or false, and true
iff a role of the principal is paired with the permission. -/
theorem HasPermission_cases (rs : RBACService) (u : Nat) (p : String)
    (hno : ∀ q, rs.db.fails q = none) :
    (rs.HasPermission u p = .ok true ↔
      ∃ r, (∃ ur ∈ rs.db.userRoles, ur.UserID = u ∧ ur.Role = r) ∧ (r, p) ∈ rs.pairs) ∧
    (rs.HasPermission u p = .ok true ∨ rs.HasPermission u p = .ok false) := by
  obtain ⟨roles, hroles, hmem⟩ := mem_GetUserRoles rs u hno
  have hany := anyRoleGrants_iff rs p hno roles
  have hHP : rs.HasPermission u p = rs.anyRoleGrants p roles := by
    simp only [RBACService.HasPermission, hroles]
  rw [hHP]
  refine ⟨?_, hany.1⟩
  rw [hany.2]
  constructor
  · rintro ⟨r, hr, h⟩
    exact ⟨r, (hmem r).mp hr, (mem_pairs rs r p).mpr h⟩
  · rintro ⟨r, hr, h⟩
    exact ⟨r, (hmem r).mpr hr, (mem_pairs rs r p).mp h⟩

/-- What a successful `AddPermission` leaves. -/
theorem AddPermission_ok (rs rs1 : RBACService) (r p : String)
    (h : rs.AddPermission r p = .ok rs1) :
    rs1.db.fails = rs.db.fails ∧ rs1.db.userRoles = rs.db.userRoles ∧
    rs1.db.rolePermissions = rs.db.rolePermissions ++
      [{ ID := rs.db.nextRolePermissionID, Role := r, Permission := p }] ∧
    rs1.pairs = rs.pairs ++ [(r, p)] := by
  unfold RBACService.AddPermission at h
  cases hf : rs.db.fails (.createRolePermission r p) with
  | some e => rw [hf] at h; cases h
  | none =>
    rw [hf] at h
    simp only [Except.ok.injEq] at h
    subst h
    simp [RBACService.pairs]

/-- What a successful `RemovePermission` leaves. -/
theorem RemovePermission_ok (rs rs2 : RBACService) (r p : String)
    (h : rs.RemovePermission r p = .ok rs2) :
    rs2.db.fails = rs.db.fails ∧ rs2.db.userRoles = rs.db.userRoles ∧
    rs2.db.rolePermissions = rs.db.rolePermissions.filter
      (fun rp => !(decide (rp.Role = r) && decide (rp.Permission = p))) ∧
    (∀ x, x ∈ rs2.pairs ↔ x ∈ rs.pairs ∧ x ≠ (r, p)) := by
  unfold RBACService.RemovePermission at h
  cases hf : rs.db.fails (.deleteRolePermission r p) with
  | some e => rw [hf] at h; cases h
  | none =>
    rw [hf] at h
    simp only [Except.ok.injEq] at h
    subst h
    refine ⟨rfl, rfl, rfl, ?_⟩
    rintro ⟨a, b⟩
    simp only [RBACService.pairs, List.mem_map, List.mem_filter, Bool.not_eq_true',
      Bool.and_eq_false_imp, decide_eq_true_eq, decide_eq_false_iff_not, Prod.mk.injEq, ne_eq,
      not_and]
    constructor
    · rintro ⟨rp, ⟨h1, h2⟩, h3, h4⟩
      exact ⟨⟨rp, h1, h3, h4⟩, fun ha => h4 ▸ h2 (h3.trans ha)⟩
    · rintro ⟨⟨rp, h1, h3, h4⟩, h2⟩
      exact ⟨rp, ⟨h1, fun ha => h4 ▸ h2 (h3 ▸ ha)⟩, h3, h4⟩

/-- The count of the rows of a pair is positive exactly for the pairs of the table. -/
theorem count_pos_iff (rs : RBACService) (r p : String) :
    0 < (rs.db.rolePermissions.filter
      (fun rp => decide (rp.Role = r) && decide (rp.Permission = p))).length ↔
      (r, p) ∈ rs.pairs := by
  rw [mem_pairs, List.length_pos_iff_exists_mem]
  simp only [List.mem_filter, Bool.and_eq_true, decide_eq_true_eq]

/-- The fold of `max` over a list bounds its start value and its elements. -/
theorem foldl_max_le (l : List Nat) (a x : Nat) (h : x ≤ a ∨ x ∈ l) : x ≤ l.foldl max a := by
  induction l generalizing a with
  | nil =>
    rcases h with h | h
    · exact h
    · cases h
  | cons b l ih =>
    simp only [List.foldl_cons]
    apply ih
    rcases h with h | h
    · left; exact le_trans h (le_max_left a b)
    · rcases List.mem_cons.mp h with h | h
      · left; rw [h]; exact le_max_right a b
      · right; exact h

/-- Two services with the same failures and the same pairs give the same answer in the
loop of `HasPermission`. -/
theorem anyRoleGrants_congr (rs rs1 : RBACService) (q : String)
    (hf : rs1.db.fails = rs.db.fails) (hp : ∀ x, x ∈ rs1.pairs ↔ x ∈ rs.pairs)
    (roles : List String) :
    rs1.anyRoleGrants q roles = rs.anyRoleGrants q roles := by
  induction roles with
  | nil => rfl
  | cons role roles ih =>
    unfold RBACService.anyRoleGrants
    simp only [RBACService.countRolePermission, hf]
    cases hc : rs.db.fails (.countRolePermission role q) with
    | some e => rfl
    | none =>
      simp only [gt_iff_lt, count_pos_iff, hp, ih]

/-- C22 (authorization monotonicity).  On a store that answers every query, for every
role `r` and permission `p`: `AddPermission(r, p)` returns nil and afterwards
`HasPermission(u, p)` is true for every principal `u` with the role `r`; and
`RemovePermission(r, p)` returns nil and afterwards `HasPermission(u, p)` is false for every
principal `u` none of whose roles other than `r` is paired with `p`, however many rows of
the pair `(r, p)` the table held. -/
theorem grant_revoke (rs : RBACService) (r p : String) (hno : ∀ q, rs.db.fails q = none) :
    (∃ rs1, rs.AddPermission r p = .ok rs1 ∧
      ∀ u, (∃ ur ∈ rs.db.userRoles, ur.UserID = u ∧ ur.Role = r) →
        rs1.HasPermission u p = .ok true) ∧
    (∃ rs2, rs.RemovePermission r p = .ok rs2 ∧
      ∀ u, (∀ ur ∈ rs.db.userRoles, ur.UserID = u → ur.Role ≠ r → (ur.Role, p) ∉ rs.pairs) →
        rs2.HasPermission u p = .ok false) := by
  constructor
  · have hadd : ∃ rs1, rs.AddPermission r p = .ok rs1 := by
      simp [RBACService.AddPermission, hno]
    obtain ⟨rs1, h1⟩ := hadd
    obtain ⟨hf, hu, _, hp⟩ := AddPermission_ok rs rs1 r p h1
    refine ⟨rs1, h1, ?_⟩
    rintro u ⟨ur, hur, h2, h3⟩
    have hno1 : ∀ q, rs1.db.fails q = none := by rw [hf]; exact hno
    rw [(HasPermission_cases rs1 u p hno1).1]
    refine ⟨r, ⟨ur, hu ▸ hur, h2, h3⟩, ?_⟩
    rw [hp]; simp
  · have hrem : ∃ rs2, rs.RemovePermission r p = .ok rs2 := by
      simp [RBACService.RemovePermission, hno]
    obtain ⟨rs2, h2⟩ := hrem
    obtain ⟨hf, hu, _, hp⟩ := RemovePermission_ok rs rs2 r p h2
    refine ⟨rs2, h2, ?_⟩
    intro u hother
    have hno2 : ∀ q, rs2.db.fails q = none := by rw [hf]; exact hno
    obtain ⟨hiff, hor⟩ := HasPermission_cases rs2 u p hno2
    rcases hor with ht | hfalse
    · exfalso
      obtain ⟨r1, ⟨ur, hur, hu1, hr1⟩, hmem⟩ := hiff.mp ht
      rw [hp] at hmem
      rw [hu] at hur
      by_cases hrr : ur.Role = r
      · apply hmem.2
        rw [← hr1, hrr]
      · apply hother ur hur hu1 hrr
        rw [hr1]; exact hmem.1
    · exact hfalse

/-- In `twiceDB` the role `user` was granted `create:post` twice: principal 7 holds it, and
after one `RemovePermission` holds it no more; a newly granted `delete:post` is held at
once. -/
theorem grant_revoke_witness :
    (∀ q, twiceDB.fails q = none) ∧
    (match RBACService.AddPermission { db := twiceDB } "user" "delete:post" with
      | .ok rs1 => rs1.HasPermission 7 "delete:post"
      | .error e => .error e) = .ok true ∧
    RBACService.HasPermission { db := twiceDB } 7 "create:post" = .ok true ∧
    (match RBACService.RemovePermission { db := twiceDB } "user" "create:post" with
      | .ok rs2 => rs2.HasPermission 7 "create:post"
      | .error e => .error e) = .ok false ∧
    (∃ rs2, RBACService.RemovePermission { db := twiceDB } "user" "create:post" = .ok rs2 ∧
      ∀ u, (∀ ur ∈ twiceDB.userRoles, ur.UserID = u → ur.Role ≠ "user" →
          (ur.Role, "create:post") ∉ RBACService.pairs { db := twiceDB }) →
        rs2.HasPermission u "create:post" = .ok false) :=
  ⟨fun _ => rfl, by decide, by decide, by decide,
    (grant_revoke { db := twiceDB } "user" "create:post" (fun _ => rfl)).2⟩

/-- C23 (granting), amended.  A successful `AddPermission(r, p)` appends one row of the
pair under a new key, whatever the table holds: the table is one row longer, the count of
the rows of `(r, p)` is one more, `GetRolePermissions(r)` lists `p` once more at its end,
the role-grant table and the failures of the store are as before, and, when the pair was
already in the table, `HasPermission` answers every question as before. -/
theorem AddPermission_appends (rs rs1 : RBACService) (r p : String)
    (h : rs.AddPermission r p = .ok rs1) :
    rs1.db.rolePermissions = rs.db.rolePermissions ++
      [{ ID := rs.db.nextRolePermissionID, Role := r, Permission := p }] ∧
    rs1.db.rolePermissions.length = rs.db.rolePermissions.length + 1 ∧
    (∀ rp ∈ rs.db.rolePermissions, rp.ID < rs.db.nextRolePermissionID) ∧
    rs1.db.userRoles = rs.db.userRoles ∧ rs1.db.fails = rs.db.fails ∧
    (rs1.db.rolePermissions.filter
        (fun rp => decide (rp.Role = r) && decide (rp.Permission = p))).length =
      (rs.db.rolePermissions.filter
        (fun rp => decide (rp.Role = r) && decide (rp.Permission = p))).length + 1 ∧
    (∀ l, rs.GetRolePermissions r = .ok l → rs1.GetRolePermissions r = .ok (l ++ [p])) ∧
    ((r, p) ∈ rs.pairs → ∀ u q, rs1.HasPermission u q = rs.HasPermission u q) := by
  obtain ⟨hf, hu, ht, hp⟩ := AddPermission_ok rs rs1 r p h
  refine ⟨ht, by rw [ht]; simp, ?_, hu, hf, by rw [ht]; simp [List.filter_append], ?_, ?_⟩
  · intro rp hrp
    unfold DB.nextRolePermissionID
    exact Nat.lt_succ_of_le (foldl_max_le _ 0 rp.ID (Or.inr (List.mem_map_of_mem _ hrp)))
  · intro l hl
    unfold RBACService.GetRolePermissions at hl ⊢
    rw [hf]
    cases hq : rs.db.fails (.pluckPermissions r) with
    | some e => rw [hq] at hl; cases hl
    | none =>
      rw [hq] at hl
      simp only [Except.ok.injEq] at hl ⊢
      rw [ht, ← hl]
      simp [List.filter_append]
  · intro hmem u q
    have hpairs : ∀ x, x ∈ rs1.pairs ↔ x ∈ rs.pairs := by
      intro x
      rw [hp, List.mem_append, List.mem_singleton]
      constructor
      · rintro (hx | hx)
        · exact hx
        · rw [hx]; exact hmem
      · intro hx; exact Or.inl hx
    unfold RBACService.HasPermission RBACService.GetUserRoles
    rw [hf, hu]
    cases hq : rs.db.fails (.pluckRoles u) with
    | some e => rfl
    | none => exact anyRoleGrants_congr rs rs1 q hf hpairs _

/-- In `demoDB`, granting `create:post` to `user` again appends row 4. -/
theorem AddPermission_appends_witness :
    RBACService.AddPermission { db := demoDB } "user" "create:post" =
      .ok { db := { demoDB with rolePermissions := demoDB.rolePermissions ++
        [{ ID := 4, Role := "user", Permission := "create:post" }] } } ∧
    (RBACService.GetRolePermissions { db := demoDB } "user" = .ok ["create:post", "read:post"] →
      RBACService.GetRolePermissions { db := { demoDB with rolePermissions :=
        demoDB.rolePermissions ++ [{ ID := 4, Role := "user", Permission := "create:post" }] } }
        "user" = .ok (["create:post", "read:post"] ++ ["create:post"])) :=
  ⟨rfl, (AddPermission_appends { db := demoDB } _ "user" "create:post" rfl).2.2.2.2.2.2.1 _⟩

/-- C23 as stated fails.  `demoDB` holds the pair (`user`, `create:post`); granting it again
returns nil and leaves a table of four rows, not the table before the call: the pair is
there twice and `GetRolePermissions("user")` lists `create:post` twice. -/
theorem AddPermission_duplicate_counterexample :
    ("user", "create:post") ∈ RBACService.pairs { db := demoDB } ∧
    ∃ rs1, RBACService.AddPermission { db := demoDB } "user" "create:post" = .ok rs1 ∧
      rs1.db.rolePermissions ≠ demoDB.rolePermissions ∧
      rs1.db.rolePermissions =
        [{ ID := 1, Role := "user", Permission := "create:post" },
         { ID := 2, Role := "user", Permission := "read:post" },
         { ID := 3, Role := "admin", Permission := "manage:system" },
         { ID := 4, Role := "user", Permission := "create:post" }] ∧
      RBACService.GetRolePermissions { db := demoDB } "user" =
        .ok ["create:post", "read:post"] ∧
      rs1.GetRolePermissions "user" = .ok ["create:post", "read:post", "create:post"] ∧
      ¬ rs1.pairs.Nodup :=
  ⟨by decide, _, rfl, by decide, by decide, by decide, by decide, by decide⟩

/-- One turn of the inner loop that returns nil: either the pair was there and the store
is as before, or the pair was appended. -/
theorem seedPermission_ok (rs rs1 : RBACService) (r p : String)
    (h : rs.seedPermission r p = .ok rs1) :
    rs1.db.fails = rs.db.fails ∧ rs1.db.userRoles = rs.db.userRoles ∧
    ((rs1 = rs ∧ (r, p) ∈ rs.pairs) ∨
      (rs1.pairs = rs.pairs ++ [(r, p)] ∧
        (rs.db.fails (.countRolePermission r p) = none → (r, p) ∉ rs.pairs))) := by
  unfold RBACService.seedPermission at h
  simp only [RBACService.countRolePermission] at h
  cases hc : rs.db.fails (.countRolePermission r p) with
  | some e =>
    simp only [hc, if_true] at h
    cases ha : rs.AddPermission r p with
    | error e1 => rw [ha] at h; cases h
    | ok rs2 =>
      rw [ha] at h
      simp only [Except.ok.injEq] at h
      subst h
      obtain ⟨hf, hu, _, hp⟩ := AddPermission_ok rs rs2 r p ha
      exact ⟨hf, hu, Or.inr ⟨hp, fun hn => by cases hn⟩⟩
  | none =>
    simp only [hc] at h
    by_cases hz : (rs.db.rolePermissions.filter
        (fun rp => decide (rp.Role = r) && decide (rp.Permission = p))).length = 0
    · rw [if_pos hz] at h
      cases ha : rs.AddPermission r p with
      | error e1 => rw [ha] at h; cases h
      | ok rs2 =>
        rw [ha] at h
        simp only [Except.ok.injEq] at h
        subst h
        obtain ⟨hf, hu, _, hp⟩ := AddPermission_ok rs rs2 r p ha
        refine ⟨hf, hu, Or.inr ⟨hp, fun _ hmem => ?_⟩⟩
        have := (count_pos_iff rs r p).mpr hmem
        omega
    · rw [if_neg hz] at h
      simp only [Except.ok.injEq] at h
      subst h
      exact ⟨rfl, rfl, Or.inl ⟨rfl, (count_pos_iff _ r p).mp (Nat.pos_of_ne_zero hz)⟩⟩

/-- One turn of the inner loop for a pair the table holds changes nothing, when the count
is answered. -/
theorem seedPermission_present (rs : RBACService) (r p : String)
    (hc : rs.db.fails (.countRolePermission r p) = none) (hmem : (r, p) ∈ rs.pairs) :
    rs.seedPermission r p = .ok rs := by
  unfold RBACService.seedPermission
  simp only [RBACService.countRolePermission, hc]
  have := (count_pos_iff rs r p).mpr hmem
  rw [if_neg (by omega)]

/-- One turn of the inner loop returns nil when the insert does not fail. -/
theorem seedPermission_total (rs : RBACService) (r p : String)
    (hc : rs.db.fails (.createRolePermission r p) = none) :
    ∃ rs1, rs.seedPermission r p = .ok rs1 := by
  unfold RBACService.seedPermission
  simp only [RBACService.AddPermission, hc]
  split
  · exact ⟨_, rfl⟩
  · exact ⟨_, rfl⟩

/-- What the inner loop leaves when it returns nil. -/
theorem seedPermissions_ok (role : String) (ps : List String) (rs rs1 : RBACService)
    (h : rs.seedPermissions role ps = (.ok (), rs1)) :
    rs1.db.fails = rs.db.fails ∧ rs1.db.userRoles = rs.db.userRoles ∧
    (∀ x ∈ rs.pairs, x ∈ rs1.pairs) ∧
    (∀ p ∈ ps, (role, p) ∈ rs1.pairs) ∧
    (∀ x ∈ rs1.pairs, x ∈ rs.pairs ∨ ∃ p ∈ ps, x = (role, p)) ∧
    ((∀ r p, rs.db.fails (.countRolePermission r p) = none) →
      rs.pairs.Nodup → rs1.pairs.Nodup) := by
  induction ps generalizing rs with
  | nil =>
    simp only [RBACService.seedPermissions, Prod.mk.injEq, true_and] at h
    subst h
    simp
  | cons p ps ih =>
    unfold RBACService.seedPermissions at h
    cases hs : rs.seedPermission role p with
    | error e => rw [hs] at h; simp at h
    | ok rs2 =>
      rw [hs] at h
      simp only at h
      obtain ⟨hf2, hu2, hcase⟩ := seedPermission_ok rs rs2 role p hs
      obtain ⟨hf, hu, hmono, hall, horig, hnd⟩ := ih rs2 h
      have hmono2 : ∀ x ∈ rs.pairs, x ∈ rs2.pairs := by
        intro x hx
        rcases hcase with ⟨he, _⟩ | ⟨hp, _⟩
        · rw [he]; exact hx
        · rw [hp]; exact List.mem_append_left _ hx
      have hpres : (role, p) ∈ rs2.pairs := by
        rcases hcase with ⟨he, hm⟩ | ⟨hp, _⟩
        · rw [he]; exact hm
        · rw [hp]; simp
      refine ⟨hf.trans hf2, hu.trans hu2, fun x hx => hmono x (hmono2 x hx), ?_, ?_, ?_⟩
      · intro q hq
        rcases List.mem_cons.mp hq with hq | hq
        · rw [hq]; exact hmono _ hpres
        · exact hall q hq
      · intro x hx
        rcases horig x hx with h2 | ⟨q, hq, hxq⟩
        · rcases hcase with ⟨he, _⟩ | ⟨hp, _⟩
          · left; rw [← he]; exact h2
          · rw [hp, List.mem_append, List.mem_singleton] at h2
            rcases h2 with h2 | h2
            · left; exact h2
            · right; exact ⟨p, List.mem_cons_self _ _, h2⟩
        · right; exact ⟨q, List.mem_cons_of_mem _ hq, hxq⟩
      · intro hcount hnodup
        apply hnd
        · intro r q; rw [hf2]; exact hcount r q
        · rcases hcase with ⟨he, _⟩ | ⟨hp, hnot⟩
          · rw [he]; exact hnodup
          · rw [hp]
            apply List.Nodup.append hnodup (List.nodup_singleton _)
            intro x hx1 hx2
            rw [List.mem_singleton] at hx2
            rw [hx2] at hx1
            exact hnot (hcount role p) hx1

/-- The inner loop over permissions the role already has changes nothing. -/
theorem seedPermissions_present (role : String) (ps : List String) (rs : RBACService)
    (hcount : ∀ r p, rs.db.fails (.countRolePermission r p) = none)
    (hall : ∀ p ∈ ps, (role, p) ∈ rs.pairs) :
    rs.seedPermissions role ps = (.ok (), rs) := by
  induction ps with
  | nil => rfl
  | cons p ps ih =>
    unfold RBACService.seedPermissions
    rw [seedPermission_present rs role p (hcount role p) (hall p (List.mem_cons_self _ _))]
    exact ih (fun q hq => hall q (List.mem_cons_of_mem _ hq))

/-- The inner loop returns nil when no insert fails. -/
theorem seedPermissions_total (role : String) (ps : List String) (rs : RBACService)
    (hcreate : ∀ r p, rs.db.fails (.createRolePermission r p) = none) :
    ∃ rs1, rs.seedPermissions role ps = (.ok (), rs1) := by
  induction ps generalizing rs with
  | nil => exact ⟨rs, rfl⟩
  | cons p ps ih =>
    unfold RBACService.seedPermissions
    obtain ⟨rs2, h2⟩ := seedPermission_total rs role p (hcreate role p)
    rw [h2]
    obtain ⟨hf, _, _⟩ := seedPermission_ok rs rs2 role p h2
    exact ih rs2 (fun r q => by rw [hf]; exact hcreate r q)

/-- What `InitializeDefaultRoles` leaves when it returns nil. -/
theorem InitializeDefaultRoles_ok (iteration : List (String × List String))
    (rs rs1 : RBACService) (h : rs.InitializeDefaultRoles iteration = (.ok (), rs1)) :
    rs1.db.fails = rs.db.fails ∧ rs1.db.userRoles = rs.db.userRoles ∧
    (∀ x ∈ rs.pairs, x ∈ rs1.pairs) ∧
    (∀ e ∈ iteration, ∀ p ∈ e.2, (e.1, p) ∈ rs1.pairs) ∧
    (∀ x ∈ rs1.pairs, x ∈ rs.pairs ∨ ∃ e ∈ iteration, ∃ p ∈ e.2, x = (e.1, p)) ∧
    ((∀ r p, rs.db.fails (.countRolePermission r p) = none) →
      rs.pairs.Nodup → rs1.pairs.Nodup) := by
  induction iteration generalizing rs with
  | nil =>
    simp only [RBACService.InitializeDefaultRoles, Prod.mk.injEq, true_and] at h
    subst h
    simp
  | cons e rest ih =>
    obtain ⟨role, ps⟩ := e
    unfold RBACService.InitializeDefaultRoles at h
    cases hs : rs.seedPermissions role ps with
    | mk res rs2 =>
      rw [hs] at h
      cases res with
      | error e => simp at h
      | ok u =>
        simp only at h
        obtain ⟨hf2, hu2, hmono2, hall2, horig2, hnd2⟩ := seedPermissions_ok role ps rs rs2 hs
        obtain ⟨hf, hu, hmono, hall, horig, hnd⟩ := ih rs2 h
        refine ⟨hf.trans hf2, hu.trans hu2, fun x hx => hmono x (hmono2 x hx), ?_, ?_, ?_⟩
        · intro e he p hp
          rcases List.mem_cons.mp he with he | he
          · subst he; exact hmono _ (hall2 p hp)
          · exact hall e he p hp
        · intro x hx
          rcases horig x hx with h2 | ⟨e, he, p, hp, hxp⟩
          · rcases horig2 x h2 with h3 | ⟨p, hp, hxp⟩
            · left; exact h3
            · right; exact ⟨(role, ps), List.mem_cons_self _ _, p, hp, hxp⟩
          · right; exact ⟨e, List.mem_cons_of_mem _ he, p, hp, hxp⟩
        · intro hcount hnodup
          exact hnd (fun r q => by rw [hf2]; exact hcount r q) (hnd2 hcount hnodup)

/-- A run over entries the table already holds changes nothing. -/
theorem InitializeDefaultRoles_present (iteration : List (String × List String))
    (rs : RBACService)
    (hcount : ∀ r p, rs.db.fails (.countRolePermission r p) = none)
    (hall : ∀ e ∈ iteration, ∀ p ∈ e.2, (e.1, p) ∈ rs.pairs) :
    rs.InitializeDefaultRoles iteration = (.ok (), rs) := by
  induction iteration with
  | nil => rfl
  | cons e rest ih =>
    obtain ⟨role, ps⟩ := e
    unfold RBACService.InitializeDefaultRoles
    rw [seedPermissions_present role ps rs hcount (hall (role, ps) (List.mem_cons_self _ _))]
    exact ih (fun e he => hall e (List.mem_cons_of_mem _ he))

/-- A run returns nil when no insert fails. -/
theorem InitializeDefaultRoles_total (iteration : List (String × List String))
    (rs : RBACService)
    (hcreate : ∀ r p, rs.db.fails (.createRolePermission r p) = none) :
    ∃ rs1, rs.InitializeDefaultRoles iteration = (.ok (), rs1) := by
  induction iteration generalizing rs with
  | nil => exact ⟨rs, rfl⟩
  | cons e rest ih =>
    obtain ⟨role, ps⟩ := e
    unfold RBACService.InitializeDefaultRoles
    obtain ⟨rs2, h2⟩ := seedPermissions_total role ps rs hcreate
    rw [h2]
    obtain ⟨hf, _⟩ := seedPermissions_ok role ps rs rs2 h2
    exact ih rs2 (fun r q => by rw [hf]; exact hcreate r q)

/-- A table without a repeated pair lists no permission of a role twice. -/
theorem GetRolePermissions_nodup (role : String) (t : List RolePermission)
    (h : (t.map (fun rp => (rp.Role, rp.Permission))).Nodup) :
    ((t.filter (fun rp => decide (rp.Role = role))).map (·.Permission)).Nodup := by
  induction t with
  | nil => simp
  | cons rp t ih =>
    rw [List.map_cons, List.nodup_cons] at h
    by_cases hr : rp.Role = role
    · rw [List.filter_cons, if_pos (by simpa using hr), List.map_cons, List.nodup_cons]
      refine ⟨?_, ih h.2⟩
      intro hmem
      apply h.1
      simp only [List.mem_map, List.mem_filter, decide_eq_true_eq] at hmem
      obtain ⟨rp1, ⟨h1, h2⟩, h3⟩ := hmem
      exact List.mem_map.mpr ⟨rp1, h1, by rw [h2, h3, hr]⟩
    · rw [List.filter_cons, if_neg (by simpa using hr)]
      exact ih h.2

/-- C24 (idempotent defaults).  From any starting table, on a store that answers the counts,
in whatever order the two runs visit the map: a first run returns nil when no insert fails;
and after a first run that returned nil, a second run returns nil and leaves the store, and
so the role-permission table, exactly as the first run left it. -/
theorem InitializeDefaultRoles_idempotent (rs : RBACService)
    (first second : List (String × List String))
    (hfirst : first.Perm defaultPermissions) (hsecond : second.Perm defaultPermissions)
    (hcount : ∀ role permission,
      rs.db.fails (.countRolePermission role permission) = none) :
    ((∀ role permission, rs.db.fails (.createRolePermission role permission) = none) →
      (rs.InitializeDefaultRoles first).1 = .ok ()) ∧
    ((rs.InitializeDefaultRoles first).1 = .ok () →
      (rs.InitializeDefaultRoles first).2.InitializeDefaultRoles second =
        (.ok (), (rs.InitializeDefaultRoles first).2) ∧
      ((rs.InitializeDefaultRoles first).2.InitializeDefaultRoles second).2.db.rolePermissions =
        (rs.InitializeDefaultRoles first).2.db.rolePermissions) := by
  constructor
  · intro hcreate
    obtain ⟨rs1, h1⟩ := InitializeDefaultRoles_total first rs hcreate
    rw [h1]
  · intro hrun
    have h1 : rs.InitializeDefaultRoles first = (.ok (), (rs.InitializeDefaultRoles first).2) := by
      rw [← hrun]
    obtain ⟨hf, _, _, hall, _, _⟩ := InitializeDefaultRoles_ok first rs _ h1
    have hno : (rs.InitializeDefaultRoles first).2.InitializeDefaultRoles second =
        (.ok (), (rs.InitializeDefaultRoles first).2) := by
      apply InitializeDefaultRoles_present
      · intro r p; rw [hf]; exact hcount r p
      · intro e he p hp
        exact hall e (hfirst.mem_iff.mpr (hsecond.mem_iff.mp he)) p hp
    exact ⟨hno, by rw [hno]⟩

/-- From `demoDB`, which holds three of the pairs, the first run leaves 23 rows, and a second
run that visits the map in the reverse order leaves the same table. -/
theorem InitializeDefaultRoles_idempotent_witness :
    defaultPermissions.Perm defaultPermissions ∧
    defaultPermissions.reverse.Perm defaultPermissions ∧
    (∀ role permission, demoDB.fails (.countRolePermission role permission) = none) ∧
    (RBACService.InitializeDefaultRoles { db := demoDB } defaultPermissions).1 = .ok () ∧
    (RBACService.InitializeDefaultRoles { db := demoDB } defaultPermissions).2.db.rolePermissions.length
      = 23 ∧
    ((RBACService.InitializeDefaultRoles { db := demoDB }
        defaultPermissions).2.InitializeDefaultRoles defaultPermissions.reverse).2.db.rolePermissions =
      (RBACService.InitializeDefaultRoles { db := demoDB } defaultPermissions).2.db.rolePermissions :=
  ⟨List.Perm.refl _, List.reverse_perm _, fun _ _ => rfl, by decide, by decide,
    ((InitializeDefaultRoles_idempotent { db := demoDB } defaultPermissions
      defaultPermissions.reverse (List.Perm.refl _) (List.reverse_perm _)
      (fun _ _ => rfl)).2 (by decide)).2⟩

/-- Where the count of one pair fails, the loop reads the count as 0 and inserts: from the
empty table the first run still leaves the 23 pairs, and the second run adds a row. -/
theorem InitializeDefaultRoles_failed_count :
    (RBACService.InitializeDefaultRoles { db := flakyDB } defaultPermissions).1 = .ok () ∧
    (RBACService.InitializeDefaultRoles { db := flakyDB }
      defaultPermissions).2.db.rolePermissions.length = 23 ∧
    ((RBACService.InitializeDefaultRoles { db := flakyDB }
      defaultPermissions).2.InitializeDefaultRoles defaultPermissions).2.db.rolePermissions.length
      = 24 := by
  refine ⟨by decide, by decide, by decide⟩

/-- After a run from the empty table, the pairs are those of the defaults, none twice. -/
theorem seed_from_empty (rs rs1 : RBACService) (iteration : List (String × List String))
    (hiter : iteration.Perm defaultPermissions) (hempty : rs.db.rolePermissions = [])
    (hcount : ∀ r p, rs.db.fails (.countRolePermission r p) = none)
    (h : rs.InitializeDefaultRoles iteration = (.ok (), rs1)) :
    rs1.pairs.Nodup ∧
    ∀ role p, (role, p) ∈ rs1.pairs ↔ ∃ e ∈ defaultPermissions, e.1 = role ∧ p ∈ e.2 := by
  obtain ⟨_, _, _, hall, horig, hnd⟩ := InitializeDefaultRoles_ok iteration rs rs1 h
  have hp : rs.pairs = [] := by simp [RBACService.pairs, hempty]
  refine ⟨hnd hcount (by rw [hp]; exact List.nodup_nil), ?_⟩
  intro role p
  constructor
  · intro hx
    rcases horig _ hx with h1 | ⟨e, he, q, hq, hxq⟩
    · rw [hp] at h1; cases h1
    · simp only [Prod.mk.injEq] at hxq
      exact ⟨e, hiter.mem_iff.mp he, hxq.1.symm, hxq.2 ▸ hq⟩
  · rintro ⟨e, he, h1, h2⟩
    rw [← h1]
    exact hall e (hiter.mem_iff.mpr he) p h2

/-- The list of a role, when its pairs are known and none is repeated. -/
theorem GetRolePermissions_perm (rs1 : RBACService) (role : String) (expected : List String)
    (hno : ∀ q, rs1.db.fails q = none) (hnd : rs1.pairs.Nodup) (hexp : expected.Nodup)
    (hmem : ∀ p, (role, p) ∈ rs1.pairs ↔ p ∈ expected) :
    ∃ l, rs1.GetRolePermissions role = .ok l ∧ l.Perm expected := by
  refine ⟨(rs1.db.rolePermissions.filter (fun rp => decide (rp.Role = role))).map
    (·.Permission), by simp only [RBACService.GetRolePermissions, hno], ?_⟩
  rw [List.perm_ext_iff_of_nodup (GetRolePermissions_nodup role _ hnd) hexp]
  intro p
  rw [← hmem p, mem_pairs]
  simp only [List.mem_map, List.mem_filter, decide_eq_true_eq]
  constructor
  · rintro ⟨rp, ⟨h1, h2⟩, h3⟩
    exact ⟨rp, h1, h2, h3⟩
  · rintro ⟨rp, h1, h2, h3⟩
    exact ⟨rp, ⟨h1, h2⟩, h3⟩

/-- C25 (default seed).  From an empty role-permission table, on a store that answers every
query and in whatever order the run visits the map, `InitializeDefaultRoles` returns nil and
afterwards `admin` has the twelve create, read, update and delete permissions on user, post
and comment and `manage:system`, `user` has the eight on post and comment, `guest` has
`read:post` and `read:comment`, each once and no other, and every other role has none; and
for a principal whose only role is `user`, `RequirePermission` returns nil for
`create:post` and an error for `manage:system`. -/
theorem default_seed (rs : RBACService) (iteration : List (String × List String))
    (hiter : iteration.Perm defaultPermissions) (hempty : rs.db.rolePermissions = [])
    (hno : ∀ q, rs.db.fails q = none) :
    ∃ rs1, rs.InitializeDefaultRoles iteration = (.ok (), rs1) ∧
      (∃ admin, rs1.GetRolePermissions "admin" = .ok admin ∧
        admin.Perm ["create:user", "read:user", "update:user", "delete:user",
          "create:post", "read:post", "update:post", "delete:post",
          "create:comment", "read:comment", "update:comment", "delete:comment",
          "manage:system"]) ∧
      (∃ user, rs1.GetRolePermissions "user" = .ok user ∧
        user.Perm ["create:post", "read:post", "update:post", "delete:post",
          "create:comment", "read:comment", "update:comment", "delete:comment"]) ∧
      (∃ guest, rs1.GetRolePermissions "guest" = .ok guest ∧
        guest.Perm ["read:post", "read:comment"]) ∧
      (∀ role, role ≠ "admin" → role ≠ "user" → role ≠ "guest" →
        rs1.GetRolePermissions role = .ok []) ∧
      (∀ u, (∃ ur ∈ rs1.db.userRoles, ur.UserID = u) →
        (∀ ur ∈ rs1.db.userRoles, ur.UserID = u → ur.Role = "user") →
        rs1.RequirePermission u "create:post" = .ok () ∧
        rs1.RequirePermission u "manage:system" =
          .error "insufficient permissions: manage:system required") := by
  obtain ⟨rs1, h1⟩ := InitializeDefaultRoles_total iteration rs (fun r p => hno _)
  obtain ⟨hf, _, _⟩ := InitializeDefaultRoles_ok iteration rs rs1 h1
  obtain ⟨hnd, hmem⟩ := seed_from_empty rs rs1 iteration hiter hempty (fun r p => hno _) h1
  have hno1 : ∀ q, rs1.db.fails q = none := by rw [hf]; exact hno
  refine ⟨rs1, h1, ?_, ?_, ?_, ?_, ?_⟩
  · apply GetRolePermissions_perm rs1 "admin" _ hno1 hnd (by decide)
    intro p
    rw [hmem]
    simp [defaultPermissions]
  · apply GetRolePermissions_perm rs1 "user" _ hno1 hnd (by decide)
    intro p
    rw [hmem]
    simp [defaultPermissions]
  · apply GetRolePermissions_perm rs1 "guest" _ hno1 hnd (by decide)
    intro p
    rw [hmem]
    simp [defaultPermissions]
  · intro role ha hu hg
    obtain ⟨l, hl, hperm⟩ := GetRolePermissions_perm rs1 role [] hno1 hnd List.nodup_nil (by
      intro p
      rw [hmem]
      simp only [defaultPermissions, List.mem_cons, List.mem_singleton, List.not_mem_nil,
        iff_false, not_exists, not_and]
      rintro e (he | he | he | he) h2
      · rw [he] at h2; exact absurd h2.symm ha
      · rw [he] at h2; exact absurd h2.symm hu
      · rw [he] at h2; exact absurd h2.symm hg
      · cases he)
    rw [hl, List.perm_nil.mp hperm]
  · rintro u ⟨ur, hur, huid⟩ honly
    obtain ⟨hiff, _⟩ := HasPermission_cases rs1 u "create:post" hno1
    obtain ⟨hiff2, hor2⟩ := HasPermission_cases rs1 u "manage:system" hno1
    constructor
    · rw [RequirePermission_ok_iff, hiff]
      refine ⟨"user", ⟨ur, hur, huid, honly ur hur huid⟩, ?_⟩
      rw [hmem]
      simp [defaultPermissions]
    · have hfalse : rs1.HasPermission u "manage:system" = .ok false := by
        rcases hor2 with ht | hfa
        · exfalso
          obtain ⟨r, ⟨ur2, hur2, hu2, hr2⟩, hm⟩ := hiff2.mp ht
          rw [← hr2, honly ur2 hur2 hu2, hmem] at hm
          simp [defaultPermissions] at hm
        · exact hfa
      unfold RBACService.RequirePermission
      rw [hfalse]
      rfl

/-- From `emptyDB`, visiting the map in the reverse order: the run returns nil, `guest` has
its two permissions, and principal 7, whose only role is `user`, may create a post and may
not manage the system. -/
theorem default_seed_witness :
    defaultPermissions.reverse.Perm defaultPermissions ∧
    emptyDB.rolePermissions = [] ∧
    (∀ q, emptyDB.fails q = none) ∧
    (RBACService.InitializeDefaultRoles { db := emptyDB } defaultPermissions.reverse).1 =
      .ok () ∧
    (RBACService.InitializeDefaultRoles { db := emptyDB }
        defaultPermissions.reverse).2.GetRolePermissions "guest" =
      .ok ["read:post", "read:comment"] ∧
    (RBACService.InitializeDefaultRoles { db := emptyDB }
        defaultPermissions.reverse).2.RequirePermission 7 "create:post" = .ok () ∧
    (RBACService.InitializeDefaultRoles { db := emptyDB }
        defaultPermissions.reverse).2.RequirePermission 7 "manage:system" =
      .error "insufficient permissions: manage:system required" ∧
    ∃ rs1, RBACService.InitializeDefaultRoles { db := emptyDB } defaultPermissions.reverse =
        (.ok (), rs1) ∧
      ∃ admin, rs1.GetRolePermissions "admin" = .ok admin ∧
        admin.Perm ["create:user", "read:user", "update:user", "delete:user",
          "create:post", "read:post", "update:post", "delete:post",
          "create:comment", "read:comment", "update:comment", "delete:comment",
          "manage:system"] :=
  ⟨List.reverse_perm _, rfl, fun _ => rfl, by decide, by decide, by decide, by decide,
    (default_seed { db := emptyDB } defaultPermissions.reverse (List.reverse_perm _) rfl
      (fun _ => rfl)).imp (fun _ h => ⟨h.1, h.2.1⟩)⟩

/-! ## Pagination -/

/-- The search finds the leading bit when the fuel is enough. -/
theorem floorLog2Aux_spec (fuel n : Nat) (h : n ≤ fuel) (hn : 0 < n) :
    2 ^ floorLog2Aux fuel n ≤ n ∧ n < 2 ^ (floorLog2Aux fuel n + 1) := by
  induction fuel generalizing n with
  | zero => omega
  | succ fuel ih =>
    unfold floorLog2Aux
    by_cases h2 : n < 2
    · rw [if_pos h2]
      simp only [pow_zero, zero_add, pow_one]
      omega
    · rw [if_neg h2]
      obtain ⟨h3, h4⟩ := ih (n / 2) (by omega) (by omega)
      simp only [pow_succ] at h4 ⊢
      generalize 2 ^ floorLog2Aux fuel (n / 2) = X at h3 h4 ⊢
      constructor <;> omega

/-- The leading bit of a positive number. -/
theorem floorLog2_spec (n : Nat) (hn : 0 < n) :
    2 ^ floorLog2 n ≤ n ∧ n < 2 ^ (floorLog2 n + 1) :=
  floorLog2Aux_spec n n (le_refl n) hn

/-- The scaled quotient at a negative exponent. -/
theorem scaledQuotient_neg (n d K : Nat) :
    scaledQuotient n d (-(K : Int)) = n * 2 ^ K / d := by
  unfold scaledQuotient
  simp

/-- The scaled quotient at an exponent that is not negative. -/
theorem scaledQuotient_pos (n d E : Nat) :
    scaledQuotient n d (E : Int) = n / (d * 2 ^ E) := by
  unfold scaledQuotient
  cases E with
  | zero => simp
  | succ E =>
    have : (-((E + 1 : Nat) : Int)).toNat = 0 := by
      rw [Int.toNat_eq_zero]; omega
    rw [this]
    simp

/-- The exponent `round53` picks leaves a mantissa of exactly 53 bits before rounding. -/
theorem exponentOf_spec (n d : Nat) (hn : 0 < n) (hd : 0 < d) :
    2 ^ 52 ≤ scaledQuotient n d (exponentOf n d) ∧
    scaledQuotient n d (exponentOf n d) < 2 ^ 53 := by
  obtain ⟨ha1, ha2⟩ := floorLog2_spec n hn
  obtain ⟨hb1, hb2⟩ := floorLog2_spec d hd
  unfold exponentOf
  generalize floorLog2 n = a at ha1 ha2 ⊢
  generalize floorLog2 d = b at hb1 hb2 ⊢
  simp only
  rw [pow_succ] at ha2 hb2
  rcases Nat.lt_trichotomy a (b + 52) with hlt | heq | hgt
  · -- the exponent is negative
    obtain ⟨K, hK⟩ : ∃ K, b + 52 = a + (K + 1) := ⟨b + 52 - a - 1, by omega⟩
    have he0 : ((a : Int) - b - 52) = -((K + 1 : Nat) : Int) := by push_cast; omega
    have he1 : -((K + 1 : Nat) : Int) - 1 = -((K + 2 : Nat) : Int) := by push_cast; omega
    rw [he0, he1, scaledQuotient_neg]
    have hpow : 2 ^ b * 2 ^ 52 = 2 ^ a * 2 ^ (K + 1) := by
      rw [← pow_add, ← pow_add, hK]
    have hK2 : (2 : Nat) ^ (K + 2) = 2 ^ (K + 1) * 2 := pow_succ 2 (K + 1)
    have hP : 0 < 2 ^ (K + 1) := Nat.pow_pos (by norm_num)
    have h1 : 2 ^ a * 2 ^ (K + 1) ≤ n * 2 ^ (K + 1) := Nat.mul_le_mul_right _ ha1
    have h2 : n * 2 ^ (K + 1) < 2 ^ a * 2 * 2 ^ (K + 1) := Nat.mul_lt_mul_of_pos_right ha2 hP
    have h3 : 2 ^ b * 2 ^ 52 ≤ d * 2 ^ 52 := Nat.mul_le_mul_right _ hb1
    have h4 : d * 2 ^ 52 < 2 ^ b * 2 * 2 ^ 52 := Nat.mul_lt_mul_of_pos_right hb2 (by norm_num)
    split
    · rename_i hs
      rw [Nat.div_lt_iff_lt_mul hd] at hs
      rw [scaledQuotient_neg, Nat.le_div_iff_mul_le hd, Nat.div_lt_iff_lt_mul hd, hK2]
      generalize 2 ^ (K + 1) = P at *
      generalize 2 ^ a = A at *
      generalize 2 ^ b = B at *
      constructor
      · nlinarith
      · nlinarith
    · rename_i hs
      rw [not_lt] at hs
      rw [scaledQuotient_neg]
      refine ⟨hs, ?_⟩
      rw [Nat.div_lt_iff_lt_mul hd]
      generalize 2 ^ (K + 1) = P at *
      generalize 2 ^ a = A at *
      generalize 2 ^ b = B at *
      nlinarith
  · -- the exponent is 0
    have he0 : ((a : Int) - b - 52) = ((0 : Nat) : Int) := by push_cast; omega
    have he1 : ((0 : Nat) : Int) - 1 = -((1 : Nat) : Int) := by norm_num
    rw [he0, he1, scaledQuotient_pos]
    have hpow : 2 ^ a = 2 ^ 52 * 2 ^ b := by rw [← pow_add, heq, Nat.add_comm]
    simp only [pow_zero, mul_one]
    split
    · rename_i hs
      rw [Nat.div_lt_iff_lt_mul hd] at hs
      rw [scaledQuotient_neg, Nat.le_div_iff_mul_le hd, Nat.div_lt_iff_lt_mul hd]
      generalize 2 ^ a = A at *
      generalize 2 ^ b = B at *
      constructor
      · omega
      · omega
    · rename_i hs
      rw [not_lt] at hs
      rw [scaledQuotient_pos]
      simp only [pow_zero, mul_one]
      refine ⟨hs, ?_⟩
      rw [Nat.div_lt_iff_lt_mul hd]
      generalize 2 ^ a = A at *
      generalize 2 ^ b = B at *
      omega
  · -- the exponent is positive
    obtain ⟨E, hE⟩ : ∃ E, a = b + 52 + (E + 1) := ⟨a - (b + 52) - 1, by omega⟩
    have he0 : ((a : Int) - b - 52) = ((E + 1 : Nat) : Int) := by push_cast; omega
    have he1 : ((E + 1 : Nat) : Int) - 1 = ((E : Nat) : Int) := by push_cast; omega
    rw [he0, he1, scaledQuotient_pos]
    have hpow : 2 ^ a = 2 ^ 53 * (2 ^ b * 2 ^ E) := by
      rw [hE, pow_add, pow_add, pow_succ 2 E]; ring
    have hP : 0 < 2 ^ E := Nat.pow_pos (by norm_num)
    have hdE : 0 < d * 2 ^ E := Nat.mul_pos hd hP
    have hdE1 : 0 < d * 2 ^ (E + 1) := Nat.mul_pos hd (Nat.pow_pos (by norm_num))
    have hd2 : d * 2 ^ (E + 1) = 2 * (d * 2 ^ E) := by rw [pow_succ]; ring
    have h3 : 2 ^ b * 2 ^ E ≤ d * 2 ^ E := Nat.mul_le_mul_right _ hb1
    have h4 : d * 2 ^ E < 2 * (2 ^ b * 2 ^ E) := by
      have := Nat.mul_lt_mul_of_pos_right hb2 hP
      rw [show 2 * (2 ^ b * 2 ^ E) = 2 ^ b * 2 * 2 ^ E by ring]
      exact this
    split
    · rename_i hs
      rw [Nat.div_lt_iff_lt_mul hdE1, hd2] at hs
      rw [scaledQuotient_pos, Nat.le_div_iff_mul_le hdE, Nat.div_lt_iff_lt_mul hdE]
      generalize d * 2 ^ E = u at *
      generalize 2 ^ b * 2 ^ E = v at *
      generalize 2 ^ a = A at *
      constructor
      · omega
      · omega
    · rename_i hs
      rw [not_lt] at hs
      rw [scaledQuotient_pos]
      refine ⟨hs, ?_⟩
      rw [Nat.div_lt_iff_lt_mul hdE1, hd2]
      generalize d * 2 ^ E = u at *
      generalize 2 ^ b * 2 ^ E = v at *
      generalize 2 ^ a = A at *
      omega


/-- A quotient of a numerator up to 2^53 whose last place is a unit or more is exact. -/
theorem round_up_exact (A B X : Nat) (hA : A ≤ 2 ^ 53) (hB : 0 < B) (hX : 0 < X)
    (hQ : 2 ^ 52 ≤ A / (B * X)) :
    A % (B * X) = 0 ∧ A / (B * X) * X = (A + B - 1) / B := by
  have hD : 0 < B * X := Nat.mul_pos hB hX
  rw [Nat.le_div_iff_mul_le hD] at hQ
  have hB1 : B ≤ B * X := Nat.le_mul_of_pos_right B hX
  have hX1 : X ≤ B * X := Nat.le_mul_of_pos_left X hB
  have hD2 : B * X ≤ 2 := by omega
  have hB2 : B ≤ 2 := by omega
  have hX2 : X ≤ 2 := by omega
  interval_cases B <;> interval_cases X <;> simp only [Nat.reduceMul] at * <;> omega

/-- Rounding a quotient of a numerator up to 2^53 to its nearest multiple of `1/P` does not
carry it across an integer: the ceiling of the rounded value is the ceiling of the quotient. -/
theorem ceil_of_rounded (A B P Q R m : Nat) (hA : A ≤ 2 ^ 53) (hB : 0 < B) (hP : 0 < P)
    (hdiv : A * P = B * Q + R) (hR : R < B) (hQ : 2 ^ 52 ≤ Q)
    (hm : m = if B < 2 * R ∨ (2 * R = B ∧ Q % 2 = 1) then Q + 1 else Q) :
    (m + P - 1) / P = (A + B - 1) / B := by
  have hq := Nat.div_add_mod A B
  have hr := Nat.mod_lt A hB
  generalize A / B = q at *
  generalize A % B = r at *
  -- A * P = B * (q * P) + r * P
  have hAP : A * P = B * (q * P) + r * P := by rw [← hq]; ring
  by_cases hr0 : r = 0
  · subst hr0
    simp only [zero_mul, add_zero] at hAP hq
    have hQq : Q = q * P := by
      have h1 : B * Q + R = B * (q * P) := by rw [← hdiv, hAP]
      have h2 : B * (q * P) ≤ B * Q + R := by omega
      have h3 : B * Q ≤ B * (q * P) := by omega
      have h4 : Q ≤ q * P := Nat.le_of_mul_le_mul_left h3 hB
      by_contra hne
      have h5 : Q + 1 ≤ q * P := by omega
      have h6 := Nat.mul_le_mul_left B h5
      rw [Nat.mul_add, Nat.mul_one] at h6
      omega
    have hR0 : R = 0 := by
      have h1 : B * Q + R = B * (q * P) := by rw [← hdiv, hAP]
      rw [hQq] at h1
      omega
    have hmQ : m = Q := by
      rw [hm, hR0]
      simp only [Nat.mul_zero, Nat.not_lt_zero, false_or]
      rw [if_neg]
      omega
    rw [hmQ, hQq]
    have e1 : (q * P + P - 1) / P = q := by
      apply Nat.div_eq_of_lt_le
      · rw [Nat.mul_comm]; omega
      · rw [Nat.succ_mul, Nat.mul_comm q P]; omega
    have e2 : (A + B - 1) / B = q := by
      apply Nat.div_eq_of_lt_le
      · rw [Nat.mul_comm]; omega
      · rw [Nat.succ_mul, Nat.mul_comm q B]; omega
    rw [e1, e2]
  · have hrpos : 0 < r := Nat.pos_of_ne_zero hr0
    have hrP : P ≤ r * P := Nat.le_mul_of_pos_left P hrpos
    have hrP2 : r * P < B * P := Nat.mul_lt_mul_of_pos_right hr hP
    -- q * P ≤ Q
    have ha : q * P ≤ Q := by
      by_contra hne
      have h5 : Q + 1 ≤ q * P := by omega
      have h6 := Nat.mul_le_mul_left B h5
      rw [Nat.mul_add, Nat.mul_one] at h6
      omega
    -- Q < (q + 1) * P
    have hb : Q < (q + 1) * P := by
      by_contra hne
      have h5 : (q + 1) * P ≤ Q := by omega
      have h6 := Nat.mul_le_mul_left B h5
      have h7 : B * ((q + 1) * P) = B * (q * P) + B * P := by ring
      omega
    have hmle : m ≤ Q + 1 := by rw [hm]; split <;> omega
    have hmge : Q ≤ m := by rw [hm]; split <;> omega
    have hmgt : q * P < m := by
      by_cases hQq : Q = q * P
      · -- the rounding goes up
        have hRr : R = r * P := by
          rw [hQq] at hdiv
          omega
        have hqpos : 0 < q := by
          rcases Nat.eq_zero_or_pos q with h0 | h0
          · rw [h0, Nat.zero_mul] at hQq; omega
          · exact h0
        have hBq : B * q < 2 ^ 53 := by omega
        have hB2P : B < 2 * P := by
          by_contra hne
          have h5 : 2 * P ≤ B := by omega
          have h6 := Nat.mul_le_mul_right q h5
          have h7 : 2 * P * q = 2 * (q * P) := by ring
          omega
        have hup : m = Q + 1 := by
          rw [hm, if_pos]
          left
          omega
        omega
      · omega
    have hq1 : (q + 1) * P = q * P + P := by ring
    have hq2 : (q + 1 + 1) * P = q * P + P + P := by ring
    have hB1 : (q + 1) * B = B * q + B := by ring
    have hB2 : (q + 1 + 1) * B = B * q + B + B := by ring
    have e1 : (m + P - 1) / P = q + 1 := by
      apply Nat.div_eq_of_lt_le
      · omega
      · omega
    have e2 : (A + B - 1) / B = q + 1 := by
      apply Nat.div_eq_of_lt_le
      · omega
      · omega
    rw [e1, e2]


/-- The ceiling of `A / B` is at most `A`. -/
theorem ceil_le_self (A B : Nat) (hB : 0 < B) : (A + B - 1) / B ≤ A := by
  rw [Nat.div_le_iff_le_mul_add_pred hB]
  have : A ≤ B * A := Nat.le_mul_of_pos_left A hB
  omega

/-- The page count read off the rounded quotient of a numerator up to 2^53. -/
theorem Ceil_round53 (A B : Nat) (hA0 : 0 < A) (hA : A ≤ 2 ^ 53) (hB : 0 < B) (o : Int) :
    (Ceil (.finite false (round53 A B).1 (round53 A B).2)).toInt o =
      (((A + B - 1) / B : Nat) : Int) := by
  obtain ⟨hQ, _⟩ := exponentOf_spec A B hA0 hB
  have hT := ceil_le_self A B hB
  unfold round53
  simp only
  generalize exponentOf A B = e at hQ ⊢
  cases e with
  | ofNat E =>
    rw [Int.ofNat_eq_coe] at hQ ⊢
    rw [scaledQuotient_pos] at hQ
    obtain ⟨h1, h2⟩ := round_up_exact A B (2 ^ E) hA hB (Nat.pow_pos (by norm_num)) hQ
    have hden : 0 < B * 2 ^ E := Nat.mul_pos hB (Nat.pow_pos (by norm_num))
    have hneg : (-(E : Int)).toNat = 0 := by rw [Int.toNat_eq_zero]; omega
    simp only [hneg, pow_zero, mul_one, Int.toNat_ofNat, h1, Nat.mul_zero, Nat.not_lt_zero,
      false_or]
    rw [if_neg (by omega)]
    simp only [Ceil, Int.natCast_nonneg, if_true, Float64.toInt, Int.toNat_ofNat, hneg, pow_zero,
      Nat.div_one, Bool.false_eq_true, if_false]
    rw [h2]
    clear h2
    generalize (A + B - 1) / B = T at hT ⊢
    rw [if_pos (by omega)]
  | negSucc K =>
    have he : Int.negSucc K = -((K + 1 : Nat) : Int) := rfl
    rw [he] at hQ ⊢
    rw [scaledQuotient_neg] at hQ
    have hP : 0 < 2 ^ (K + 1) := Nat.pow_pos (by norm_num)
    have hpos : (-((K + 1 : Nat) : Int)).toNat = 0 := by rw [Int.toNat_eq_zero]; omega
    have hneg : (- -((K + 1 : Nat) : Int)).toNat = K + 1 := by simp
    simp only [hpos, hneg, pow_zero, mul_one]
    have key := ceil_of_rounded A B (2 ^ (K + 1)) (A * 2 ^ (K + 1) / B) (A * 2 ^ (K + 1) % B) _
      hA hB hP (Nat.div_add_mod _ _).symm (Nat.mod_lt _ hB) hQ rfl
    have hlt : ¬ (0 : Int) ≤ -((K + 1 : Nat) : Int) := by omega
    simp only [Ceil, hlt, if_false, Bool.false_eq_true, hneg, Float64.toInt, Int.toNat_zero,
      pow_zero, mul_one, neg_zero, Nat.div_one]
    rw [key]
    clear key
    generalize (A + B - 1) / B = T at hT ⊢
    rw [if_pos (by omega)]

/-- The conversion of a positive integer: exact up to 2^53, and at least 2^53 beyond. -/
theorem ofInt_pos (A : Nat) (hA : 0 < A) :
    ∃ V, Float64.ofInt (A : Int) = .finite false V 0 ∧ 0 < V ∧
      (A ≤ 2 ^ 53 → V = A) ∧ (2 ^ 53 < A → 2 ^ 53 ≤ V) := by
  obtain ⟨hQ, _⟩ := exponentOf_spec A 1 hA Nat.one_pos
  have hne : (A : Int) ≠ 0 := by omega
  have hnn : ¬ (A : Int) < 0 := by omega
  unfold Float64.ofInt
  simp only [hne, if_false, Int.natAbs_ofNat, hnn, decide_False]
  refine ⟨_, rfl, ?_⟩
  unfold round53
  simp only
  generalize exponentOf A 1 = e at hQ ⊢
  cases e with
  | ofNat E =>
    rw [Int.ofNat_eq_coe] at hQ ⊢
    rw [scaledQuotient_pos] at hQ
    have hX : 0 < 2 ^ E := Nat.pow_pos (by norm_num)
    have hneg : (-(E : Int)).toNat = 0 := by rw [Int.toNat_eq_zero]; omega
    simp only [hneg, pow_zero, mul_one, Int.toNat_ofNat, Nat.div_one]
    have hm : A / (1 * 2 ^ E) ≤ (if 1 * 2 ^ E < 2 * (A % (1 * 2 ^ E)) ∨
        2 * (A % (1 * 2 ^ E)) = 1 * 2 ^ E ∧ A / (1 * 2 ^ E) % 2 = 1
        then A / (1 * 2 ^ E) + 1 else A / (1 * 2 ^ E)) := by
      split <;> omega
    have hV := Nat.mul_le_mul_right (2 ^ E) hm
    refine ⟨?_, ?_, ?_⟩
    · have : 0 < A / (1 * 2 ^ E) * 2 ^ E := Nat.mul_pos (by omega) hX
      omega
    · intro hA53
      obtain ⟨h1, h2⟩ := round_up_exact A 1 (2 ^ E) hA53 Nat.one_pos hX hQ
      simp only [h1, Nat.mul_zero, Nat.not_lt_zero, false_or]
      rw [if_neg (by omega), h2]
      simp
    · intro hA53
      rcases Nat.eq_zero_or_pos E with h0 | h0
      · subst h0
        simp only [pow_zero, mul_one, Nat.div_one] at hV ⊢
        omega
      · have h2 : 2 ≤ 2 ^ E := by
          calc 2 = 2 ^ 1 := by norm_num
            _ ≤ 2 ^ E := Nat.pow_le_pow_right (by norm_num) h0
        have h3 := Nat.mul_le_mul hQ h2
        omega
  | negSucc K =>
    have he : Int.negSucc K = -((K + 1 : Nat) : Int) := rfl
    rw [he]
    have hP : 0 < 2 ^ (K + 1) := Nat.pow_pos (by norm_num)
    have hpos : (-((K + 1 : Nat) : Int)).toNat = 0 := by rw [Int.toNat_eq_zero]; omega
    have hneg : (- -((K + 1 : Nat) : Int)).toNat = K + 1 := by simp
    simp only [hpos, hneg, pow_zero, mul_one, Nat.div_one, Nat.mod_one, Nat.mul_zero,
      Nat.lt_irrefl, false_or]
    rw [if_neg (by omega), Nat.mul_div_cancel _ hP]
    exact ⟨hA, fun _ => rfl, fun h => by omega⟩

/-- The page count of `CalculatePagination` for a total up to 2^53. -/
theorem totalPages_exact (o : Int) (A B : Nat) (hA : A ≤ 2 ^ 53) (hB : 0 < B) :
    (Ceil ((Float64.ofInt (A : Int)).div (Float64.ofInt (B : Int)))).toInt o =
      (((A + B - 1) / B : Nat) : Int) := by
  obtain ⟨V, hV, hVpos, hVsmall, hVlarge⟩ := ofInt_pos B hB
  have hVne : V ≠ 0 := by omega
  rw [hV]
  rcases Nat.eq_zero_or_pos A with h0 | h0
  · subst h0
    have hz : (0 + B - 1) / B = 0 := by
      apply Nat.div_eq_of_lt
      omega
    rw [hz]
    simp [Float64.ofInt, Float64.div, hVne, Ceil, Float64.toInt]
  · obtain ⟨W, hW, _, hWsmall, _⟩ := ofInt_pos A h0
    have hWA : W = A := hWsmall hA
    subst hWA
    rw [hW]
    have hdiv : (Float64.finite false W 0).div (Float64.finite false V 0) =
        .finite false (round53 W V).1 (round53 W V).2 := by
      have hWne : W ≠ 0 := by omega
      simp [Float64.div, hVne, hWne]
    rw [hdiv, Ceil_round53 W V h0 hA hVpos o]
    congr 1
    by_cases hB53 : B ≤ 2 ^ 53
    · rw [hVsmall hB53]
    · have h1 : 2 ^ 53 ≤ V := hVlarge (by omega)
      have e1 : (W + V - 1) / V = 1 := by
        apply Nat.div_eq_of_lt_le <;> omega
      have e2 : (W + B - 1) / B = 1 := by
        apply Nat.div_eq_of_lt_le <;> omega
      rw [e1, e2]

/-- The ceiling of a quotient of naturals, by integer division. -/
theorem ceil_div_nat (A B : Nat) (hB : 0 < B) :
    (⌈(A : ℚ) / (B : ℚ)⌉ : Int) = (((A + B - 1) / B : Nat) : Int) := by
  have hBq : (0 : ℚ) < (B : ℚ) := by exact_mod_cast hB
  have h1 := Nat.div_add_mod (A + B - 1) B
  have h2 := Nat.mod_lt (A + B - 1) hB
  generalize (A + B - 1) / B = T at *
  generalize (A + B - 1) % B = r at *
  have hi : A ≤ B * T := by omega
  have hii : B * T < A + B := by omega
  have hiq : (A : ℚ) ≤ (B : ℚ) * (T : ℚ) := by exact_mod_cast hi
  have hiiq : (B : ℚ) * (T : ℚ) < (A : ℚ) + (B : ℚ) := by exact_mod_cast hii
  rw [Int.ceil_eq_iff]
  push_cast
  constructor
  · rw [lt_div_iff₀ hBq]
    linarith
  · rw [div_le_iff₀ hBq]
    linarith

/-- C30 (`CalculatePagination`), amended.  For every input, `HasNext` is `page < TotalPages`,
`HasPrev` is `page > 1`, and `Page`, `PerPage` and `Total` are the arguments.  For every
page, every `perPage ≥ 1` and every total with `0 ≤ total ≤ 2^53`, `TotalPages` is the exact
integer ceiling of `total / perPage`, so that `HasNext` is true iff `page` is below that
ceiling. -/
theorem CalculatePagination_spec (outOfRange page perPage total : Int) :
    (CalculatePagination outOfRange page perPage total).HasNext =
      decide (page < (CalculatePagination outOfRange page perPage total).TotalPages) ∧
    (CalculatePagination outOfRange page perPage total).HasPrev = decide (page > 1) ∧
    (CalculatePagination outOfRange page perPage total).Page = page ∧
    (CalculatePagination outOfRange page perPage total).PerPage = perPage ∧
    (CalculatePagination outOfRange page perPage total).Total = total ∧
    (1 ≤ perPage → 0 ≤ total → total ≤ 2 ^ 53 →
      (CalculatePagination outOfRange page perPage total).TotalPages =
        ⌈(total : ℚ) / (perPage : ℚ)⌉ ∧
      (CalculatePagination outOfRange page perPage total).TotalPages =
        (total + perPage - 1) / perPage ∧
      (CalculatePagination outOfRange page perPage total).HasNext =
        decide (page < ⌈(total : ℚ) / (perPage : ℚ)⌉)) := by
  refine ⟨rfl, rfl, rfl, rfl, rfl, ?_⟩
  intro hp h0 ht
  lift total to ℕ using h0 with A
  lift perPage to ℕ using (by omega) with B
  have hB : 0 < B := by omega
  have hA : A ≤ 2 ^ 53 := by exact_mod_cast ht
  have hC := ceil_div_nat A B hB
  have hT1 : (CalculatePagination outOfRange page (B : Int) (A : Int)).TotalPages =
      (((A + B - 1) / B : Nat) : Int) := totalPages_exact outOfRange A B hA hB
  have hD : (((A + B - 1) / B : Nat) : Int) = ((A : Int) + (B : Int) - 1) / (B : Int) := by
    rw [Int.natCast_div]
    congr 1
    omega
  refine ⟨?_, ?_, ?_⟩
  · rw [hT1, Int.cast_natCast, Int.cast_natCast]
    exact hC.symm
  · rw [hT1, hD]
  · have hN : (CalculatePagination outOfRange page (B : Int) (A : Int)).HasNext =
        decide (page < (CalculatePagination outOfRange page (B : Int) (A : Int)).TotalPages) :=
      rfl
    rw [hN, hT1, Int.cast_natCast, Int.cast_natCast, hC]

/-- Page 3 of 95 items, 10 to the page: 10 pages, with a next and a previous page. -/
theorem CalculatePagination_spec_witness :
    (1 : Int) ≤ 10 ∧ (0 : Int) ≤ 95 ∧ (95 : Int) ≤ 2 ^ 53 ∧
    (CalculatePagination 0 3 10 95).TotalPages = ⌈((95 : Int) : ℚ) / ((10 : Int) : ℚ)⌉ ∧
    CalculatePagination 0 3 10 95 =
      { Page := 3, PerPage := 10, Total := 95, TotalPages := 10, HasNext := true,
        HasPrev := true } :=
  ⟨by decide, by decide, by decide,
    ((CalculatePagination_spec 0 3 10 95).2.2.2.2.2 (by decide) (by decide) (by decide)).1,
    by decide⟩

/-- C30 as stated fails.  For `total = 2^53 + 1` and `perPage = 1` the conversion to float64
rounds the total to `2^53`, and `TotalPages` is `2^53`, one less than the exact ceiling
`2^53 + 1`; on page `2^53` `HasNext` is false although the page is below the ceiling. -/
theorem CalculatePagination_counterexample :
    (CalculatePagination 0 9007199254740992 1 9007199254740993).TotalPages =
      9007199254740992 ∧
    ⌈((9007199254740993 : Int) : ℚ) / ((1 : Int) : ℚ)⌉ = 9007199254740993 ∧
    ((9007199254740993 : Int) + 1 - 1) / 1 = 9007199254740993 ∧
    (CalculatePagination 0 9007199254740992 1 9007199254740993).HasNext = false ∧
    decide ((9007199254740992 : Int) < 9007199254740993) = true ∧
    Float64.ofInt 9007199254740993 = .finite false 9007199254740992 0 := by
  refine ⟨by decide, ?_, by decide, by decide, by decide, by decide⟩
  rw [Int.cast_one, div_one, Int.ceil_intCast]

/-- The model gives the float64 nearest to one third and to one tenth, and the page counts of
small cases; a total beyond the range of `int` after rounding, and a page size of 0, give
the value the implementation chooses. -/
theorem CalculatePagination_examples :
    round53 1 3 = (6004799503160661, -54) ∧
    round53 1 10 = (7205759403792794, -56) ∧
    (CalculatePagination 0 1 3 10).TotalPages = 4 ∧
    (CalculatePagination 0 1 5 0).TotalPages = 0 ∧
    (CalculatePagination 0 1 9007199254740993 9007199254740992).TotalPages = 1 ∧
    (CalculatePagination (-5) 1 1 9223372036854775807).TotalPages = -5 ∧
    (CalculatePagination (-5) 1 0 7).TotalPages = -5 := by
  refine ⟨by decide, by decide, by decide, by decide, by decide, by decide, by decide⟩

/-! ## Retry-after -/

/-- What `round53` returns: a mantissa of 53 bits, the whole part of the scaled quotient or
one more, at most half a unit of the last place away from the scaled quotient. -/
theorem round53_near (n d : Nat) (hn : 0 < n) (hd : 0 < d) :
    2 ^ 52 ≤ (round53 n d).1 ∧ (round53 n d).1 ≤ 2 ^ 53 ∧
    2 ^ 52 ≤ n * 2 ^ (-(round53 n d).2).toNat / (d * 2 ^ (round53 n d).2.toNat) ∧
    n * 2 ^ (-(round53 n d).2).toNat / (d * 2 ^ (round53 n d).2.toNat) < 2 ^ 53 ∧
    n * 2 ^ (-(round53 n d).2).toNat / (d * 2 ^ (round53 n d).2.toNat) ≤ (round53 n d).1 ∧
    2 * ((round53 n d).1 * (d * 2 ^ (round53 n d).2.toNat)) ≤
      2 * (n * 2 ^ (-(round53 n d).2).toNat) + d * 2 ^ (round53 n d).2.toNat := by
  obtain ⟨hQ1, hQ2⟩ := exponentOf_spec n d hn hd
  unfold scaledQuotient at hQ1 hQ2
  unfold round53
  simp only
  generalize exponentOf n d = e at hQ1 hQ2 ⊢
  have hden : 0 < d * 2 ^ e.toNat := Nat.mul_pos hd (Nat.pow_pos (by norm_num))
  generalize d * 2 ^ e.toNat = den at hQ1 hQ2 hden ⊢
  generalize n * 2 ^ (-e).toNat = num at hQ1 hQ2 ⊢
  have h1 := Nat.div_add_mod num den
  have h2 := Nat.mod_lt num hden
  generalize num / den = Q at *
  generalize num % den = R at *
  have h3 : (Q + 1) * den = den * Q + den := by ring
  have h4 : Q * den = den * Q := by ring
  split
  · rename_i hc
    refine ⟨by omega, by omega, hQ1, hQ2, by omega, ?_⟩
    rw [h3]
    rcases hc with hc | hc <;> omega
  · refine ⟨hQ1, by omega, hQ1, hQ2, le_refl _, ?_⟩
    rw [h4]
    omega

/-- The quotient of a positive integer below 2^53 by 1e9. -/
theorem div_by_billion (neg : Bool) (r : Nat) (hr : 0 < r) :
    (Float64.finite neg r 0).div (.finite false 1000000000 0) =
      .finite neg (round53 r 1000000000).1 (round53 r 1000000000).2 := by
  have hr0 : r ≠ 0 := by omega
  simp [Float64.div, hr0]

/-- The sum of an integer and a fraction of the same sign. -/
theorem add_same_sign (sg neg : Bool) (s mq K : Nat) (hs : s = 0 ∨ sg = neg) (hmq : 0 < mq) :
    (Float64.finite sg s 0).add (.finite neg mq (-((K + 1 : Nat) : Int))) =
      .finite neg (round53 (s * 2 ^ (K + 1) + mq) 1).1
        ((round53 (s * 2 ^ (K + 1) + mq) 1).2 + -((K + 1 : Nat) : Int)) := by
  have hmin : min (0 : Int) (-((K + 1 : Nat) : Int)) = -((K + 1 : Nat) : Int) := by
    apply min_eq_right; omega
  have h1 : ((0 : Int) - -((K + 1 : Nat) : Int)).toNat = K + 1 := by simp
  have h2 : (-((K + 1 : Nat) : Int) - -((K + 1 : Nat) : Int)).toNat = 0 := by simp
  unfold Float64.add
  simp only [hmin, h1, h2, pow_zero, mul_one]
  have hP : 0 < 2 ^ (K + 1) := Nat.pow_pos (by norm_num)
  have hsum : (if sg = true then -((s * 2 ^ (K + 1) : Nat) : Int) else ((s * 2 ^ (K + 1) : Nat) : Int)) +
      (if neg = true then -((mq : Nat) : Int) else ((mq : Nat) : Int)) =
      if neg = true then -((s * 2 ^ (K + 1) + mq : Nat) : Int)
      else ((s * 2 ^ (K + 1) + mq : Nat) : Int) := by
    rcases hs with h0 | h0
    · subst h0
      cases sg <;> cases neg <;> simp
    · subst h0
      cases sg <;> simp
      omega
  rw [hsum]
  cases neg
  · have hne : ((s * 2 ^ (K + 1) + mq : Nat) : Int) ≠ 0 := by omega
    have hnn : ¬ ((s * 2 ^ (K + 1) + mq : Nat) : Int) < 0 := by omega
    simp only [Bool.false_eq_true, if_false, hne, Int.natAbs_ofNat, hnn, decide_False]
  · have hne : -((s * 2 ^ (K + 1) + mq : Nat) : Int) ≠ 0 := by omega
    have hnn : -((s * 2 ^ (K + 1) + mq : Nat) : Int) < 0 := by omega
    simp only [if_true, hne, if_false, Int.natAbs_neg, Int.natAbs_ofNat, hnn, decide_True]

/-- The whole part of `sec + nsec/1e9` in float64 for a fraction that is not 0: `sec` or one
more, and `sec` itself below 2^24. -/
theorem seconds_fraction (neg sg : Bool) (s r : Nat) (hr0 : 0 < r) (hr : r < 1000000000)
    (hs : s < 2 ^ 34) (hsg : s = 0 ∨ sg = neg) :
    ∃ M : Nat,
      (∀ o : Int, ((Float64.finite sg s 0).add
        ((Float64.finite neg r 0).div (.finite false 1000000000 0))).toInt o =
        (if neg then -(M : Int) else (M : Int))) ∧
      s ≤ M ∧ M ≤ s + 1 ∧ (s < 2 ^ 24 → M = s) := by
  rw [div_by_billion neg r hr0]
  obtain ⟨hq1, hq2, hq3, _, _, hq5⟩ := round53_near r 1000000000 hr0 (by norm_num)
  generalize (round53 r 1000000000).1 = mq at *
  generalize (round53 r 1000000000).2 = eq at *
  -- the exponent of the fraction is negative, below -52
  cases eq with
  | ofNat E =>
    exfalso
    rw [Int.ofNat_eq_coe] at hq3
    have hneg : (-(E : Int)).toNat = 0 := by rw [Int.toNat_eq_zero]; omega
    simp only [hneg, pow_zero, mul_one, Int.toNat_ofNat] at hq3
    have hX : 0 < 2 ^ E := Nat.pow_pos (by norm_num)
    have h1 : 1000000000 ≤ 1000000000 * 2 ^ E := Nat.le_mul_of_pos_right _ hX
    have h2 : r / (1000000000 * 2 ^ E) = 0 := Nat.div_eq_of_lt (by omega)
    omega
  | negSucc K =>
    have he : Int.negSucc K = -((K + 1 : Nat) : Int) := rfl
    rw [he] at hq3 hq5 ⊢
    have hpos : (-((K + 1 : Nat) : Int)).toNat = 0 := by rw [Int.toNat_eq_zero]; omega
    have hneg : (- -((K + 1 : Nat) : Int)).toNat = K + 1 := by simp
    simp only [hpos, hneg, pow_zero, mul_one] at hq3 hq5
    rw [Nat.le_div_iff_mul_le (by norm_num)] at hq3
    have hmq0 : 0 < mq := by omega
    rw [add_same_sign sg neg s mq K hsg hmq0]
    -- P = 2^Kq with Kq ≥ 53
    have hK : 53 ≤ K + 1 := by
      by_contra hlt
      have h1 : 2 ^ (K + 1) ≤ 2 ^ 52 := Nat.pow_le_pow_right (by norm_num) (by omega)
      have h2 := Nat.mul_le_mul_left r h1
      have h3 : r * 2 ^ 52 ≤ 999999999 * 2 ^ 52 := Nat.mul_le_mul_right _ (by omega)
      omega
    have hP53 : 2 ^ 53 ≤ 2 ^ (K + 1) := Nat.pow_le_pow_right (by norm_num) hK
    have hrP : r * 2 ^ (K + 1) ≤ 999999999 * 2 ^ (K + 1) := Nat.mul_le_mul_right _ (by omega)
    have hA : 2 * (mq * 1000000000) + 2 * 2 ^ (K + 1) ≤
        2 * (1000000000 * 2 ^ (K + 1)) + 1000000000 := by omega
    have hmqP : mq < 2 ^ (K + 1) := by omega
    -- the rounding of the sum
    have hS0 : 0 < s * 2 ^ (K + 1) + mq := by omega
    obtain ⟨_, hm2, hQ1, hQ2, hm3, hnear⟩ := round53_near (s * 2 ^ (K + 1) + mq) 1 hS0 Nat.one_pos
    generalize (round53 (s * 2 ^ (K + 1) + mq) 1).1 = m at *
    generalize (round53 (s * 2 ^ (K + 1) + mq) 1).2 = e at *
    have hsP : s * 2 ^ (K + 1) < 2 ^ 34 * 2 ^ (K + 1) :=
      Nat.mul_lt_mul_of_pos_right hs (Nat.pow_pos (by norm_num))
    cases e with
    | negSucc k =>
      exfalso
      have he2 : Int.negSucc k = -((k + 1 : Nat) : Int) := rfl
      rw [he2] at hQ2
      have hpos2 : (-((k + 1 : Nat) : Int)).toNat = 0 := by rw [Int.toNat_eq_zero]; omega
      have hneg2 : (- -((k + 1 : Nat) : Int)).toNat = k + 1 := by simp
      simp only [hpos2, hneg2, pow_zero, mul_one, Nat.div_one] at hQ2
      have h2 : 2 ≤ 2 ^ (k + 1) := by
        calc 2 = 2 ^ 1 := by norm_num
          _ ≤ 2 ^ (k + 1) := Nat.pow_le_pow_right (by norm_num) (by omega)
      have h3 := Nat.mul_le_mul (show 2 ^ 52 ≤ s * 2 ^ (K + 1) + mq by omega) h2
      omega
    | ofNat E =>
      rw [Int.ofNat_eq_coe] at hQ1 hm3 hnear ⊢
      have hneg2 : (-(E : Int)).toNat = 0 := by rw [Int.toNat_eq_zero]; omega
      simp only [hneg2, pow_zero, mul_one, Int.toNat_ofNat, one_mul] at hQ1 hm3 hnear
      have hX : 0 < 2 ^ E := Nat.pow_pos (by norm_num)
      rw [Nat.le_div_iff_mul_le hX] at hQ1
      -- E < Kq
      have hEK : E < K + 1 := by
        by_contra hge
        have h1 : 2 ^ (K + 1) ≤ 2 ^ E := Nat.pow_le_pow_right (by norm_num) (by omega)
        omega
      obtain ⟨J, hJ⟩ : ∃ J, K + 1 = E + (J + 1) := ⟨K - E, by omega⟩
      have hPXY : 2 ^ (K + 1) = 2 ^ E * 2 ^ (J + 1) := by rw [hJ, pow_add]
      have hY : 0 < 2 ^ (J + 1) := Nat.pow_pos (by norm_num)
      have hEneg : ((E : Int) + -((K + 1 : Nat) : Int)).toNat = 0 := by
        rw [Int.toNat_eq_zero]; omega
      have hEpos : (-((E : Int) + -((K + 1 : Nat) : Int))).toNat = J + 1 := by
        rw [hJ]; push_cast; omega
      have hsYX : s * 2 ^ (J + 1) * 2 ^ E = s * 2 ^ (K + 1) := by rw [hPXY]; ring
      have hlo : s * 2 ^ (J + 1) ≤ m := by
        refine le_trans ?_ hm3
        rw [Nat.le_div_iff_mul_le hX, hsYX]
        omega
      have hup : m ≤ (s + 1) * 2 ^ (J + 1) := by
        by_contra hgt
        have h1 : (s + 1) * 2 ^ (J + 1) + 1 ≤ m := by omega
        have h2 := Nat.mul_le_mul_right (2 ^ E) h1
        have h3 : ((s + 1) * 2 ^ (J + 1) + 1) * 2 ^ E =
            s * 2 ^ (K + 1) + 2 ^ (K + 1) + 2 ^ E := by rw [hPXY]; ring
        omega
      have hM1 : s ≤ m / 2 ^ (J + 1) := by
        rw [Nat.le_div_iff_mul_le hY]; exact hlo
      have hM2 : m / 2 ^ (J + 1) ≤ s + 1 := by
        have h1 : m / 2 ^ (J + 1) < s + 2 := by
          rw [Nat.div_lt_iff_lt_mul hY]
          have h2 : (s + 2) * 2 ^ (J + 1) = (s + 1) * 2 ^ (J + 1) + 2 ^ (J + 1) := by ring
          omega
        omega
      refine ⟨m / 2 ^ (J + 1), fun o => ?_, hM1, hM2, ?_⟩
      · unfold Float64.toInt
        simp only [hEneg, hEpos, pow_zero, mul_one]
        generalize m / 2 ^ (J + 1) = M at hM1 hM2 ⊢
        cases neg
        · simp only [Bool.false_eq_true, if_false]
          rw [if_pos (by omega)]
        · simp only [if_true]
          rw [if_pos (by omega)]
      · intro hs24
        apply Nat.div_eq_of_lt_le hlo
        by_contra hge
        have h1 : (s + 1) * 2 ^ (J + 1) ≤ m := by omega
        have h2 := Nat.mul_le_mul_right (2 ^ E) h1
        have h3 : (s + 1) * 2 ^ (J + 1) * 2 ^ E = s * 2 ^ (K + 1) + 2 ^ (K + 1) := by
          rw [hPXY]; ring
        have hEK29 : E + 29 ≤ K + 1 := by
          by_contra hlt
          have h4 : 2 ^ (K + 1) ≤ 2 ^ (E + 28) := Nat.pow_le_pow_right (by norm_num) (by omega)
          rw [pow_add 2 E 28] at h4
          have h5 : (s + 1) * 2 ^ (K + 1) ≤ 2 ^ 24 * 2 ^ (K + 1) :=
            Nat.mul_le_mul_right _ (by omega)
          have h6 : (s + 1) * 2 ^ (K + 1) = s * 2 ^ (K + 1) + 2 ^ (K + 1) := by ring
          omega
        have h29 : 2 ^ 29 * 2 ^ E ≤ 2 ^ (K + 1) := by
          have h4 : 2 ^ (E + 29) ≤ 2 ^ (K + 1) := Nat.pow_le_pow_right (by norm_num) hEK29
          rw [pow_add 2 E 29] at h4
          omega
        generalize 2 ^ (K + 1) = P at *
        generalize 2 ^ E = X at *
        generalize s * P = sP at *
        generalize m * X = mX at *
        omega

/-- The conversion of an integer of magnitude up to 2^53 is exact. -/
theorem ofInt_small (A : Nat) (hA : A ≤ 2 ^ 53) (neg : Bool) :
    Float64.ofInt (if neg then -(A : Int) else (A : Int)) =
      if A = 0 then .finite false 0 0 else .finite neg A 0 := by
  rcases Nat.eq_zero_or_pos A with h0 | h0
  · subst h0
    cases neg <;> simp [Float64.ofInt]
  · obtain ⟨V, hV, _, hVA, _⟩ := ofInt_pos A h0
    have hne : A ≠ 0 := by omega
    rw [hVA hA] at hV
    have hne1 : (A : Int) ≠ 0 := by omega
    have hnn : ¬ (A : Int) < 0 := by omega
    unfold Float64.ofInt at hV
    simp only [hne1, if_false, Int.natAbs_ofNat, hnn, decide_False, Float64.finite.injEq,
      true_and, and_true] at hV
    cases neg
    · simp only [Bool.false_eq_true, if_false, hne]
      unfold Float64.ofInt
      simp only [hne1, if_false, Int.natAbs_ofNat, hnn, decide_False, Float64.finite.injEq,
        true_and, and_true]
      exact hV
    · simp only [if_true, hne, if_false]
      have hne2 : -(A : Int) ≠ 0 := by omega
      have hlt : -(A : Int) < 0 := by omega
      unfold Float64.ofInt
      simp only [hne2, if_false, Int.natAbs_neg, Int.natAbs_ofNat, hlt, decide_True,
        Float64.finite.injEq, true_and, and_true]
      exact hV

/-- The whole part of `float64(sec) + float64(nsec)/1e9`: `sec` or one more in magnitude, and
`sec` itself below 2^24, whatever the implementation does out of range. -/
theorem seconds_whole (neg : Bool) (s r : Nat) (hr : r < 1000000000) (hs : s < 2 ^ 34) :
    ∃ M : Nat,
      (∀ o : Int, ((Float64.ofInt (if neg then -(s : Int) else (s : Int))).add
        ((Float64.ofInt (if neg then -(r : Int) else (r : Int))).div
          (Float64.ofInt 1000000000))).toInt o =
        (if neg then -(M : Int) else (M : Int))) ∧
      s ≤ M ∧ M ≤ s + 1 ∧ (s < 2 ^ 24 → M = s) := by
  have hb : Float64.ofInt 1000000000 = .finite false 1000000000 0 := by decide
  rw [hb, ofInt_small s (by omega) neg, ofInt_small r (by omega) neg]
  rcases Nat.eq_zero_or_pos r with hr0 | hr0
  · subst hr0
    simp only [if_true]
    have hz : (Float64.finite false 0 0).div (.finite false 1000000000 0) =
        .finite false 0 0 := by decide
    rw [hz]
    rcases Nat.eq_zero_or_pos s with hs0 | hs0
    · subst hs0
      refine ⟨0, fun o => ?_, le_refl _, by omega, fun _ => rfl⟩
      simp only [if_true]
      cases neg <;> simp [Float64.add, Float64.toInt]
    · have hsne : s ≠ 0 := by omega
      simp only [hsne, if_false]
      obtain ⟨V, hV, _, hVA, _⟩ := ofInt_pos s hs0
      rw [hVA (by omega)] at hV
      have hne1 : (s : Int) ≠ 0 := by omega
      have hnn : ¬ (s : Int) < 0 := by omega
      unfold Float64.ofInt at hV
      simp only [hne1, if_false, Int.natAbs_ofNat, hnn, decide_False, Float64.finite.injEq,
        true_and, and_true] at hV
      refine ⟨s, fun o => ?_, le_refl _, by omega, fun _ => rfl⟩
      unfold Float64.add
      simp only [min_self, sub_self, Int.toNat_zero, pow_zero, mul_one, Nat.cast_zero,
        Bool.false_eq_true, if_false, add_zero]
      cases neg
      · simp only [Bool.false_eq_true, if_false, hne1, Int.natAbs_ofNat, hnn, decide_False,
          Float64.toInt]
        rw [hV]
        rw [if_pos (by omega)]
      · have hne2 : -(s : Int) ≠ 0 := by omega
        have hlt : -(s : Int) < 0 := by omega
        simp only [if_true, hne2, if_false, Int.natAbs_neg, Int.natAbs_ofNat, hlt, decide_True,
          Float64.toInt]
        rw [hV]
        rw [if_pos (by omega)]
  · have hrne : r ≠ 0 := by omega
    simp only [hrne, if_false]
    rcases Nat.eq_zero_or_pos s with hs0 | hs0
    · subst hs0
      simp only [if_true]
      exact seconds_fraction neg false 0 r hr0 hr hs (Or.inl rfl)
    · have hsne : s ≠ 0 := by omega
      simp only [hsne, if_false]
      exact seconds_fraction neg neg s r hr0 hr hs (Or.inr rfl)

/-- The remainder of Go changes sign with the dividend. -/
theorem tmod_neg_left (a b : Int) : (-a).tmod b = -(a.tmod b) := by
  rw [Int.tmod_def, Int.tmod_def, Int.neg_tdiv]
  ring

/-- The whole seconds of a duration: its seconds or one more in magnitude, with its sign. -/
theorem wholeSeconds_cases (d : Int) (hlo : minDuration ≤ d) (hhi : d ≤ maxDuration) :
    ∃ M : Nat,
      (∀ o : Int, (Seconds d).toInt o = (if d < 0 then -(M : Int) else (M : Int))) ∧
      d.natAbs / 1000000000 ≤ M ∧ M ≤ d.natAbs / 1000000000 + 1 ∧
      (d.natAbs / 1000000000 < 2 ^ 24 → M = d.natAbs / 1000000000) := by
  unfold minDuration at hlo
  unfold maxDuration at hhi
  have hS : Second = ((1000000000 : Nat) : Int) := rfl
  have hr : d.natAbs % 1000000000 < 1000000000 := Nat.mod_lt _ (by norm_num)
  have hs : d.natAbs / 1000000000 < 2 ^ 34 := by
    rw [Nat.div_lt_iff_lt_mul (by norm_num)]
    omega
  obtain ⟨M, hM, h1, h2, h3⟩ :=
    seconds_whole (decide (d < 0)) (d.natAbs / 1000000000) (d.natAbs % 1000000000) hr hs
  refine ⟨M, fun o => ?_, h1, h2, h3⟩
  have ho := hM o
  unfold Seconds
  simp only
  by_cases hd : d < 0
  · simp only [hd, decide_True, if_true] at ho ⊢
    have hdn : d = -((d.natAbs : Nat) : Int) := by omega
    have e1 : d.tdiv Second = -(((d.natAbs / 1000000000 : Nat)) : Int) := by
      rw [hS]
      conv_lhs => rw [hdn]
      rw [Int.neg_tdiv, Int.tdiv_eq_ediv (by omega) (by omega), Int.natCast_div]
    have e2 : d.tmod Second = -(((d.natAbs % 1000000000 : Nat)) : Int) := by
      rw [hS]
      conv_lhs => rw [hdn]
      rw [tmod_neg_left, Int.tmod_eq_emod (by omega) (by omega), Int.natCast_mod]
    rw [e1, e2]
    exact ho
  · simp only [hd, decide_False, Bool.false_eq_true, if_false] at ho ⊢
    have hdn : d = ((d.natAbs : Nat) : Int) := by omega
    have e1 : d.tdiv Second = (((d.natAbs / 1000000000 : Nat)) : Int) := by
      rw [hS]
      conv_lhs => rw [hdn]
      rw [Int.tdiv_eq_ediv (by omega) (by omega), Int.natCast_div]
    have e2 : d.tmod Second = (((d.natAbs % 1000000000 : Nat)) : Int) := by
      rw [hS]
      conv_lhs => rw [hdn]
      rw [Int.tmod_eq_emod (by omega) (by omega), Int.natCast_mod]
    rw [e1, e2]
    exact ho

/-- Below 2^24 seconds the whole seconds of a span are its seconds, truncated toward zero. -/
theorem wholeSeconds_exact (d : Int) (h1 : -(2 ^ 24 * Second) < d) (h2 : d < 2 ^ 24 * Second) :
    wholeSeconds d = d.tdiv Second ∧ ∀ o : Int, (Seconds d).toInt o = d.tdiv Second := by
  have hS : Second = 1000000000 := rfl
  rw [hS] at h1 h2
  obtain ⟨M, hM, _, _, h3⟩ := wholeSeconds_cases d (by unfold minDuration; omega)
    (by unfold maxDuration; omega)
  have hs : d.natAbs / 1000000000 < 2 ^ 24 := by
    rw [Nat.div_lt_iff_lt_mul (by norm_num)]
    omega
  have hMs := h3 hs
  have key : (if d < 0 then -(M : Int) else (M : Int)) = d.tdiv Second := by
    rw [hMs, hS]
    by_cases hd : d < 0
    · rw [if_pos hd]
      have hdn : d = -((d.natAbs : Nat) : Int) := by omega
      conv_rhs => rw [hdn]
      rw [Int.neg_tdiv, Int.tdiv_eq_ediv (by omega) (by omega), Int.natCast_div]
      rfl
    · rw [if_neg hd]
      have hdn : d = ((d.natAbs : Nat) : Int) := by omega
      conv_rhs => rw [hdn]
      rw [Int.tdiv_eq_ediv (by omega) (by omega), Int.natCast_div]
      rfl
  refine ⟨?_, fun o => ?_⟩
  · unfold wholeSeconds
    rw [hM 0, key]
  · rw [hM o, key]

/-- What `time.Until` returns: a duration, the span itself when it is one, of the sign of the
span. -/
theorem Until_spec (t now : Int) :
    minDuration ≤ Until t now ∧ Until t now ≤ maxDuration ∧
    (minDuration ≤ t - now → t - now ≤ maxDuration → Until t now = t - now) ∧
    (t - now ≤ -Second → Until t now ≤ -Second) ∧
    (0 ≤ t - now → 0 ≤ Until t now) := by
  unfold Until minDuration maxDuration Second
  refine ⟨?_, ?_, ?_, ?_, ?_⟩
  · split_ifs <;> omega
  · split_ifs <;> omega
  · intro h1 h2; split_ifs <;> omega
  · intro h1; split_ifs <;> omega
  · intro h1; split_ifs <;> omega

/-- Less than a second past the reset time and less than 2^24 seconds before it, the whole
seconds are `max(0, reset_at - now)` in whole seconds. -/
theorem wholeSeconds_eq_max (d : Int) (h : -Second < d) (h2 : d < 2 ^ 24 * Second) :
    wholeSeconds d = max 0 (d / Second) := by
  have hS : (0 : Int) ≤ Second := by decide
  rw [(wholeSeconds_exact d (by unfold Second at h ⊢; omega) h2).1]
  by_cases hd : 0 ≤ d
  · rw [Int.tdiv_eq_ediv hd hS]
    have : 0 ≤ d / Second := Int.ediv_nonneg hd hS
    omega
  · have h1 : (-d).tdiv Second = 0 := Int.tdiv_eq_zero_of_lt (by omega) (by omega)
    have h2 : d.tdiv Second = -((-d).tdiv Second) := by rw [Int.neg_tdiv, neg_neg]
    rw [h2, h1]
    have h3 : d / Second < 0 := Int.ediv_neg' (by omega) (by decide)
    omega

/-- A second or more past the reset time the whole seconds are negative. -/
theorem wholeSeconds_neg (d : Int) (hlo : minDuration ≤ d) (h : d ≤ -Second) :
    wholeSeconds d < 0 := by
  have hS : Second = 1000000000 := rfl
  rw [hS] at h
  obtain ⟨M, hM, h1, _, _⟩ := wholeSeconds_cases d hlo (by unfold maxDuration; omega)
  unfold wholeSeconds
  rw [hM 0, if_pos (by omega)]
  have h2 : 1 ≤ d.natAbs / 1000000000 := by
    rw [Nat.le_div_iff_mul_le (by norm_num)]
    omega
  omega

/-- The whole seconds of a span that is not negative: its seconds or one more. -/
theorem wholeSeconds_nonneg (d : Int) (h0 : 0 ≤ d) (hhi : d ≤ maxDuration) :
    0 ≤ wholeSeconds d ∧ d / Second ≤ wholeSeconds d ∧ wholeSeconds d ≤ d / Second + 1 := by
  have hS : Second = ((1000000000 : Nat) : Int) := rfl
  obtain ⟨M, hM, h1, h2, _⟩ := wholeSeconds_cases d (by unfold minDuration; omega) hhi
  unfold wholeSeconds
  rw [hM 0, if_neg (by omega)]
  have hdn : d = ((d.natAbs : Nat) : Int) := by omega
  have e1 : d / Second = (((d.natAbs / 1000000000 : Nat)) : Int) := by
    rw [hS]
    conv_lhs => rw [hdn]
    rw [Int.natCast_div]
  rw [e1]
  omega

/-- C20 (retry-after), amended.  On every denial by `RateLimitMiddleware`,
`IPRateLimitMiddleware` and the principal branch of `UserRateLimitMiddleware` the status
is 429 and `retry_after` is `int(time.Until(reset_at).Seconds())`, where `reset_at` is
`GetResetTime` read after the check and `time.Until` reads the clock for the body.  When the
reading is less than 2^24 seconds away from `reset_at`, that number is `reset_at - now` in
whole seconds, truncated toward zero, and it is `max(0, reset_at - now)` in whole seconds
when, besides, the reading is less than a second past `reset_at`.  It is negative whenever
the reading is a second or more past `reset_at`; whenever the reading is not past
`reset_at`, it is the whole seconds of the span or one more, and so not negative, in
particular when the readings of the check, of `GetResetTime` and of the body coincide. -/
theorem retry_after_spec (rl : RateLimiter) (nowAllowed nowRemaining nowReset nowUntil : Int)
    (c : Context) :
    ((rl.IsAllowed nowAllowed (getClientID c)).1 = false →
      (RateLimitMiddleware rl nowAllowed nowRemaining nowReset nowUntil c).1.status = some 429 ∧
      (RateLimitMiddleware rl nowAllowed nowRemaining nowReset nowUntil c).1.bodyField
          "retry_after" =
        some (.int (wholeSeconds (Until ((rl.IsAllowed nowAllowed (getClientID c)).2.GetResetTime
          nowReset (getClientID c)) nowUntil)))) ∧
    ((rl.IsAllowed nowAllowed c.clientIP).1 = false →
      (IPRateLimitMiddleware rl nowAllowed nowRemaining nowReset nowUntil c).1.status = some 429 ∧
      (IPRateLimitMiddleware rl nowAllowed nowRemaining nowReset nowUntil c).1.bodyField
          "retry_after" =
        some (.int (wholeSeconds (Until ((rl.IsAllowed nowAllowed c.clientIP).2.GetResetTime
          nowReset c.clientIP) nowUntil)))) ∧
    (∀ userID, c.keys "user_id" = some userID →
      (rl.IsAllowed nowAllowed ("user:" ++ formatValue userID)).1 = false →
      (UserRateLimitMiddleware rl nowAllowed nowRemaining nowReset nowUntil c).1.status =
        some 429 ∧
      (UserRateLimitMiddleware rl nowAllowed nowRemaining nowReset nowUntil c).1.bodyField
          "retry_after" =
        some (.int (wholeSeconds (Until
          ((rl.IsAllowed nowAllowed ("user:" ++ formatValue userID)).2.GetResetTime
            nowReset ("user:" ++ formatValue userID)) nowUntil)))) ∧
    (∀ resetAt : Int, -(2 ^ 24 * Second) < resetAt - nowUntil →
      resetAt - nowUntil < 2 ^ 24 * Second →
      wholeSeconds (Until resetAt nowUntil) = Int.tdiv (resetAt - nowUntil) Second) ∧
    (∀ resetAt : Int, -Second < resetAt - nowUntil → resetAt - nowUntil < 2 ^ 24 * Second →
      wholeSeconds (Until resetAt nowUntil) = max 0 ((resetAt - nowUntil) / Second)) ∧
    (∀ resetAt : Int, resetAt - nowUntil ≤ -Second →
      wholeSeconds (Until resetAt nowUntil) < 0) ∧
    (∀ resetAt : Int, 0 ≤ resetAt - nowUntil →
      0 ≤ wholeSeconds (Until resetAt nowUntil) ∧
      Until resetAt nowUntil / Second ≤ wholeSeconds (Until resetAt nowUntil) ∧
      wholeSeconds (Until resetAt nowUntil) ≤ Until resetAt nowUntil / Second + 1) ∧
    (∀ key, (rl.IsAllowed nowAllowed key).1 = false →
      0 ≤ wholeSeconds (Until ((rl.IsAllowed nowAllowed key).2.GetResetTime nowAllowed key)
        nowAllowed)) := by
  have hS : Second = 1000000000 := rfl
  refine ⟨?_, ?_, ?_, ?_, ?_, ?_, ?_, ?_⟩
  · intro hden
    unfold RateLimitMiddleware
    simp only [hden, Bool.not_false, if_true]
    exact ⟨(bodyField_JSON _ _ _ _ _).2, (bodyField_JSON _ _ _ _ _).1⟩
  · intro hden
    unfold IPRateLimitMiddleware
    simp only [hden, Bool.not_false, if_true]
    exact ⟨(bodyField_JSON _ _ _ _ _).2, (bodyField_JSON _ _ _ _ _).1⟩
  · intro userID hkey hden
    unfold UserRateLimitMiddleware
    simp only [hkey, hden, Bool.not_false, if_true]
    exact ⟨(bodyField_JSON _ _ _ _ _).2, (bodyField_JSON _ _ _ _ _).1⟩
  · intro r h1 h2
    have hU : Until r nowUntil = r - nowUntil :=
      (Until_spec r nowUntil).2.2.1 (by unfold minDuration; rw [hS] at h1; omega)
        (by unfold maxDuration; rw [hS] at h2; omega)
    rw [hU]
    exact (wholeSeconds_exact _ h1 h2).1
  · intro r h1 h2
    have hU : Until r nowUntil = r - nowUntil :=
      (Until_spec r nowUntil).2.2.1 (by unfold minDuration; rw [hS] at h1; omega)
        (by unfold maxDuration; rw [hS] at h2; omega)
    rw [hU]
    exact wholeSeconds_eq_max _ h1 h2
  · intro r h1
    exact wholeSeconds_neg _ (Until_spec r nowUntil).1 ((Until_spec r nowUntil).2.2.2.1 h1)
  · intro r h1
    exact wholeSeconds_nonneg _ ((Until_spec r nowUntil).2.2.2.2 h1) (Until_spec r nowUntil).2.1
  · intro key hden
    have h := reset_after_denial rl key nowAllowed hden
    have hU := Until_spec ((rl.IsAllowed nowAllowed key).2.GetResetTime nowAllowed key) nowAllowed
    exact (wholeSeconds_nonneg _ (hU.2.2.2.2 (by omega)) hU.2.1).1

/-- Checked, denied and answered at 0.5 s with the reset time at 1 s: `retry_after` is 0,
which is `max(0, reset_at - now)` in whole seconds. -/
theorem retry_after_spec_witness :
    (busyLimiter.IsAllowed 500000000 (getClientID (newRequest "" "10.0.0.1" (fun _ => none)))).1
      = false ∧
    (RateLimitMiddleware busyLimiter 500000000 500000000 500000000 500000000
        (newRequest "" "10.0.0.1" (fun _ => none))).1.status = some 429 ∧
    (RateLimitMiddleware busyLimiter 500000000 500000000 500000000 500000000
        (newRequest "" "10.0.0.1" (fun _ => none))).1.bodyField "retry_after" =
      some (.int 0) ∧
    -Second < (1000000000 : Int) - 500000000 ∧
    (1000000000 : Int) - 500000000 < 2 ^ 24 * Second ∧
    wholeSeconds (Until 1000000000 500000000) =
      max 0 (((1000000000 : Int) - 500000000) / Second) :=
  ⟨by decide,
    ((retry_after_spec busyLimiter 500000000 500000000 500000000 500000000
      (newRequest "" "10.0.0.1" (fun _ => none))).1 (by decide)).1,
    by decide, by decide, by decide,
    (retry_after_spec busyLimiter 500000000 500000000 500000000 500000000
      (newRequest "" "10.0.0.1" (fun _ => none))).2.2.2.2.1 1000000000 (by decide) (by decide)⟩

/-- C20 as stated fails: with limit 1 and window one second the address `10.0.0.1` holds
the timestamp 0; the request is checked at 0.5 s and denied, the reset time is 1 s, and
the body, written at 3 s, carries `retry_after = -2`, where `max(0, reset_at - now)` is 0. -/
theorem retry_after_counterexample :
    (RateLimitMiddleware busyLimiter 500000000 500000000 500000000 3000000000
        (newRequest "" "10.0.0.1" (fun _ => none))).1.status = some 429 ∧
    (busyLimiter.IsAllowed 500000000 "10.0.0.1").2.GetResetTime 500000000 "10.0.0.1"
      = 1000000000 ∧
    (RateLimitMiddleware busyLimiter 500000000 500000000 500000000 3000000000
        (newRequest "" "10.0.0.1" (fun _ => none))).1.bodyField "retry_after" =
      some (.int (-2)) ∧
    max 0 ((1000000000 - 3000000000 : Int) / Second) = 0 := by
  refine ⟨by decide, by decide, by decide, by decide⟩

set_option maxRecDepth 8192 in
/-- From 2^24 seconds on the float64 sum can round up to the next second: a span of
16777216.999999999 s has 16777217 whole seconds, one of 16777215.999999999 s has 16777215.
A span that no duration holds counts as the smallest duration. -/
theorem wholeSeconds_examples :
    wholeSeconds 16777216999999999 = 16777217 ∧
    Int.tdiv 16777216999999999 Second = 16777216 ∧
    wholeSeconds 16777215999999999 = 16777215 ∧
    wholeSeconds 1500000000 = 1 ∧
    wholeSeconds (-1500000000) = -1 ∧
    wholeSeconds (-999999999) = 0 ∧
    Until 0 10000000000000000000 = minDuration ∧
    wholeSeconds (Until 0 10000000000000000000) = -9223372036 := by
  refine ⟨by decide, by decide, by decide, by decide, by decide, by decide, by decide,
    by decide⟩

end GoCrud
